import Mathlib

/-!
Similarity signatures (`src/hashsig.c`): embedding and verification

The C code is embedded function by function.  Conventions of the embedding:

* `uint64_t` / `uint32_t` values are natural numbers kept below `2^64` / `2^32`
  by an explicit `% 2^64` / `% 2^32` after every operation that can wrap.
* `int` counters and indices (`size`, `asize`, `considered`, `win_len`,
  `win_pos`, loop indices) are natural numbers: the code never makes one of
  them negative, and signed overflow is undefined in C, so the embedding covers
  the executions in which no `int` overflows.  All of them but `considered`
  stay below 128; `considered` is incremented once per sample, and every
  statement about its value carries the bound `INT_MAX` on the number of
  samples, under which the counter of the code and the natural number agree.
* An array is a list; `a[i]` is `a.getD i 0` and `a[i] = x` is `a.set i x`.
* A function pointer `hashsig_cmp` is a tag naming the function it points to.
* Plain `char` has implementation-defined signedness; the functions that store
  bytes in the `char` window take it as the parameter `char_signed`.
* `while`/`for` loops over the input buffer are recursions over the list of the
  remaining bytes; loops over indices carry a fuel argument, and the caller
  supplies a fuel that the loop provably never exhausts.
-/

namespace Hashsig

/-! ## Constants and machine arithmetic -/

abbrev HASHSIG_SCALE : Nat := 100
abbrev HASHSIG_HASH_WINDOW : Nat := 8
abbrev HASHSIG_HASH_START : Nat := 0
abbrev HASHSIG_HASH_SHIFT : Nat := 3
abbrev HASHSIG_HASH_MASK : Nat := 0x000FFFFF
abbrev HASHSIG_HEAP_SIZE : Nat := (1 <<< 7) - 1

/-- Reduction of a natural number to a `uint64_t`. -/
def u64 (n : Nat) : Nat := n % 2 ^ 64

/-- Reduction of a natural number to a `uint32_t`. -/
def u32 (n : Nat) : Nat := n % 2 ^ 32

/-- `INT_MAX` of `<limits.h>` for a 32-bit `int`: the largest value that an
`int` field such as `considered` can hold. -/
def INT_MAX : Nat := 2147483647

/-- Conversion of an `int` (or a promoted `char`) to `uint64_t`: reduction
modulo `2^64`, which sign-extends negative values. -/
def u64_of_int (x : Int) : Nat := (x % 2 ^ 64).toNat

/-- The value `~HASHSIG_HASH_MASK` as it enters the 64-bit `&`: the `int`
`~0x000FFFFF = -0x100000` converted to `uint64_t`. -/
def HASHSIG_HASH_NOT_MASK : Nat := u64_of_int (-(HASHSIG_HASH_MASK : Int) - 1)

/-- Conversion of an `unsigned char` value (0..255) to plain `char`: unchanged
when `char` is unsigned, reduced into -128..127 when it is signed. -/
def char_of_uchar (char_signed : Bool) (ch : Nat) : Int :=
  if char_signed && decide (128 ≤ ch) then (ch : Int) - 256 else (ch : Int)

/-- Modelled from the spec: the option flags of `git_hashsig_option_t`, declared
in `hashsig.h` (not among the sources): Normal is 0, IgnoreWhitespace is bit 0,
SmartWhitespace is bit 1, and the flags may be OR-combined. -/
def GIT_HASHSIG_NORMAL : Nat := 0

/-- Modelled from the spec: the IgnoreWhitespace flag (option value 1). -/
def GIT_HASHSIG_IGNORE_WHITESPACE : Nat := 1

/-- Modelled from the spec: the SmartWhitespace flag (option value 2). -/
def GIT_HASHSIG_SMART_WHITESPACE : Nat := 2

/-- Modelled from the spec: `git__isspace`, a helper of `util.h` (not among the
sources); the spec lists the ASCII whitespace characters as space, tab, CR, LF,
VT and FF. -/
def git__isspace (c : Int) : Bool :=
  c == 32 || c == 9 || c == 13 || c == 10 || c == 11 || c == 12

/-- The error codes that the signature code returns; the constants are
declared in `git2/errors.h` (not among the sources), so they are kept
abstract.  A return value of 0 is `Except.ok`. -/
inductive git_error_code where
  | GIT_EBUFS
  deriving DecidableEq, Repr

/-! ## Data model -/

/-- The function pointer type `hashsig_cmp`: which comparison function the heap
carries. -/
inductive hashsig_cmp where
  | cmp_min
  | cmp_max
  deriving DecidableEq, Repr

/-- `hashsig_cmp_max`. -/
def hashsig_cmp_max (av bv : Nat) : Int :=
  if av < bv then -1 else if av > bv then 1 else 0

/-- `hashsig_cmp_min`. -/
def hashsig_cmp_min (av bv : Nat) : Int :=
  if av > bv then -1 else if av < bv then 1 else 0

/-- A call through the function pointer: `h->cmp(&a, &b)`. -/
def hashsig_cmp.call : hashsig_cmp → Nat → Nat → Int
  | .cmp_min, a, b => hashsig_cmp_min a b
  | .cmp_max, a, b => hashsig_cmp_max a b

/-- `hashsig_heap`: `values` is the whole array of `HASHSIG_HEAP_SIZE` slots,
of which the first `size` are live. -/
structure hashsig_heap where
  size : Nat
  asize : Nat
  cmp : hashsig_cmp
  values : List Nat
  deriving DecidableEq, Repr

/-- `hashsig_in_progress`; `saw_lf` only ever holds 0 or 1. -/
structure hashsig_in_progress where
  state : Nat
  shift_n : Nat
  window : List Int
  win_len : Nat
  win_pos : Nat
  saw_lf : Bool
  deriving DecidableEq, Repr

/-- `HASHSIG_IN_PROGRESS_INIT`. -/
def HASHSIG_IN_PROGRESS_INIT : hashsig_in_progress :=
  { state := HASHSIG_HASH_START, shift_n := 1,
    window := List.replicate HASHSIG_HASH_WINDOW 0,
    win_len := 0, win_pos := 0, saw_lf := true }

/-- `struct git_hashsig`.  The `int` field `considered` is a natural number
here; it agrees with the field of the code as long as it does not exceed
`INT_MAX`. -/
structure git_hashsig where
  mins : hashsig_heap
  maxs : hashsig_heap
  opt : Nat
  considered : Nat
  deriving DecidableEq, Repr

def HEAP_LCHILD_OF (i : Nat) : Nat := i * 2 + 1
def HEAP_RCHILD_OF (i : Nat) : Nat := i * 2 + 2

/-- `HEAP_PARENT_OF`; at `I = 0` the C macro yields -1, which the code never
uses as an index (the loop tests `el > 0` first), and the embedding yields 0. -/
def HEAP_PARENT_OF (i : Nat) : Nat := (i - 1) >>> 1

/-! ## The bounded heap -/

/-- `hashsig_heap_init`, applied to zero-initialised (`calloc`) storage. -/
def hashsig_heap_init (cmp : hashsig_cmp) : hashsig_heap :=
  { size := 0, asize := HASHSIG_HEAP_SIZE, cmp := cmp,
    values := List.replicate HASHSIG_HEAP_SIZE 0 }

/-- The loop of `hashsig_heap_up`. -/
def hashsig_heap_up_loop : Nat → hashsig_heap → Nat → hashsig_heap
  | 0, h, _ => h
  | fuel + 1, h, el =>
    let parent_el := HEAP_PARENT_OF el
    if 0 < el ∧ 0 < h.cmp.call (h.values.getD parent_el 0) (h.values.getD el 0) then
      let t := h.values.getD el 0
      let values1 := h.values.set el (h.values.getD parent_el 0)
      let values2 := values1.set parent_el t
      hashsig_heap_up_loop fuel { h with values := values2 } parent_el
    else h

/-- `hashsig_heap_up`. -/
def hashsig_heap_up (h : hashsig_heap) (el : Nat) : hashsig_heap :=
  hashsig_heap_up_loop (el + 1) h el

/-- The loop of `hashsig_heap_down`. -/
def hashsig_heap_down_loop : Nat → hashsig_heap → Nat → hashsig_heap
  | 0, h, _ => h
  | fuel + 1, h, el =>
    if el < h.size / 2 then
      let lel := HEAP_LCHILD_OF el
      let rel := HEAP_RCHILD_OF el
      let v := h.values.getD el 0
      let lv := h.values.getD lel 0
      let rv := h.values.getD rel 0
      if h.cmp.call v lv < 0 ∧ h.cmp.call v rv < 0 then h
      else
        let swapel := if h.cmp.call lv rv < 0 then lel else rel
        let values1 := h.values.set el (h.values.getD swapel 0)
        let values2 := values1.set swapel v
        hashsig_heap_down_loop fuel { h with values := values2 } swapel
    else h

/-- `hashsig_heap_down`. -/
def hashsig_heap_down (h : hashsig_heap) (el : Nat) : hashsig_heap :=
  hashsig_heap_down_loop (h.size + 1) h el

/-- One insertion of `x` into an already sorted array, as a comparison sort
driven by `cmp` places it. -/
def qsort_insert (cmp : hashsig_cmp) (x : Nat) : List Nat → List Nat
  | [] => [x]
  | y :: ys => if cmp.call x y ≤ 0 then x :: y :: ys else y :: qsort_insert cmp x ys

/-- The C library function `qsort` on an array of `hashsig_t`: the result is the
arrangement of the elements in which `cmp` of two neighbours is never positive.
For plain integers under `hashsig_cmp_min` / `hashsig_cmp_max` that arrangement
is unique, whatever algorithm the library uses (`qsort_unique` below). -/
def qsort (cmp : hashsig_cmp) (l : List Nat) : List Nat :=
  l.foldr (qsort_insert cmp) []

/-- `hashsig_heap_sort`: sorts the `size` live values in place. -/
def hashsig_heap_sort (h : hashsig_heap) : hashsig_heap :=
  { h with values := qsort h.cmp (h.values.take h.size) ++ h.values.drop h.size }

/-- `hashsig_heap_insert`. -/
def hashsig_heap_insert (h : hashsig_heap) (val : Nat) : hashsig_heap :=
  let h1 :=
    if h.size = h.asize ∧ 0 < h.cmp.call val (h.values.getD 0 0) then
      let hp := { h with size := h.size - 1 }
      let hp := { hp with values := hp.values.set 0 (hp.values.getD hp.size 0) }
      hashsig_heap_down hp 0
    else h
  if h1.size < h1.asize then
    let h2 := { h1 with values := h1.values.set h1.size val, size := h1.size + 1 }
    hashsig_heap_up h2 (h2.size - 1)
  else h1

/-! ## Whitespace filter and mixer -/

/-- `hashsig_include_char`: returns the decision and the new value of
`*saw_lf`. -/
def hashsig_include_char (ch : Int) (opt : Nat) (saw_lf : Bool) : Bool × Bool :=
  if (opt &&& GIT_HASHSIG_IGNORE_WHITESPACE ≠ 0) ∧ git__isspace ch = true then
    (false, saw_lf)
  else if opt &&& GIT_HASHSIG_SMART_WHITESPACE ≠ 0 then
    if ch = 13 ∨ (saw_lf = true ∧ git__isspace ch = true) then (false, saw_lf)
    else (true, decide (ch = 10))
  else (true, saw_lf)

/-- `fmix32` on a `uint32_t`. -/
def fmix32 (h : Nat) : Nat :=
  let h := h ^^^ (h >>> 16)
  let h := u32 (h * 0x85ebca6b)
  let h := h ^^^ (h >>> 13)
  let h := u32 (h * 0xc2b2ae35)
  let h := h ^^^ (h >>> 16)
  h

/-! ## The rolling hash -/

/-- The locals of `hashsig_initial_window` that its loop updates, together
with the in-progress structure (whose `window` and `saw_lf` the loop writes
directly) and the scan pointer, given as the bytes not yet read. -/
structure initial_window_locals where
  state : Nat
  shift_n : Nat
  win_len : Nat
  prog : hashsig_in_progress
  scan : List UInt8
  deriving DecidableEq, Repr

/-- The `while` loop of `hashsig_initial_window`. -/
def hashsig_initial_window_loop (char_signed : Bool) (opt : Nat) :
    List UInt8 → Nat → Nat → Nat → hashsig_in_progress → initial_window_locals
  | [], state, shift_n, win_len, prog =>
    { state := state, shift_n := shift_n, win_len := win_len, prog := prog, scan := [] }
  | b :: rest, state, shift_n, win_len, prog =>
    if win_len < HASHSIG_HASH_WINDOW then
      let ch := b.toNat
      let inc := hashsig_include_char (char_of_uchar char_signed ch) opt prog.saw_lf
      let prog := { prog with saw_lf := inc.2 }
      if inc.1 = false then
        hashsig_initial_window_loop char_signed opt rest state shift_n win_len prog
      else
        let state := (state &&& HASHSIG_HASH_NOT_MASK) |||
          (u64 (state * HASHSIG_HASH_SHIFT + ch) &&& HASHSIG_HASH_MASK)
        let state := u64 (state + (ch <<< 20))
        let shift_n :=
          if win_len = 0 then 1 else u64 (shift_n * HASHSIG_HASH_SHIFT) &&& HASHSIG_HASH_MASK
        let prog := { prog with window := prog.window.set win_len (char_of_uchar char_signed ch) }
        hashsig_initial_window_loop char_signed opt rest state shift_n (win_len + 1) prog
    else
      { state := state, shift_n := shift_n, win_len := win_len, prog := prog, scan := b :: rest }

/-- `hashsig_initial_window`: returns the signature, the in-progress structure
and the advanced `*data`. -/
def hashsig_initial_window (char_signed : Bool) (sig : git_hashsig) (data : List UInt8)
    (prog : hashsig_in_progress) : git_hashsig × hashsig_in_progress × List UInt8 :=
  if HASHSIG_HASH_WINDOW ≤ prog.win_len then (sig, prog, data)
  else
    let r := hashsig_initial_window_loop char_signed sig.opt data
      prog.state prog.shift_n prog.win_len prog
    let sig1 :=
      if r.win_len = HASHSIG_HASH_WINDOW then
        { sig with
          mins := hashsig_heap_insert sig.mins (fmix32 (u32 r.state)),
          maxs := hashsig_heap_insert sig.maxs (fmix32 (u32 r.state)),
          considered := 1 }
      else sig
    (sig1, { r.prog with state := r.state, win_len := r.win_len, shift_n := r.shift_n }, r.scan)

/-- The `for` loop of `hashsig_add_hashes`; returns the signature, the
in-progress structure and the local `state`. -/
def hashsig_add_hashes_loop (char_signed : Bool) :
    List UInt8 → git_hashsig → hashsig_in_progress → Nat → Nat →
      git_hashsig × hashsig_in_progress × Nat
  | [], sig, prog, state, _ => (sig, prog, state)
  | b :: rest, sig, prog, state, shift_n =>
    let ch := b.toNat
    let inc := hashsig_include_char (char_of_uchar char_signed ch) sig.opt prog.saw_lf
    let prog := { prog with saw_lf := inc.2 }
    if inc.1 = false then
      hashsig_add_hashes_loop char_signed rest sig prog state shift_n
    else
      let rmv := u64 (u64 (shift_n + (1 <<< 20)) * u64_of_int (prog.window.getD prog.win_pos 0))
      let state := u64 (state + 2 ^ 64 - rmv)
      let state := (state &&& HASHSIG_HASH_NOT_MASK) |||
        (u64 (state * HASHSIG_HASH_SHIFT) &&& HASHSIG_HASH_MASK)
      let state := u64 (u64 (state + ch) + (ch <<< 20))
      let sig := { sig with
        mins := hashsig_heap_insert sig.mins (fmix32 (u32 state)),
        maxs := hashsig_heap_insert sig.maxs (fmix32 (u32 state)),
        considered := sig.considered + 1 }
      let prog := { prog with
        window := prog.window.set prog.win_pos (char_of_uchar char_signed ch),
        win_pos := (prog.win_pos + 1) % HASHSIG_HASH_WINDOW }
      hashsig_add_hashes_loop char_signed rest sig prog state shift_n

/-- `hashsig_add_hashes`.  The C function always returns 0; the embedding
returns the two structures it updates. -/
def hashsig_add_hashes (char_signed : Bool) (sig : git_hashsig) (data : List UInt8)
    (prog : hashsig_in_progress) : git_hashsig × hashsig_in_progress :=
  let s :=
    if prog.win_len < HASHSIG_HASH_WINDOW then hashsig_initial_window char_signed sig data prog
    else (sig, prog, data)
  let r := hashsig_add_hashes_loop char_signed s.2.2 s.1 s.2.1 s.2.1.state s.2.1.shift_n
  (r.1, { r.2.1 with state := r.2.2 })

/-- `hashsig_finalize_hashes`. -/
def hashsig_finalize_hashes (sig : git_hashsig) : Except git_error_code git_hashsig :=
  if sig.mins.size < HASHSIG_HEAP_SIZE then .error .GIT_EBUFS
  else .ok { sig with mins := hashsig_heap_sort sig.mins, maxs := hashsig_heap_sort sig.maxs }

/-- `hashsig_alloc` (the allocation itself is assumed to succeed). -/
def hashsig_alloc (opts : Nat) : git_hashsig :=
  { mins := hashsig_heap_init .cmp_min, maxs := hashsig_heap_init .cmp_max,
    opt := opts, considered := 0 }

/-- `git_hashsig_create`: `Except.ok sig` stands for return value 0 with
`*out = sig`. -/
def git_hashsig_create (char_signed : Bool) (buf : List UInt8) (opts : Nat) :
    Except git_error_code git_hashsig :=
  let r := hashsig_add_hashes char_signed (hashsig_alloc opts) buf HASHSIG_IN_PROGRESS_INIT
  hashsig_finalize_hashes r.1

/-! ## The comparison -/

/-- The merge loop of `hashsig_heap_compare`; returns `matches`. -/
def hashsig_heap_compare_loop : Nat → hashsig_heap → hashsig_heap → Nat → Nat → Nat → Nat
  | 0, _, _, _, _, matches_ => matches_
  | fuel + 1, a, b, i, j, matches_ =>
    if i < a.size ∧ j < b.size then
      let cmp := a.cmp.call (a.values.getD i 0) (b.values.getD j 0)
      if cmp < 0 then hashsig_heap_compare_loop fuel a b (i + 1) j matches_
      else if 0 < cmp then hashsig_heap_compare_loop fuel a b i (j + 1) matches_
      else hashsig_heap_compare_loop fuel a b (i + 1) (j + 1) (matches_ + 1)
    else matches_

/-- The number of matches that the loop of `hashsig_heap_compare` counts. -/
def hashsig_heap_matches (a b : hashsig_heap) : Nat :=
  hashsig_heap_compare_loop (a.size + b.size) a b 0 0 0

/-- `hashsig_heap_compare`; `none` is the division by zero (`a->size + b->size = 0`).
The `assert(a->cmp == b->cmp)` is not executed here: the theorems state it as a
hypothesis. -/
def hashsig_heap_compare (a b : hashsig_heap) : Option Int :=
  if a.size + b.size = 0 then none
  else some (Int.tdiv ((HASHSIG_SCALE : Int) * ((hashsig_heap_matches a b : Int) * 2))
    ((a.size : Int) + (b.size : Int)))

/-- `git_hashsig_compare`. -/
def git_hashsig_compare (a b : git_hashsig) : Option Int :=
  match hashsig_heap_compare a.mins b.mins, hashsig_heap_compare a.maxs b.maxs with
  | some x, some y => some (Int.tdiv (x + y) 2)
  | _, _ => none

/-! ## The importer (`src/import.c`) -/

/-- `struct git_importer`: the repository that owns the importer.  `Repo` is the
type of repository handles (`git_repository *`). -/
structure git_importer (Repo : Type) where
  owner : Repo

/-- `git_importer_create` (the allocation itself is assumed to succeed): the
return value and the importer stored in `*importer_p`. -/
def git_importer_create {Repo : Type} (repo : Repo) : Int × git_importer Repo :=
  let importer : git_importer Repo := { owner := repo }
  (0, importer)

/-- `git_importer_blob`.  `git_blob_create_frombuffer` belongs to the blob code,
which is not among the sources; it is the parameter `frombuffer`, a function of
the repository, the state of its object store, the buffer and the length that
yields the return code, the id written to `*oid_p` and the new state of the
store.  The embedding returns the same triple. -/
def git_importer_blob {Repo World Oid : Type}
    (frombuffer : Repo → World → List UInt8 → Nat → Int × Oid × World)
    (importer : git_importer Repo) (w : World) (buffer : List UInt8) (len : Nat) :
    Int × Oid × World :=
  let error := frombuffer importer.owner w buffer len
  error

/-! ## Derived definitions used by the statements

None of these is a function of the source: each restates a part of a loop body
or a notion of the specification, and a later result connects it to the
embedded code. -/

/-- The reaction of the hasher to one accepted byte `ch`: the updated
in-progress data and the sample handed to `hashsig_heap_insert`, if any.  The
first branch is the body of the loop of `hashsig_initial_window` (with the
insertion that follows the loop when the window has just filled), the second
the body of the loop of `hashsig_add_hashes`. -/
def hashsig_roll (char_signed : Bool) (prog : hashsig_in_progress) (ch : Nat) :
    hashsig_in_progress × Option Nat :=
  if prog.win_len < HASHSIG_HASH_WINDOW then
    let state := (prog.state &&& HASHSIG_HASH_NOT_MASK) |||
      (u64 (prog.state * HASHSIG_HASH_SHIFT + ch) &&& HASHSIG_HASH_MASK)
    let state := u64 (state + (ch <<< 20))
    let shift_n :=
      if prog.win_len = 0 then 1 else u64 (prog.shift_n * HASHSIG_HASH_SHIFT) &&& HASHSIG_HASH_MASK
    ({ prog with
        state := state, shift_n := shift_n,
        window := prog.window.set prog.win_len (char_of_uchar char_signed ch),
        win_len := prog.win_len + 1 },
      if prog.win_len + 1 = HASHSIG_HASH_WINDOW then some (fmix32 (u32 state)) else none)
  else
    let rmv := u64 (u64 (prog.shift_n + (1 <<< 20)) *
      u64_of_int (prog.window.getD prog.win_pos 0))
    let state := u64 (prog.state + 2 ^ 64 - rmv)
    let state := (state &&& HASHSIG_HASH_NOT_MASK) |||
      (u64 (state * HASHSIG_HASH_SHIFT) &&& HASHSIG_HASH_MASK)
    let state := u64 (u64 (state + ch) + (ch <<< 20))
    ({ prog with
        state := state,
        window := prog.window.set prog.win_pos (char_of_uchar char_signed ch),
        win_pos := (prog.win_pos + 1) % HASHSIG_HASH_WINDOW },
      some (fmix32 (u32 state)))

/-- What the code does to the signature with an emitted sample: one
`hashsig_heap_insert` into each heap, and `considered = 1` after the warm-up
(`warm = true`) or `considered++` in the steady state. -/
def hashsig_record (sig : git_hashsig) (warm : Bool) : Option Nat → git_hashsig
  | none => sig
  | some v =>
    { sig with
      mins := hashsig_heap_insert sig.mins v,
      maxs := hashsig_heap_insert sig.maxs v,
      considered := if warm then 1 else sig.considered + 1 }

/-- The effect of one input byte on the pair of structures that
`hashsig_add_hashes` updates. -/
def hashsig_feed_byte (char_signed : Bool) (sp : git_hashsig × hashsig_in_progress)
    (b : UInt8) : git_hashsig × hashsig_in_progress :=
  let ch := b.toNat
  let inc := hashsig_include_char (char_of_uchar char_signed ch) sp.1.opt sp.2.saw_lf
  let prog := { sp.2 with saw_lf := inc.2 }
  if inc.1 = false then (sp.1, prog)
  else
    let r := hashsig_roll char_signed prog ch
    (hashsig_record sp.1 (decide (prog.win_len < HASHSIG_HASH_WINDOW)) r.2, r.1)

/-- The effect of one accepted byte on the pair of structures: `hashsig_roll`
followed by the two insertions of the sample, without the whitespace filter. -/
def hashsig_advance (char_signed : Bool) (sp : git_hashsig × hashsig_in_progress)
    (b : UInt8) : git_hashsig × hashsig_in_progress :=
  let r := hashsig_roll char_signed sp.2 b.toNat
  (hashsig_record sp.1 (decide (sp.2.win_len < HASHSIG_HASH_WINDOW)) r.2, r.1)

/-- The sequence of samples that feeding `data` emits, in order. -/
def hashsig_samples (char_signed : Bool) (opt : Nat) :
    hashsig_in_progress → List UInt8 → List Nat
  | _, [] => []
  | prog, b :: rest =>
    let ch := b.toNat
    let inc := hashsig_include_char (char_of_uchar char_signed ch) opt prog.saw_lf
    let prog := { prog with saw_lf := inc.2 }
    if inc.1 = false then hashsig_samples char_signed opt prog rest
    else
      let r := hashsig_roll char_signed prog ch
      r.2.toList ++ hashsig_samples char_signed opt r.1 rest

/-- The bytes of `data` that `hashsig_include_char` accepts, in order, and the
final value of `saw_lf`. -/
def hashsig_accepted (char_signed : Bool) (opt : Nat) : Bool → List UInt8 → List UInt8 × Bool
  | saw_lf, [] => ([], saw_lf)
  | saw_lf, b :: rest =>
    let inc := hashsig_include_char (char_of_uchar char_signed b.toNat) opt saw_lf
    let r := hashsig_accepted char_signed opt inc.2 rest
    if inc.1 = false then r else (b :: r.1, r.2)

/-- Feeding a list of chunks, one `hashsig_add_hashes` call per chunk. -/
def hashsig_add_chunks (char_signed : Bool) (sig : git_hashsig) (chunks : List (List UInt8))
    (prog : hashsig_in_progress) : git_hashsig × hashsig_in_progress :=
  chunks.foldl (fun sp c => hashsig_add_hashes char_signed sp.1 c sp.2) (sig, prog)

/-- Whitespace bytes of the specification: space, tab, CR, LF, VT and FF. -/
def is_ws (b : UInt8) : Bool :=
  b.toNat == 32 || b.toNat == 9 || b.toNat == 13 || b.toNat == 10 || b.toNat == 11 ||
    b.toNat == 12

/-- The `strip_ws` of the specification: every whitespace byte removed. -/
def strip_ws (data : List UInt8) : List UInt8 := data.filter (fun b => !is_ws b)

/-- `cr_inserted I J`: `J` is `I` with CR bytes inserted at arbitrary
positions. -/
inductive cr_inserted : List UInt8 → List UInt8 → Prop where
  | nil : cr_inserted [] []
  | keep (b : UInt8) {I J : List UInt8} : cr_inserted I J → cr_inserted (b :: I) (b :: J)
  | ins {I J : List UInt8} : cr_inserted I J → cr_inserted I (13 :: J)

/-- Every LF replaced by CR LF. -/
def lf_to_crlf : List UInt8 → List UInt8
  | [] => []
  | b :: rest => if b = 10 then 13 :: 10 :: lf_to_crlf rest else b :: lf_to_crlf rest

/-- The state of the two structures after `n` bytes have been accepted since
the fresh start: window length, sample count, and the shape of the heaps. -/
def fed_inv (n : Nat) (sp : git_hashsig × hashsig_in_progress) : Prop :=
  sp.2.win_len = min n HASHSIG_HASH_WINDOW ∧
  sp.1.considered = n - 7 ∧
  sp.1.mins.asize = HASHSIG_HEAP_SIZE ∧ sp.1.maxs.asize = HASHSIG_HEAP_SIZE ∧
  sp.1.mins.size = min (n - 7) HASHSIG_HEAP_SIZE ∧
  sp.1.maxs.size = min (n - 7) HASHSIG_HEAP_SIZE ∧
  sp.1.mins.cmp = hashsig_cmp.cmp_min ∧ sp.1.maxs.cmp = hashsig_cmp.cmp_max

/-- The 13 bytes of "Hello, world.". -/
def hello_world : List UInt8 :=
  [72, 101, 108, 108, 111, 44, 32, 119, 111, 114, 108, 100, 46]

/-- The letters a..h cycled, 200 bytes. -/
def abcdefgh_200 : List UInt8 :=
  (List.range 200).map (fun i => UInt8.ofNat (97 + i % 8))

/-- The bytes 0..199. -/
def bytes_0_199 : List UInt8 := (List.range 200).map (fun i => UInt8.ofNat i)

/-- A heap structure holding the values `l` as its live values. -/
def heap_of (c : hashsig_cmp) (l : List Nat) : hashsig_heap :=
  { size := l.length, asize := HASHSIG_HEAP_SIZE, cmp := c,
    values := l ++ List.replicate (HASHSIG_HEAP_SIZE - l.length) 0 }

/-- The samples emitted while the hasher advances over the accepted bytes
`l`. -/
def hashsig_roll_samples (char_signed : Bool) : hashsig_in_progress → List UInt8 → List Nat
  | _, [] => []
  | prog, b :: rest =>
    (hashsig_roll char_signed prog b.toNat).2.toList ++
      hashsig_roll_samples char_signed (hashsig_roll char_signed prog b.toNat).1 rest

/-- Two outcomes of `git_hashsig_create` agree: both fail with the same code, or
both succeed with the same min-side heap, max-side heap and considered count. -/
def same_outcome (r1 r2 : Except git_error_code git_hashsig) : Prop :=
  match r1, r2 with
  | .ok s, .ok t => s.mins = t.mins ∧ s.maxs = t.maxs ∧ s.considered = t.considered
  | .error e, .error f => e = f
  | _, _ => False

/-- Two in-progress structures agree in every field but `saw_lf`. -/
def same_but_saw_lf (p q : hashsig_in_progress) : Prop :=
  p.state = q.state ∧ p.shift_n = q.shift_n ∧ p.window = q.window ∧
  p.win_len = q.win_len ∧ p.win_pos = q.win_pos

/-- A text with LF line ends, used as an example input. -/
def two_lines : List UInt8 := [97, 98, 10, 99, 100, 10]

/-- The heap property on the first `n` slots of `l`: no parent compares worse
than its child, `cmp(parent, child) <= 0`. -/
def heap_ok (c : hashsig_cmp) (l : List Nat) (n : Nat) : Prop :=
  ∀ i, 0 < i → i < n → c.call (l.getD ((i - 1) / 2) 0) (l.getD i 0) ≤ 0

/-- The order in which `qsort` with comparator `c` arranges values:
`cmp(a, b) <= 0`. -/
def cmp_le (c : hashsig_cmp) (a b : Nat) : Prop := c.call a b ≤ 0

instance cmp_le_decidable (c : hashsig_cmp) : DecidableRel (cmp_le c) :=
  fun a b => inferInstanceAs (Decidable (c.call a b ≤ 0))

/-- The order in which a heap with comparator `c` ranks values from best (kept
longest) to worst (evicted first): `cmp(b, a) <= 0`.  For `hashsig_cmp_min` it
is `a <= b`, for `hashsig_cmp_max` it is `a >= b`. -/
def cmp_ge (c : hashsig_cmp) (a b : Nat) : Prop := c.call b a ≤ 0

instance cmp_ge_decidable (c : hashsig_cmp) : DecidableRel (cmp_ge c) :=
  fun a b => inferInstanceAs (Decidable (c.call b a ≤ 0))

/-- The first half of `hashsig_heap_insert`: the root is dropped, the last live
value takes its place and is sifted down. -/
def heap_pop (h : hashsig_heap) : hashsig_heap :=
  let hp := { h with size := h.size - 1 }
  let hp := { hp with values := hp.values.set 0 (hp.values.getD hp.size 0) }
  hashsig_heap_down hp 0

/-- The second half of `hashsig_heap_insert`: `val` is appended and sifted
up. -/
def heap_push (h1 : hashsig_heap) (val : Nat) : hashsig_heap :=
  let h2 := { h1 with values := h1.values.set h1.size val, size := h1.size + 1 }
  hashsig_heap_up h2 (h2.size - 1)

/-- The invariant of a heap built by inserting the values `vs` one by one: the
shape of the structure, the heap property, and the live values being exactly
the best 127 (or all, if fewer) of `vs` in the ranking of the comparator. -/
def heap_keeps (c : hashsig_cmp) (vs : List Nat) (h : hashsig_heap) : Prop :=
  h.asize = 127 ∧ h.values.length = 127 ∧ h.cmp = c ∧ h.size = min vs.length 127 ∧
  heap_ok c h.values h.size ∧
  (h.values.take h.size).Perm ((vs.insertionSort (cmp_ge c)).take 127)

/-- The accepted stream `acc` is at a line start: nothing has been accepted yet
or the most recently accepted byte is LF. -/
def at_line_start (acc : List UInt8) : Prop := acc = [] ∨ acc.getLast? = some 10

/-- In the accepted stream, a byte that follows an LF is not whitespace. -/
def no_ws_after_lf (x y : UInt8) : Prop := x = 10 → is_ws y = false

/-- Successive `git_importer_blob` calls, one per buffer with its full length:
the return codes and ids in call order, and the final state of the store. -/
def importer_blobs {Repo World Oid : Type}
    (frombuffer : Repo → World → List UInt8 → Nat → Int × Oid × World)
    (importer : git_importer Repo) : World → List (List UInt8) → List (Int × Oid) × World
  | w, [] => ([], w)
  | w, buf :: rest =>
    let r := git_importer_blob frombuffer importer w buf buf.length
    let t := importer_blobs frombuffer importer r.2.2 rest
    ((r.1, r.2.1) :: t.1, t.2)

/-- Successive direct `git_blob_create_frombuffer` calls on the repository. -/
def frombuffer_blobs {Repo World Oid : Type}
    (frombuffer : Repo → World → List UInt8 → Nat → Int × Oid × World)
    (repo : Repo) : World → List (List UInt8) → List (Int × Oid) × World
  | w, [] => ([], w)
  | w, buf :: rest =>
    let r := frombuffer repo w buf buf.length
    let t := frombuffer_blobs frombuffer repo r.2.2 rest
    ((r.1, r.2.1) :: t.1, t.2)

/-- An example object store for replaying the tests: the store is the list of
blobs written so far, an id is the position of a blob in it, and writing
appends the first `len` bytes of the buffer. -/
def example_frombuffer (_repo : Unit) (w : List (List UInt8)) (buffer : List UInt8)
    (len : Nat) : Int × Nat × List (List UInt8) :=
  (0, w.length, w ++ [buffer.take len])

/-- Lookup in the example object store. -/
def example_lookup (w : List (List UInt8)) (oid : Nat) : Option (List UInt8) := w[oid]?

/-- The 14 bytes of "Some more data". -/
def some_more_data : List UInt8 :=
  [83, 111, 109, 101, 32, 109, 111, 114, 101, 32, 100, 97, 116, 97]

/-- The 14 bytes of "Even more data". -/
def even_more_data : List UInt8 :=
  [69, 118, 101, 110, 32, 109, 111, 114, 101, 32, 100, 97, 116, 97]

/-- The inverse of `fmix32` on `uint32_t`: the five steps undone in reverse
order, with the inverses of the two odd multipliers modulo `2^32`. -/
def fmix32_inv (h : Nat) : Nat :=
  let h := h ^^^ (h >>> 16)
  let h := u32 (h * 0x7ed1b41d)
  let h := h ^^^ (h >>> 13) ^^^ (h >>> 26)
  let h := u32 (h * 0xa5cb9243)
  let h := h ^^^ (h >>> 16)
  h

/-! ## The heap routines with their array accesses recorded -/

/-- One access to `h->values[idx]`: a load (`wr = false`) or a store
(`wr = true`), the value loaded or stored, and `h->size` at that moment. -/
structure heap_access where
  wr : Bool
  idx : Nat
  val : Nat
  live : Nat

/-- The loop of `hashsig_heap_up`, returning next to the heap every access to
`h->values` in program order.  The loop test evaluates
`h->values[parent_el]` and `h->values[el]` only when `el > 0` (`&&`). -/
def hashsig_heap_up_loop_traced : Nat → hashsig_heap → Nat → hashsig_heap × List heap_access
  | 0, h, _ => (h, [])
  | fuel + 1, h, el =>
    let parent_el := HEAP_PARENT_OF el
    if 0 < el then
      let test : List heap_access :=
        [⟨false, parent_el, h.values.getD parent_el 0, h.size⟩,
         ⟨false, el, h.values.getD el 0, h.size⟩]
      if 0 < h.cmp.call (h.values.getD parent_el 0) (h.values.getD el 0) then
        let t := h.values.getD el 0
        let values1 := h.values.set el (h.values.getD parent_el 0)
        let values2 := values1.set parent_el t
        let r := hashsig_heap_up_loop_traced fuel { h with values := values2 } parent_el
        (r.1, test ++ [⟨false, el, t, h.size⟩,
          ⟨false, parent_el, h.values.getD parent_el 0, h.size⟩,
          ⟨true, el, h.values.getD parent_el 0, h.size⟩,
          ⟨true, parent_el, t, h.size⟩] ++ r.2)
      else (h, test)
    else (h, [])

/-- `hashsig_heap_up` with its accesses. -/
def hashsig_heap_up_traced (h : hashsig_heap) (el : Nat) : hashsig_heap × List heap_access :=
  hashsig_heap_up_loop_traced (el + 1) h el

/-- The loop of `hashsig_heap_down`, returning next to the heap every access to
`h->values` in program order: the three loads of `v`, `lv`, `rv`, and on a swap
the load of `h->values[swapel]` and the two stores. -/
def hashsig_heap_down_loop_traced :
    Nat → hashsig_heap → Nat → hashsig_heap × List heap_access
  | 0, h, _ => (h, [])
  | fuel + 1, h, el =>
    if el < h.size / 2 then
      let lel := HEAP_LCHILD_OF el
      let rel := HEAP_RCHILD_OF el
      let v := h.values.getD el 0
      let lv := h.values.getD lel 0
      let rv := h.values.getD rel 0
      let loads : List heap_access :=
        [⟨false, el, v, h.size⟩, ⟨false, lel, lv, h.size⟩, ⟨false, rel, rv, h.size⟩]
      if h.cmp.call v lv < 0 ∧ h.cmp.call v rv < 0 then (h, loads)
      else
        let swapel := if h.cmp.call lv rv < 0 then lel else rel
        let values1 := h.values.set el (h.values.getD swapel 0)
        let values2 := values1.set swapel v
        let r := hashsig_heap_down_loop_traced fuel { h with values := values2 } swapel
        (r.1, loads ++ [⟨false, swapel, h.values.getD swapel 0, h.size⟩,
          ⟨true, el, h.values.getD swapel 0, h.size⟩,
          ⟨true, swapel, v, h.size⟩] ++ r.2)
    else (h, [])

/-- `hashsig_heap_down` with its accesses. -/
def hashsig_heap_down_traced (h : hashsig_heap) (el : Nat) : hashsig_heap × List heap_access :=
  hashsig_heap_down_loop_traced (h.size + 1) h el

/-- `hashsig_heap_insert` with its accesses, those of `hashsig_heap_down` and
`hashsig_heap_up` included.  `h->values[0]` is loaded by the first test only
when `h->size == h->asize` (`&&`); the pop loads `h->values[h->size]` after the
decrement; the push stores to `h->values[h->size]` before the increment. -/
def hashsig_heap_insert_traced (h : hashsig_heap) (val : Nat) :
    hashsig_heap × List heap_access :=
  let r1 : hashsig_heap × List heap_access :=
    if h.size = h.asize then
      let test : List heap_access := [⟨false, 0, h.values.getD 0 0, h.size⟩]
      if 0 < h.cmp.call val (h.values.getD 0 0) then
        let hp := { h with size := h.size - 1 }
        let hp2 := { hp with values := hp.values.set 0 (hp.values.getD hp.size 0) }
        let r := hashsig_heap_down_traced hp2 0
        (r.1, test ++ [⟨false, hp.size, hp.values.getD hp.size 0, hp.size⟩,
          ⟨true, 0, hp.values.getD hp.size 0, hp.size⟩] ++ r.2)
      else (h, test)
    else (h, [])
  let h1 := r1.1
  if h1.size < h1.asize then
    let h2 := { h1 with values := h1.values.set h1.size val, size := h1.size + 1 }
    let r := hashsig_heap_up_traced h2 (h2.size - 1)
    (r.1, r1.2 ++ [⟨true, h1.size, val, h1.size⟩] ++ r.2)
  else (h1, r1.2)

/-- A full heap holding 0..126 from the root down, as a max-side heap. -/
def full_heap_0_126 : hashsig_heap :=
  { size := 127, asize := HASHSIG_HEAP_SIZE, cmp := .cmp_max, values := List.range 127 }

/-- Nine bytes, the first of them at least 0x80. -/
def high_byte_input : List UInt8 := [128, 1, 2, 3, 4, 5, 6, 7, 8]

/-- The in-progress structure after the hasher has advanced over the accepted
bytes `l`. -/
def hashsig_roll_all (char_signed : Bool) (prog : hashsig_in_progress) (l : List UInt8) :
    hashsig_in_progress :=
  l.foldl (fun p b => (hashsig_roll char_signed p b.toNat).1) prog

/-- The low part of the state that belongs to a window `w` (oldest byte first):
the bytes as digits of a base-3 polynomial. -/
def window_poly (w : List UInt8) : Nat := w.foldl (fun p b => 3 * p + b.toNat) 0

/-- The high part of the state that belongs to a window: the sum of its
bytes. -/
def window_sum (w : List UInt8) : Nat := w.foldl (fun s b => s + b.toNat) 0

/-- The state that belongs to a window: `sum << 20` plus the polynomial. -/
def window_state (w : List UInt8) : Nat := 2 ^ 20 * window_sum w + window_poly w

/-- The in-progress structure `p` holds exactly the window `w` (oldest byte
first): its length, the ring buffer read from `win_pos`, the power of 3 in
`shift_n`, and the state that belongs to `w`. -/
def window_inv (p : hashsig_in_progress) (w : List UInt8) : Prop :=
  p.win_len = w.length ∧ w.length ≤ 8 ∧ p.window.length = 8 ∧ p.win_pos < 8 ∧
  (w.length < 8 → p.win_pos = 0) ∧ (0 < w.length → p.shift_n = 3 ^ (w.length - 1)) ∧
  p.state = window_state w ∧
  ∀ j x, w[j]? = some x → p.window.getD ((p.win_pos + j) % 8) 0 = (x.toNat : Int)

/-! ## Facts about the comparators -/

theorem cmp_call_neg_iff (c : hashsig_cmp) (x y : Nat) : c.call x y < 0 ↔ 0 < c.call y x := by
  cases c <;> simp only [hashsig_cmp.call, hashsig_cmp_min, hashsig_cmp_max] <;>
    split_ifs <;> omega

theorem cmp_call_self (c : hashsig_cmp) (x : Nat) : c.call x x = 0 := by
  cases c <;> simp [hashsig_cmp.call, hashsig_cmp_min, hashsig_cmp_max]

theorem cmp_min_call_le (x y : Nat) : hashsig_cmp.cmp_min.call x y ≤ 0 ↔ y ≤ x := by
  simp only [hashsig_cmp.call, hashsig_cmp_min]; split_ifs <;> omega

theorem cmp_max_call_le (x y : Nat) : hashsig_cmp.cmp_max.call x y ≤ 0 ↔ x ≤ y := by
  simp only [hashsig_cmp.call, hashsig_cmp_max]; split_ifs <;> omega

theorem cmp_call_le_trans (c : hashsig_cmp) (x y z : Nat)
    (h1 : c.call x y ≤ 0) (h2 : c.call y z ≤ 0) : c.call x z ≤ 0 := by
  cases c
  · rw [cmp_min_call_le] at *; omega
  · rw [cmp_max_call_le] at *; omega

theorem cmp_call_le_total (c : hashsig_cmp) (x y : Nat) : c.call x y ≤ 0 ∨ c.call y x ≤ 0 := by
  cases c
  · simp only [cmp_min_call_le]; omega
  · simp only [cmp_max_call_le]; omega

theorem cmp_call_le_antisymm (c : hashsig_cmp) (x y : Nat)
    (h1 : c.call x y ≤ 0) (h2 : c.call y x ≤ 0) : x = y := by
  cases c
  · rw [cmp_min_call_le] at *; omega
  · rw [cmp_max_call_le] at *; omega

/-! ## The merge loop of the comparison -/

theorem compare_loop_swap (a b : hashsig_heap) (hc : a.cmp = b.cmp) (fuel i j m : Nat) :
    hashsig_heap_compare_loop fuel a b i j m = hashsig_heap_compare_loop fuel b a j i m := by
  induction fuel generalizing i j m with
  | zero => rfl
  | succ f ih =>
    simp only [hashsig_heap_compare_loop]
    by_cases hij : i < a.size ∧ j < b.size
    · have hji : j < b.size ∧ i < a.size := ⟨hij.2, hij.1⟩
      rw [if_pos hij, if_pos hji, ← hc]
      have h1 := cmp_call_neg_iff a.cmp (a.values.getD i 0) (b.values.getD j 0)
      have h2 := cmp_call_neg_iff a.cmp (b.values.getD j 0) (a.values.getD i 0)
      by_cases hlt : a.cmp.call (a.values.getD i 0) (b.values.getD j 0) < 0
      · have hgt : 0 < a.cmp.call (b.values.getD j 0) (a.values.getD i 0) := h1.mp hlt
        have hn : ¬ a.cmp.call (b.values.getD j 0) (a.values.getD i 0) < 0 := by omega
        rw [if_pos hlt, if_neg hn, if_pos hgt]
        exact ih _ _ _
      · by_cases hgt : 0 < a.cmp.call (a.values.getD i 0) (b.values.getD j 0)
        · have hlt2 : a.cmp.call (b.values.getD j 0) (a.values.getD i 0) < 0 := h2.mpr hgt
          rw [if_neg hlt, if_pos hgt, if_pos hlt2]
          exact ih _ _ _
        · have hn1 : ¬ a.cmp.call (b.values.getD j 0) (a.values.getD i 0) < 0 :=
            fun h => hgt (h2.mp h)
          have hn2 : ¬ 0 < a.cmp.call (b.values.getD j 0) (a.values.getD i 0) :=
            fun h => hlt (h1.mpr h)
          rw [if_neg hlt, if_neg hgt, if_neg hn1, if_neg hn2]
          exact ih _ _ _
    · have hji : ¬ (j < b.size ∧ i < a.size) := fun h => hij ⟨h.2, h.1⟩
      rw [if_neg hij, if_neg hji]

theorem compare_loop_le (a b : hashsig_heap) (fuel i j m : Nat) :
    hashsig_heap_compare_loop fuel a b i j m ≤ m + min (a.size - i) (b.size - j) := by
  induction fuel generalizing i j m with
  | zero => simp [hashsig_heap_compare_loop]
  | succ f ih =>
    simp only [hashsig_heap_compare_loop]
    split_ifs with h1 h2 h3
    · have := ih (i + 1) j m; omega
    · have := ih i (j + 1) m; omega
    · have := ih (i + 1) (j + 1) (m + 1); omega
    · omega

theorem compare_loop_self (a : hashsig_heap) (fuel i m : Nat) (hf : a.size - i ≤ fuel) :
    hashsig_heap_compare_loop fuel a a i i m = m + (a.size - i) := by
  induction fuel generalizing i m with
  | zero => simp only [hashsig_heap_compare_loop]; omega
  | succ f ih =>
    simp only [hashsig_heap_compare_loop, cmp_call_self, lt_self_iff_false, if_false, and_self]
    by_cases h1 : i < a.size
    · rw [if_pos h1, ih (i + 1) (m + 1) (by omega)]; omega
    · rw [if_neg h1]; omega

/-- The fuel `a.size + b.size` that `hashsig_heap_matches` passes is never
exhausted: any larger fuel gives the same count. -/
theorem compare_loop_fuel (a b : hashsig_heap) (fuel k i j m : Nat)
    (hf : (a.size - i) + (b.size - j) ≤ fuel) :
    hashsig_heap_compare_loop (fuel + k) a b i j m = hashsig_heap_compare_loop fuel a b i j m := by
  induction fuel generalizing i j m with
  | zero =>
    cases k with
    | zero => rfl
    | succ k =>
      simp only [hashsig_heap_compare_loop, Nat.zero_add]
      rw [if_neg (by omega)]
  | succ f ih =>
    rw [Nat.add_right_comm]
    simp only [hashsig_heap_compare_loop]
    split_ifs with h1 h2 h3
    · exact ih _ _ _ (by omega)
    · exact ih _ _ _ (by omega)
    · exact ih _ _ _ (by omega)
    · rfl

theorem heap_matches_le (a b : hashsig_heap) :
    hashsig_heap_matches a b ≤ min a.size b.size := by
  have := compare_loop_le a b (a.size + b.size) 0 0 0
  simpa [hashsig_heap_matches] using this

theorem heap_matches_self (a : hashsig_heap) : hashsig_heap_matches a a = a.size := by
  have := compare_loop_self a (a.size + a.size) 0 0 (by omega)
  simpa [hashsig_heap_matches] using this

theorem heap_compare_comm (a b : hashsig_heap) (hc : a.cmp = b.cmp) :
    hashsig_heap_compare a b = hashsig_heap_compare b a := by
  unfold hashsig_heap_compare hashsig_heap_matches
  rw [compare_loop_swap a b hc, Nat.add_comm a.size b.size, Int.add_comm (a.size : Int)]

theorem heap_compare_full (a b : hashsig_heap)
    (ha : a.size = HASHSIG_HEAP_SIZE) (hb : b.size = HASHSIG_HEAP_SIZE) :
    hashsig_heap_compare a b =
      some (((100 * (hashsig_heap_matches a b * 2) / 254 : Nat) : Int)) := by
  unfold hashsig_heap_compare
  have ha1 : a.size = 127 := ha
  have hb1 : b.size = 127 := hb
  rw [if_neg (by omega), ha1, hb1, Int.ofNat_tdiv]
  push_cast
  rfl

/-! ## `hashsig_add_hashes` is a fold over the input bytes -/

theorem initial_window_loop_done (sgn : Bool) (opt : Nat) (data : List UInt8)
    (st sh wl : Nat) (prog : hashsig_in_progress) (h : HASHSIG_HASH_WINDOW ≤ wl) :
    hashsig_initial_window_loop sgn opt data st sh wl prog =
      { state := st, shift_n := sh, win_len := wl, prog := prog, scan := data } := by
  cases data with
  | nil => rfl
  | cons b rest =>
    simp only [hashsig_initial_window_loop]
    rw [if_neg (by omega)]

theorem add_hashes_loop_eq (sgn : Bool) (data : List UInt8) (sig : git_hashsig)
    (prog : hashsig_in_progress) (st sh : Nat) (hw : HASHSIG_HASH_WINDOW ≤ prog.win_len)
    (hsh : sh = prog.shift_n) :
    hashsig_add_hashes_loop sgn data sig prog st sh =
      ((data.foldl (hashsig_feed_byte sgn) (sig, { prog with state := st })).1,
       { (data.foldl (hashsig_feed_byte sgn) (sig, { prog with state := st })).2 with
           state := prog.state },
       (data.foldl (hashsig_feed_byte sgn) (sig, { prog with state := st })).2.state) := by
  induction data generalizing sig prog st sh with
  | nil => rfl
  | cons b rest ih =>
    simp only [hashsig_add_hashes_loop, List.foldl_cons, hashsig_feed_byte]
    by_cases hinc : (hashsig_include_char (char_of_uchar sgn b.toNat) sig.opt prog.saw_lf).1 = false
    · rw [if_pos hinc, if_pos hinc]
      exact ih sig _ st sh hw hsh
    · rw [if_neg hinc, if_neg hinc]
      have hnw : ¬ (prog.win_len < HASHSIG_HASH_WINDOW) := by omega
      simp only [hashsig_roll, if_neg hnw, hashsig_record, decide_eq_true_eq]
      rw [← hsh]
      refine ih _ _ _ sh ?_ ?_
      · exact hw
      · rfl

theorem initial_window_loop_eq (sgn : Bool) (data : List UInt8) (sig : git_hashsig)
    (prog : hashsig_in_progress) (st sh wl : Nat) (hwl : wl < HASHSIG_HASH_WINDOW) :
    data.foldl (hashsig_feed_byte sgn)
        (sig, { prog with state := st, shift_n := sh, win_len := wl }) =
      (hashsig_initial_window_loop sgn sig.opt data st sh wl prog).scan.foldl
        (hashsig_feed_byte sgn)
        (if (hashsig_initial_window_loop sgn sig.opt data st sh wl prog).win_len
              = HASHSIG_HASH_WINDOW then
            { sig with
              mins := hashsig_heap_insert sig.mins (fmix32 (u32
                (hashsig_initial_window_loop sgn sig.opt data st sh wl prog).state)),
              maxs := hashsig_heap_insert sig.maxs (fmix32 (u32
                (hashsig_initial_window_loop sgn sig.opt data st sh wl prog).state)),
              considered := 1 }
          else sig,
         { (hashsig_initial_window_loop sgn sig.opt data st sh wl prog).prog with
            state := (hashsig_initial_window_loop sgn sig.opt data st sh wl prog).state,
            win_len := (hashsig_initial_window_loop sgn sig.opt data st sh wl prog).win_len,
            shift_n := (hashsig_initial_window_loop sgn sig.opt data st sh wl prog).shift_n })
    ∧ (HASHSIG_HASH_WINDOW ≤ (hashsig_initial_window_loop sgn sig.opt data st sh wl prog).win_len
        ∨ (hashsig_initial_window_loop sgn sig.opt data st sh wl prog).scan = []) := by
  induction data generalizing prog st sh wl with
  | nil =>
    simp only [hashsig_initial_window_loop, List.foldl_nil]
    rw [if_neg (by omega)]
    exact ⟨rfl, Or.inr trivial⟩
  | cons b rest ih =>
    simp only [hashsig_initial_window_loop, if_pos hwl, List.foldl_cons]
    by_cases hinc : (hashsig_include_char (char_of_uchar sgn b.toNat) sig.opt prog.saw_lf).1 = false
    · simp only [if_pos hinc]
      have hstep : hashsig_feed_byte sgn
          (sig, { prog with state := st, shift_n := sh, win_len := wl }) b =
          (sig, { ({ prog with saw_lf := (hashsig_include_char (char_of_uchar sgn b.toNat)
              sig.opt prog.saw_lf).2 } : hashsig_in_progress) with
              state := st, shift_n := sh, win_len := wl }) := by
        simp only [hashsig_feed_byte, if_pos hinc]
      rw [hstep]
      exact ih _ st sh wl hwl
    · simp only [if_neg hinc]
      by_cases hfull : wl + 1 < HASHSIG_HASH_WINDOW
      · have hne : ¬ (wl + 1 = HASHSIG_HASH_WINDOW) := by omega
        have hstep : hashsig_feed_byte sgn
            (sig, { prog with state := st, shift_n := sh, win_len := wl }) b =
            (sig, { ({ prog with
                saw_lf := (hashsig_include_char (char_of_uchar sgn b.toNat) sig.opt prog.saw_lf).2,
                window := prog.window.set wl (char_of_uchar sgn b.toNat) } : hashsig_in_progress)
              with
                state := u64 (((st &&& HASHSIG_HASH_NOT_MASK) |||
                  (u64 (st * HASHSIG_HASH_SHIFT + b.toNat) &&& HASHSIG_HASH_MASK)) +
                    (b.toNat <<< 20)),
                shift_n := if wl = 0 then 1
                  else u64 (sh * HASHSIG_HASH_SHIFT) &&& HASHSIG_HASH_MASK,
                win_len := wl + 1 }) := by
          simp only [hashsig_feed_byte, if_neg hinc, hashsig_roll, if_pos hwl, if_neg hne,
            hashsig_record]
        rw [hstep]
        exact ih _ _ _ (wl + 1) hfull
      · have heq : wl + 1 = HASHSIG_HASH_WINDOW := by omega
        rw [initial_window_loop_done sgn sig.opt rest _ _ (wl + 1) _ (by omega)]
        simp only [if_pos heq]
        refine ⟨?_, Or.inl (by omega)⟩
        congr 1
        simp only [hashsig_feed_byte, if_neg hinc, hashsig_roll, if_pos hwl, if_pos heq,
          hashsig_record, decide_eq_true_eq]

/-- `hashsig_add_hashes` processes its buffer byte by byte: it is the fold of
`hashsig_feed_byte` over the buffer. -/
theorem add_hashes_eq_fold (sgn : Bool) (sig : git_hashsig) (data : List UInt8)
    (prog : hashsig_in_progress) :
    hashsig_add_hashes sgn sig data prog = data.foldl (hashsig_feed_byte sgn) (sig, prog) := by
  unfold hashsig_add_hashes
  by_cases hw : prog.win_len < HASHSIG_HASH_WINDOW
  · have hnw : ¬ (HASHSIG_HASH_WINDOW ≤ prog.win_len) := by omega
    simp only [if_pos hw, hashsig_initial_window, if_neg hnw]
    obtain ⟨h1, h2⟩ := initial_window_loop_eq sgn data sig prog prog.state prog.shift_n
      prog.win_len hw
    have hprog : (⟨prog.state, prog.shift_n, prog.window, prog.win_len, prog.win_pos,
        prog.saw_lf⟩ : hashsig_in_progress) = prog := rfl
    rw [hprog] at h1
    rw [h1]
    rcases h2 with h2 | h2
    · rw [add_hashes_loop_eq sgn _ _ _ _ _ h2 rfl]
    · rw [h2]
      rfl
  · simp only [if_neg hw]
    rw [add_hashes_loop_eq sgn data sig prog prog.state prog.shift_n (by omega) rfl]

/-- `hashsig_add_hashes` never changes the options of the signature. -/
theorem feed_byte_opt (sgn : Bool) (sp : git_hashsig × hashsig_in_progress) (b : UInt8) :
    (hashsig_feed_byte sgn sp b).1.opt = sp.1.opt := by
  unfold hashsig_feed_byte
  by_cases hinc : (hashsig_include_char (char_of_uchar sgn b.toNat) sp.1.opt sp.2.saw_lf).1 = false
  · simp only [if_pos hinc]
  · simp only [if_neg hinc]
    unfold hashsig_record
    split <;> rfl

theorem fold_feed_opt (sgn : Bool) (data : List UInt8)
    (sp : git_hashsig × hashsig_in_progress) :
    (data.foldl (hashsig_feed_byte sgn) sp).1.opt = sp.1.opt := by
  induction data generalizing sp with
  | nil => rfl
  | cons b rest ih => rw [List.foldl_cons, ih, feed_byte_opt]

theorem add_chunks_eq (sgn : Bool) (chunks : List (List UInt8)) (sig : git_hashsig)
    (prog : hashsig_in_progress) :
    hashsig_add_chunks sgn sig chunks prog = hashsig_add_hashes sgn sig chunks.flatten prog := by
  unfold hashsig_add_chunks
  rw [add_hashes_eq_fold]
  induction chunks generalizing sig prog with
  | nil => rfl
  | cons c cs ih =>
    rw [List.foldl_cons, List.flatten_cons, List.foldl_append, add_hashes_eq_fold]
    exact ih _ _

/-! ## The whitespace filter, separated from the hasher -/

theorem roll_saw_lf (sgn : Bool) (p : hashsig_in_progress) (x : Bool) (ch : Nat) :
    hashsig_roll sgn { p with saw_lf := x } ch =
      ({ (hashsig_roll sgn p ch).1 with saw_lf := x }, (hashsig_roll sgn p ch).2) := by
  unfold hashsig_roll
  by_cases hw : p.win_len < HASHSIG_HASH_WINDOW
  · simp only [if_pos hw]
  · simp only [if_neg hw]

theorem roll_saw_lf_out (sgn : Bool) (p : hashsig_in_progress) (ch : Nat) :
    (hashsig_roll sgn p ch).1.saw_lf = p.saw_lf := by
  unfold hashsig_roll
  by_cases hw : p.win_len < HASHSIG_HASH_WINDOW
  · simp only [if_pos hw]
  · simp only [if_neg hw]

theorem record_opt (sig : git_hashsig) (o : Nat) (w : Bool) (smp : Option Nat) :
    hashsig_record { sig with opt := o } w smp = { hashsig_record sig w smp with opt := o } := by
  cases smp <;> rfl

theorem record_opt_out (sig : git_hashsig) (w : Bool) (smp : Option Nat) :
    (hashsig_record sig w smp).opt = sig.opt := by
  cases smp <;> rfl

theorem advance_saw_lf (sgn : Bool) (sig : git_hashsig) (p : hashsig_in_progress) (x : Bool)
    (b : UInt8) :
    hashsig_advance sgn (sig, { p with saw_lf := x }) b =
      ((hashsig_advance sgn (sig, p) b).1, { (hashsig_advance sgn (sig, p) b).2 with saw_lf := x })
    := by
  simp only [hashsig_advance, roll_saw_lf]

theorem advance_opt (sgn : Bool) (sig : git_hashsig) (p : hashsig_in_progress) (o : Nat)
    (b : UInt8) :
    hashsig_advance sgn ({ sig with opt := o }, p) b =
      ({ (hashsig_advance sgn (sig, p) b).1 with opt := o }, (hashsig_advance sgn (sig, p) b).2)
    := by
  simp only [hashsig_advance, record_opt]

theorem fold_advance_saw_lf (sgn : Bool) (l : List UInt8) (sig : git_hashsig)
    (p : hashsig_in_progress) (x : Bool) :
    l.foldl (hashsig_advance sgn) (sig, { p with saw_lf := x }) =
      ((l.foldl (hashsig_advance sgn) (sig, p)).1,
       { (l.foldl (hashsig_advance sgn) (sig, p)).2 with saw_lf := x }) := by
  induction l generalizing sig p with
  | nil => rfl
  | cons b rest ih =>
    rw [List.foldl_cons, List.foldl_cons, advance_saw_lf]
    exact ih _ _

theorem fold_advance_opt (sgn : Bool) (l : List UInt8) (sig : git_hashsig)
    (p : hashsig_in_progress) (o : Nat) :
    l.foldl (hashsig_advance sgn) ({ sig with opt := o }, p) =
      ({ (l.foldl (hashsig_advance sgn) (sig, p)).1 with opt := o },
       (l.foldl (hashsig_advance sgn) (sig, p)).2) := by
  induction l generalizing sig p with
  | nil => rfl
  | cons b rest ih =>
    rw [List.foldl_cons, List.foldl_cons, advance_opt]
    exact ih _ _

/-- Feeding `data` is advancing the hasher over the accepted bytes of `data`;
the filter only contributes the final `saw_lf`. -/
theorem fold_feed_eq_advance (sgn : Bool) (data : List UInt8) (sig : git_hashsig)
    (p : hashsig_in_progress) :
    data.foldl (hashsig_feed_byte sgn) (sig, p) =
      (((hashsig_accepted sgn sig.opt p.saw_lf data).1.foldl (hashsig_advance sgn) (sig, p)).1,
       { ((hashsig_accepted sgn sig.opt p.saw_lf data).1.foldl (hashsig_advance sgn) (sig, p)).2
          with saw_lf := (hashsig_accepted sgn sig.opt p.saw_lf data).2 }) := by
  induction data generalizing sig p with
  | nil => rfl
  | cons b rest ih =>
    rw [List.foldl_cons]
    simp only [hashsig_accepted]
    by_cases hinc : (hashsig_include_char (char_of_uchar sgn b.toNat) sig.opt p.saw_lf).1 = false
    · have hstep : hashsig_feed_byte sgn (sig, p) b =
          (sig, { p with saw_lf :=
            (hashsig_include_char (char_of_uchar sgn b.toNat) sig.opt p.saw_lf).2 }) := by
        simp only [hashsig_feed_byte, if_pos hinc]
      rw [hstep, ih, if_pos hinc, fold_advance_saw_lf]
    · have hstep : hashsig_feed_byte sgn (sig, p) b =
          hashsig_advance sgn (sig, { p with saw_lf :=
            (hashsig_include_char (char_of_uchar sgn b.toNat) sig.opt p.saw_lf).2 }) b := by
        simp only [hashsig_feed_byte, if_neg hinc, hashsig_advance]
      rw [hstep, advance_saw_lf, ih, if_neg hinc, List.foldl_cons, fold_advance_saw_lf]
      have hopt : (hashsig_advance sgn (sig, p) b).1.opt = sig.opt := by
        simp only [hashsig_advance, record_opt_out]
      rw [hopt]

theorem isspace_char (sgn : Bool) (b : UInt8) :
    git__isspace (char_of_uchar sgn b.toNat) = is_ws b := by
  have hb : b.toNat < 2 ^ 8 := UInt8.toNat_lt b
  rw [Bool.eq_iff_iff]
  simp only [git__isspace, is_ws, char_of_uchar, Bool.or_eq_true, beq_iff_eq, Bool.and_eq_true,
    decide_eq_true_eq]
  split_ifs with h <;> omega

theorem char_eq_cr (sgn : Bool) (b : UInt8) : char_of_uchar sgn b.toNat = 13 ↔ b.toNat = 13 := by
  have hb : b.toNat < 2 ^ 8 := UInt8.toNat_lt b
  simp only [char_of_uchar, Bool.and_eq_true, decide_eq_true_eq]
  split_ifs with h <;> omega

theorem include_char_normal (c : Int) (s : Bool) :
    hashsig_include_char c GIT_HASHSIG_NORMAL s = (true, s) := by
  simp [hashsig_include_char, GIT_HASHSIG_NORMAL, GIT_HASHSIG_IGNORE_WHITESPACE,
    GIT_HASHSIG_SMART_WHITESPACE]

theorem include_char_ignore (c : Int) (s : Bool) :
    hashsig_include_char c GIT_HASHSIG_IGNORE_WHITESPACE s = (!git__isspace c, s) := by
  have h1 : GIT_HASHSIG_IGNORE_WHITESPACE &&& GIT_HASHSIG_IGNORE_WHITESPACE ≠ 0 := by decide
  have h2 : ¬ (GIT_HASHSIG_IGNORE_WHITESPACE &&& GIT_HASHSIG_SMART_WHITESPACE ≠ 0) := by decide
  unfold hashsig_include_char
  cases hsp : git__isspace c
  · rw [if_neg (by simp), if_neg h2]; rfl
  · rw [if_pos ⟨h1, rfl⟩]; rfl

theorem include_char_both (c : Int) (s : Bool) :
    (hashsig_include_char c (GIT_HASHSIG_IGNORE_WHITESPACE ||| GIT_HASHSIG_SMART_WHITESPACE) s).1
      = !git__isspace c := by
  have h1 : (GIT_HASHSIG_IGNORE_WHITESPACE ||| GIT_HASHSIG_SMART_WHITESPACE) &&&
      GIT_HASHSIG_IGNORE_WHITESPACE ≠ 0 := by decide
  have h2 : (GIT_HASHSIG_IGNORE_WHITESPACE ||| GIT_HASHSIG_SMART_WHITESPACE) &&&
      GIT_HASHSIG_SMART_WHITESPACE ≠ 0 := by decide
  unfold hashsig_include_char
  cases hsp : git__isspace c
  · rw [if_neg (by simp), if_pos h2]
    have hc : ¬ (c = 13 ∨ (s = true ∧ false = true)) := by
      rintro (h | h)
      · rw [h] at hsp; exact absurd hsp (by decide)
      · exact absurd h.2 (by decide)
    rw [if_neg hc]; rfl
  · rw [if_pos ⟨h1, rfl⟩]; rfl

theorem include_char_smart_cr (o : Nat) (h2 : o &&& GIT_HASHSIG_SMART_WHITESPACE ≠ 0)
    (s : Bool) : hashsig_include_char 13 o s = (false, s) := by
  unfold hashsig_include_char
  by_cases h : o &&& GIT_HASHSIG_IGNORE_WHITESPACE ≠ 0 ∧ git__isspace 13 = true
  · rw [if_pos h]
  · rw [if_neg h, if_pos h2, if_pos (Or.inl rfl)]

theorem accepted_normal (sgn : Bool) (s : Bool) (data : List UInt8) :
    hashsig_accepted sgn GIT_HASHSIG_NORMAL s data = (data, s) := by
  induction data with
  | nil => rfl
  | cons b rest ih => simp [hashsig_accepted, include_char_normal, ih]

theorem accepted_ignore (sgn : Bool) (s : Bool) (data : List UInt8) :
    hashsig_accepted sgn GIT_HASHSIG_IGNORE_WHITESPACE s data = (strip_ws data, s) := by
  induction data with
  | nil => rfl
  | cons b rest ih =>
    simp only [hashsig_accepted, include_char_ignore, ih, isspace_char, strip_ws, List.filter_cons]
    cases is_ws b <;> simp

theorem accepted_both (sgn : Bool) (s : Bool) (data : List UInt8) :
    (hashsig_accepted sgn (GIT_HASHSIG_IGNORE_WHITESPACE ||| GIT_HASHSIG_SMART_WHITESPACE)
      s data).1 = strip_ws data := by
  induction data generalizing s with
  | nil => rfl
  | cons b rest ih =>
    simp only [hashsig_accepted, include_char_both, isspace_char, strip_ws, List.filter_cons]
    cases hb : is_ws b
    · simp only [Bool.not_false, if_neg (by simp : ¬ (true = false)), if_pos]
      rw [ih]; rfl
    · simp only [Bool.not_true, if_pos, if_neg (by simp : ¬ (false = true))]
      rw [ih]; rfl

/-! ## Sizes of the heaps -/

theorem heap_down_loop_fields (fuel : Nat) (h : hashsig_heap) (el : Nat) :
    (hashsig_heap_down_loop fuel h el).size = h.size ∧
    (hashsig_heap_down_loop fuel h el).asize = h.asize ∧
    (hashsig_heap_down_loop fuel h el).cmp = h.cmp ∧
    (hashsig_heap_down_loop fuel h el).values.length = h.values.length := by
  induction fuel generalizing h el with
  | zero => exact ⟨rfl, rfl, rfl, rfl⟩
  | succ f ih =>
    simp only [hashsig_heap_down_loop]
    by_cases h1 : el < h.size / 2
    · rw [if_pos h1]
      by_cases h2 : h.cmp.call (h.values.getD el 0) (h.values.getD (HEAP_LCHILD_OF el) 0) < 0 ∧
          h.cmp.call (h.values.getD el 0) (h.values.getD (HEAP_RCHILD_OF el) 0) < 0
      · rw [if_pos h2]
        exact ⟨rfl, rfl, rfl, rfl⟩
      · rw [if_neg h2]
        refine ⟨(ih _ _).1, (ih _ _).2.1, (ih _ _).2.2.1, ?_⟩
        rw [(ih _ _).2.2.2]
        simp only [List.length_set]
    · rw [if_neg h1]
      exact ⟨rfl, rfl, rfl, rfl⟩

theorem heap_up_loop_fields (fuel : Nat) (h : hashsig_heap) (el : Nat) :
    (hashsig_heap_up_loop fuel h el).size = h.size ∧
    (hashsig_heap_up_loop fuel h el).asize = h.asize ∧
    (hashsig_heap_up_loop fuel h el).cmp = h.cmp ∧
    (hashsig_heap_up_loop fuel h el).values.length = h.values.length := by
  induction fuel generalizing h el with
  | zero => exact ⟨rfl, rfl, rfl, rfl⟩
  | succ f ih =>
    simp only [hashsig_heap_up_loop]
    by_cases h1 : 0 < el ∧
        0 < h.cmp.call (h.values.getD (HEAP_PARENT_OF el) 0) (h.values.getD el 0)
    · rw [if_pos h1]
      refine ⟨(ih _ _).1, (ih _ _).2.1, (ih _ _).2.2.1, ?_⟩
      rw [(ih _ _).2.2.2]
      simp only [List.length_set]
    · rw [if_neg h1]
      exact ⟨rfl, rfl, rfl, rfl⟩

theorem heap_insert_fields (h : hashsig_heap) (v : Nat) :
    (hashsig_heap_insert h v).asize = h.asize ∧
    (hashsig_heap_insert h v).cmp = h.cmp ∧
    (hashsig_heap_insert h v).values.length = h.values.length := by
  unfold hashsig_heap_insert
  by_cases hfull : h.size = h.asize ∧ 0 < h.cmp.call v (h.values.getD 0 0)
  · simp only [if_pos hfull, hashsig_heap_down, hashsig_heap_up]
    split_ifs with h2
    · simp only [heap_up_loop_fields, heap_down_loop_fields, List.length_set, and_self]
    · simp only [heap_down_loop_fields, List.length_set, and_self]
  · simp only [if_neg hfull, hashsig_heap_up]
    split_ifs with h2
    · simp only [heap_up_loop_fields, List.length_set, and_self]
    · exact ⟨rfl, rfl, rfl⟩

theorem heap_insert_size (h : hashsig_heap) (v : Nat) (hle : h.size ≤ h.asize)
    (hpos : 0 < h.asize) :
    (hashsig_heap_insert h v).size = min (h.size + 1) h.asize := by
  unfold hashsig_heap_insert
  by_cases hfull : h.size = h.asize ∧ 0 < h.cmp.call v (h.values.getD 0 0)
  · simp only [if_pos hfull, hashsig_heap_down, hashsig_heap_up]
    have hlt : h.size - 1 < h.asize := by omega
    simp only [heap_down_loop_fields, if_pos hlt, heap_up_loop_fields]
    omega
  · simp only [if_neg hfull, hashsig_heap_up]
    split_ifs with h2
    · simp only [heap_up_loop_fields]; omega
    · omega

theorem fed_inv_fresh (opts : Nat) : fed_inv 0 (hashsig_alloc opts, HASHSIG_IN_PROGRESS_INIT) := by
  refine ⟨rfl, rfl, rfl, rfl, rfl, rfl, rfl, rfl⟩

theorem fed_inv_advance (sgn : Bool) (n : Nat) (sp : git_hashsig × hashsig_in_progress)
    (b : UInt8) (h : fed_inv n sp) : fed_inv (n + 1) (hashsig_advance sgn sp b) := by
  obtain ⟨hw, hc, ha1, ha2, hs1, hs2, hc1, hc2⟩ := h
  have hA : HASHSIG_HEAP_SIZE = 127 := rfl
  have hW : HASHSIG_HASH_WINDOW = 8 := rfl
  rw [hA] at ha1 ha2 hs1 hs2
  rw [hW] at hw
  unfold fed_inv hashsig_advance
  rw [hA, hW]
  by_cases hwl : sp.2.win_len < HASHSIG_HASH_WINDOW
  · have hn : n < 8 := by rw [hW] at hwl; omega
    by_cases hfull : sp.2.win_len + 1 = HASHSIG_HASH_WINDOW
    · have hn7 : n = 7 := by rw [hW] at hfull; omega
      simp only [hashsig_roll, if_pos hwl, if_pos hfull, hashsig_record, decide_eq_true_eq,
        heap_insert_fields]
      rw [heap_insert_size _ _ (by omega) (by omega),
        heap_insert_size _ _ (by omega) (by omega)]
      refine ⟨by omega, by omega, ha1, ha2, by omega, by omega, hc1, hc2⟩
    · simp only [hashsig_roll, if_pos hwl, if_neg hfull, hashsig_record]
      rw [hW] at hfull
      refine ⟨by omega, by omega, ha1, ha2, by omega, by omega, hc1, hc2⟩
  · have hn : 8 ≤ n := by rw [hW] at hwl; omega
    simp only [hashsig_roll, if_neg hwl, hashsig_record, decide_eq_true_eq, heap_insert_fields]
    rw [heap_insert_size _ _ (by omega) (by omega),
      heap_insert_size _ _ (by omega) (by omega)]
    refine ⟨by omega, by omega, ha1, ha2, by omega, by omega, hc1, hc2⟩

theorem fed_inv_fold_advance (sgn : Bool) (l : List UInt8) (n : Nat)
    (sp : git_hashsig × hashsig_in_progress) (h : fed_inv n sp) :
    fed_inv (n + l.length) (l.foldl (hashsig_advance sgn) sp) := by
  induction l generalizing n sp with
  | nil => exact h
  | cons b rest ih =>
    rw [List.foldl_cons, List.length_cons, ← Nat.add_assoc, Nat.add_right_comm]
    exact ih (n + 1) _ (fed_inv_advance sgn n sp b h)

/-- After `hashsig_add_hashes` on fresh structures, the counters are those of
the number of accepted bytes. -/
theorem fed_inv_add_hashes (sgn : Bool) (opts : Nat) (data : List UInt8) :
    fed_inv (hashsig_accepted sgn opts true data).1.length
      (hashsig_add_hashes sgn (hashsig_alloc opts) data HASHSIG_IN_PROGRESS_INIT) := by
  rw [add_hashes_eq_fold, fold_feed_eq_advance]
  have h := fed_inv_fold_advance sgn (hashsig_accepted sgn opts true data).1 0 _
    (fed_inv_fresh opts)
  rw [Nat.zero_add] at h
  exact h

theorem heap_sort_fields (h : hashsig_heap) :
    (hashsig_heap_sort h).size = h.size ∧ (hashsig_heap_sort h).asize = h.asize ∧
    (hashsig_heap_sort h).cmp = h.cmp := ⟨rfl, rfl, rfl⟩

theorem finalize_ok_iff (sig : git_hashsig) :
    (hashsig_finalize_hashes sig = .error .GIT_EBUFS ↔ sig.mins.size < HASHSIG_HEAP_SIZE) ∧
    (¬ sig.mins.size < HASHSIG_HEAP_SIZE →
      hashsig_finalize_hashes sig =
        .ok { sig with mins := hashsig_heap_sort sig.mins, maxs := hashsig_heap_sort sig.maxs })
    := by
  unfold hashsig_finalize_hashes
  by_cases h : sig.mins.size < HASHSIG_HEAP_SIZE
  · rw [if_pos h]
    exact ⟨⟨fun _ => h, fun _ => rfl⟩, fun h2 => absurd h h2⟩
  · rw [if_neg h]
    exact ⟨⟨fun h2 => (by cases h2), fun h2 => absurd h2 h⟩, fun _ => rfl⟩

/-- What a successful `git_hashsig_create` returns: the fed signature with both
heaps sorted, both of size 127. -/
theorem create_ok (sgn : Bool) (opts : Nat) (data : List UInt8) (s : git_hashsig)
    (h : git_hashsig_create sgn data opts = .ok s) :
    s.mins.size = HASHSIG_HEAP_SIZE ∧ s.maxs.size = HASHSIG_HEAP_SIZE ∧
    s.mins.cmp = .cmp_min ∧ s.maxs.cmp = .cmp_max ∧
    HASHSIG_HEAP_SIZE ≤ s.considered := by
  obtain ⟨hw, hc, ha1, ha2, hs1, hs2, hc1, hc2⟩ := fed_inv_add_hashes sgn opts data
  unfold git_hashsig_create at h
  have hA : HASHSIG_HEAP_SIZE = 127 := rfl
  by_cases hlt : (hashsig_add_hashes sgn (hashsig_alloc opts) data
      HASHSIG_IN_PROGRESS_INIT).1.mins.size < HASHSIG_HEAP_SIZE
  · rw [(finalize_ok_iff _).1.mpr hlt] at h
    cases h
  · rw [(finalize_ok_iff _).2 hlt] at h
    injection h with h
    subst h
    simp only [heap_sort_fields]
    rw [hA] at hs1 hs2 hlt ⊢
    refine ⟨by omega, by omega, hc1, hc2, by omega⟩

/-- The outcome of `git_hashsig_create` is decided by the number of accepted
bytes: at least 134 of them (127 samples) are needed. -/
theorem create_result (sgn : Bool) (opts : Nat) (data : List UInt8) :
    ((hashsig_accepted sgn opts true data).1.length < 134 →
      git_hashsig_create sgn data opts = .error .GIT_EBUFS) ∧
    (134 ≤ (hashsig_accepted sgn opts true data).1.length →
      ∃ s, git_hashsig_create sgn data opts = .ok s) := by
  obtain ⟨hw, hc, ha1, ha2, hs1, hs2, hc1, hc2⟩ := fed_inv_add_hashes sgn opts data
  have hA : HASHSIG_HEAP_SIZE = 127 := rfl
  unfold git_hashsig_create
  constructor
  · intro hn
    apply (finalize_ok_iff _).1.mpr
    rw [hs1, hA]; omega
  · intro hn
    refine ⟨_, (finalize_ok_iff _).2 ?_⟩
    rw [hs1, hA]; omega

theorem create_normal_ok (sgn : Bool) (data : List UInt8) (h : 134 ≤ data.length) :
    ∃ s, git_hashsig_create sgn data GIT_HASHSIG_NORMAL = .ok s := by
  apply (create_result sgn GIT_HASHSIG_NORMAL data).2
  rw [accepted_normal]
  exact h

theorem abcdefgh_200_length : abcdefgh_200.length = 200 := by
  simp [abcdefgh_200]

theorem bytes_0_199_length : bytes_0_199.length = 200 := by
  simp [bytes_0_199]

theorem compare_full (a b : git_hashsig)
    (h1 : a.mins.size = HASHSIG_HEAP_SIZE) (h2 : a.maxs.size = HASHSIG_HEAP_SIZE)
    (h3 : b.mins.size = HASHSIG_HEAP_SIZE) (h4 : b.maxs.size = HASHSIG_HEAP_SIZE) :
    git_hashsig_compare a b =
      some ((((100 * (hashsig_heap_matches a.mins b.mins * 2) / 254 +
        100 * (hashsig_heap_matches a.maxs b.maxs * 2) / 254) / 2 : Nat) : Int)) := by
  unfold git_hashsig_compare
  rw [heap_compare_full _ _ h1 h3, heap_compare_full _ _ h2 h4]
  simp only
  rw [← Int.ofNat_add, Int.ofNat_tdiv]
  rfl

/-! ## Samples -/

theorem roll_samples_saw_lf (sgn : Bool) (l : List UInt8) (p : hashsig_in_progress) (x : Bool) :
    hashsig_roll_samples sgn { p with saw_lf := x } l = hashsig_roll_samples sgn p l := by
  induction l generalizing p with
  | nil => rfl
  | cons b rest ih =>
    simp only [hashsig_roll_samples, roll_saw_lf]
    rw [ih]

/-- The samples of an input are those of its accepted bytes. -/
theorem samples_eq_roll_samples (sgn : Bool) (opt : Nat) (data : List UInt8)
    (p : hashsig_in_progress) :
    hashsig_samples sgn opt p data =
      hashsig_roll_samples sgn p (hashsig_accepted sgn opt p.saw_lf data).1 := by
  induction data generalizing p with
  | nil => rfl
  | cons b rest ih =>
    simp only [hashsig_samples, hashsig_accepted]
    by_cases hinc : (hashsig_include_char (char_of_uchar sgn b.toNat) opt p.saw_lf).1 = false
    · rw [if_pos hinc, if_pos hinc, ih, roll_samples_saw_lf]
    · rw [if_neg hinc, if_neg hinc, ih]
      simp only [hashsig_roll_samples, roll_saw_lf, roll_samples_saw_lf]

/-- The heaps after advancing over accepted bytes are the heaps before with
the emitted samples inserted in order, each sample once into each heap. -/
theorem fold_advance_heaps (sgn : Bool) (l : List UInt8) (sig : git_hashsig)
    (p : hashsig_in_progress) :
    (l.foldl (hashsig_advance sgn) (sig, p)).1.mins =
      (hashsig_roll_samples sgn p l).foldl hashsig_heap_insert sig.mins ∧
    (l.foldl (hashsig_advance sgn) (sig, p)).1.maxs =
      (hashsig_roll_samples sgn p l).foldl hashsig_heap_insert sig.maxs := by
  induction l generalizing sig p with
  | nil => exact ⟨rfl, rfl⟩
  | cons b rest ih =>
    rw [List.foldl_cons]
    simp only [hashsig_roll_samples, List.foldl_append]
    have hadv : hashsig_advance sgn (sig, p) b =
        (hashsig_record sig (decide (p.win_len < HASHSIG_HASH_WINDOW))
          (hashsig_roll sgn p b.toNat).2, (hashsig_roll sgn p b.toNat).1) := rfl
    rw [hadv, (ih _ _).1, (ih _ _).2]
    cases (hashsig_roll sgn p b.toNat).2 <;> exact ⟨rfl, rfl⟩

/-- The heaps after `hashsig_add_hashes` are the heaps before with the samples
of the input inserted in order. -/
theorem add_hashes_heaps (sgn : Bool) (data : List UInt8) (sig : git_hashsig)
    (p : hashsig_in_progress) :
    (hashsig_add_hashes sgn sig data p).1.mins =
      (hashsig_samples sgn sig.opt p data).foldl hashsig_heap_insert sig.mins ∧
    (hashsig_add_hashes sgn sig data p).1.maxs =
      (hashsig_samples sgn sig.opt p data).foldl hashsig_heap_insert sig.maxs := by
  rw [add_hashes_eq_fold, fold_feed_eq_advance, samples_eq_roll_samples]
  exact fold_advance_heaps sgn _ sig p

/-! ## Consequences for the whitespace modes -/

theorem finalize_same_outcome (s t : git_hashsig) (h1 : s.mins = t.mins)
    (h2 : s.maxs = t.maxs) (h3 : s.considered = t.considered) :
    same_outcome (hashsig_finalize_hashes s) (hashsig_finalize_hashes t) := by
  unfold hashsig_finalize_hashes same_outcome
  rw [h1]
  by_cases hlt : t.mins.size < HASHSIG_HEAP_SIZE
  · simp only [if_pos hlt]
  · simp only [if_neg hlt, h1, h2, h3, and_self]

/-- Feeding under options `o` from fresh structures, expressed through the
advance over the accepted bytes under Normal options. -/
theorem add_hashes_by_accepted (sgn : Bool) (o : Nat) (data : List UInt8) :
    hashsig_add_hashes sgn (hashsig_alloc o) data HASHSIG_IN_PROGRESS_INIT =
      ({ ((hashsig_accepted sgn o true data).1.foldl (hashsig_advance sgn)
            (hashsig_alloc GIT_HASHSIG_NORMAL, HASHSIG_IN_PROGRESS_INIT)).1 with opt := o },
       { ((hashsig_accepted sgn o true data).1.foldl (hashsig_advance sgn)
            (hashsig_alloc GIT_HASHSIG_NORMAL, HASHSIG_IN_PROGRESS_INIT)).2 with
          saw_lf := (hashsig_accepted sgn o true data).2 }) := by
  rw [add_hashes_eq_fold, fold_feed_eq_advance]
  have halloc : hashsig_alloc o = { hashsig_alloc GIT_HASHSIG_NORMAL with opt := o } := rfl
  have h1 : (hashsig_alloc o).opt = o := rfl
  have h2 : HASHSIG_IN_PROGRESS_INIT.saw_lf = true := rfl
  rw [h1, h2, halloc, fold_advance_opt]

theorem feed_byte_cr (sgn : Bool) (sp : git_hashsig × hashsig_in_progress)
    (h : sp.1.opt &&& GIT_HASHSIG_SMART_WHITESPACE ≠ 0) :
    hashsig_feed_byte sgn sp 13 = sp := by
  have hc : char_of_uchar sgn (13 : UInt8).toNat = 13 := by cases sgn <;> rfl
  unfold hashsig_feed_byte
  simp only [hc, include_char_smart_cr _ h, if_true]

theorem fold_feed_cr_inserted (sgn : Bool) (I J : List UInt8) (hIJ : cr_inserted I J)
    (sp : git_hashsig × hashsig_in_progress)
    (h : sp.1.opt &&& GIT_HASHSIG_SMART_WHITESPACE ≠ 0) :
    J.foldl (hashsig_feed_byte sgn) sp = I.foldl (hashsig_feed_byte sgn) sp := by
  induction hIJ generalizing sp with
  | nil => rfl
  | keep b _ ih =>
    rw [List.foldl_cons, List.foldl_cons]
    apply ih
    rw [feed_byte_opt]
    exact h
  | ins _ ih =>
    rw [List.foldl_cons, feed_byte_cr sgn sp h]
    exact ih sp h

theorem samples_cr_inserted (sgn : Bool) (o : Nat) (I J : List UInt8) (hIJ : cr_inserted I J)
    (p : hashsig_in_progress) (h : o &&& GIT_HASHSIG_SMART_WHITESPACE ≠ 0) :
    hashsig_samples sgn o p J = hashsig_samples sgn o p I := by
  have hc : char_of_uchar sgn (13 : UInt8).toNat = 13 := by cases sgn <;> rfl
  induction hIJ generalizing p with
  | nil => rfl
  | keep b _ ih =>
    simp only [hashsig_samples]
    split_ifs
    · exact ih _
    · rw [ih]
  | ins _ ih =>
    simp only [hashsig_samples, hc, include_char_smart_cr _ h, if_true]
    exact ih p

theorem lf_to_crlf_inserted (I : List UInt8) : cr_inserted I (lf_to_crlf I) := by
  induction I with
  | nil => exact cr_inserted.nil
  | cons b rest ih =>
    unfold lf_to_crlf
    by_cases hb : b = 10
    · rw [if_pos hb, hb]
      exact cr_inserted.ins (cr_inserted.keep 10 ih)
    · rw [if_neg hb]
      exact cr_inserted.keep b ih

theorem compare_self_full (s : git_hashsig) (hmins : s.mins.size = HASHSIG_HEAP_SIZE)
    (hmaxs : s.maxs.size = HASHSIG_HEAP_SIZE) : git_hashsig_compare s s = some 100 := by
  rw [compare_full s s hmins hmaxs hmins hmaxs, heap_matches_self, heap_matches_self,
    hmins, hmaxs]
  rfl

/-! ## Arrays as lists: reads, writes and swaps -/

theorem getD_set (l : List Nat) (i j x : Nat) :
    (l.set i x).getD j 0 = if i = j ∧ i < l.length then x else l.getD j 0 := by
  rw [List.getD_eq_getElem?_getD, List.getD_eq_getElem?_getD, List.getElem?_set]
  by_cases hij : i = j
  · by_cases hi : i < l.length
    · rw [if_pos hij, if_pos hi, if_pos ⟨hij, hi⟩]; rfl
    · rw [if_pos hij, if_neg hi, if_neg (fun h => hi h.2)]
      rw [← hij, List.getElem?_eq_none (by omega)]
  · rw [if_neg hij, if_neg (fun h => hij h.1)]

theorem getD_take (l : List Nat) (n i : Nat) (h : i < n) :
    (l.take n).getD i 0 = l.getD i 0 := by
  rw [List.getD_eq_getElem?_getD, List.getD_eq_getElem?_getD, List.getElem?_take_of_lt h]

theorem set_getD_self (l : List Nat) (i : Nat) : l.set i (l.getD i 0) = l := by
  induction l generalizing i with
  | nil => rfl
  | cons y t ih =>
    cases i with
    | zero => rfl
    | succ i => simp only [List.set_cons_succ, List.getD_cons_succ, ih]

theorem perm_cons_set (l : List Nat) (i a : Nat) (h : i < l.length) :
    (a :: l).Perm (l.getD i 0 :: l.set i a) := by
  induction l generalizing i with
  | nil => simp at h
  | cons y t ih =>
    cases i with
    | zero => exact List.Perm.swap _ _ _
    | succ i =>
      simp only [List.set_cons_succ, List.getD_cons_succ]
      have h1 := ih i (by simpa using h)
      exact (List.Perm.swap y a t).trans ((h1.cons y).trans (List.Perm.swap _ _ _))

theorem swap_perm (l : List Nat) (i j : Nat) (hi : i < l.length) (hj : j < l.length)
    (hij : i ≠ j) : ((l.set i (l.getD j 0)).set j (l.getD i 0)).Perm l := by
  have h1 := perm_cons_set l i (l.getD j 0) hi
  have h2 := perm_cons_set (l.set i (l.getD j 0)) j (l.getD i 0)
    (by rw [List.length_set]; exact hj)
  rw [getD_set, if_neg (fun h => hij h.1)] at h2
  exact ((h1.trans h2).cons_inv).symm

theorem swap_take_perm (l : List Nat) (n i j : Nat) (hn : n ≤ l.length) (hi : i < n)
    (hj : j < n) (hij : i ≠ j) :
    (((l.set i (l.getD j 0)).set j (l.getD i 0)).take n).Perm (l.take n) := by
  rw [List.set_take, List.set_take, ← getD_take l n i hi, ← getD_take l n j hj]
  apply swap_perm
  · rw [List.length_take]; omega
  · rw [List.length_take]; omega
  · exact hij

theorem parent_eq (i : Nat) : HEAP_PARENT_OF i = (i - 1) / 2 := by
  unfold HEAP_PARENT_OF
  rw [Nat.shiftRight_eq_div_pow]

theorem cmp_call_nonneg_iff (c : hashsig_cmp) (x y : Nat) : 0 ≤ c.call x y ↔ c.call y x ≤ 0 := by
  cases c <;> simp only [hashsig_cmp.call, hashsig_cmp_min, hashsig_cmp_max] <;>
    split_ifs <;> omega

/-- In a heap the root compares no worse than every live value. -/
theorem heap_ok_root (c : hashsig_cmp) (l : List Nat) (n : Nat) (h : heap_ok c l n) (i : Nat)
    (hi : i < n) : c.call (l.getD 0 0) (l.getD i 0) ≤ 0 := by
  induction i using Nat.strong_induction_on with
  | _ i ih =>
    by_cases h0 : i = 0
    · rw [h0, cmp_call_self]
    · have hp := ih ((i - 1) / 2) (by omega) (by omega)
      exact cmp_call_le_trans c _ _ _ hp (h i (by omega) hi)

/-! ## Sift-up and sift-down restore the heap property -/

theorem swap_reads (l : List Nat) (i j : Nat) (hi : i < l.length) (hj : j < l.length)
    (hij : i ≠ j) :
    ((l.set i (l.getD j 0)).set j (l.getD i 0)).getD i 0 = l.getD j 0 ∧
    ((l.set i (l.getD j 0)).set j (l.getD i 0)).getD j 0 = l.getD i 0 ∧
    ∀ k, k ≠ i → k ≠ j → ((l.set i (l.getD j 0)).set j (l.getD i 0)).getD k 0 = l.getD k 0 := by
  refine ⟨?_, ?_, ?_⟩
  · rw [getD_set, if_neg (fun h => hij h.1.symm), getD_set, if_pos ⟨rfl, hi⟩]
  · rw [getD_set, if_pos ⟨rfl, by rw [List.length_set]; exact hj⟩]
  · intro k hki hkj
    rw [getD_set, if_neg (fun h => hkj h.1.symm), getD_set, if_neg (fun h => hki h.1.symm)]

theorem heap_up_loop_spec (fuel : Nat) (h : hashsig_heap) (el : Nat)
    (hlen : h.size ≤ h.values.length) (hel : el < h.size) (hfuel : el < fuel)
    (h1 : ∀ i, 0 < i → i < h.size → i ≠ el →
      h.cmp.call (h.values.getD ((i - 1) / 2) 0) (h.values.getD i 0) ≤ 0)
    (h2 : 0 < el → ∀ i, 0 < i → i < h.size → (i - 1) / 2 = el →
      h.cmp.call (h.values.getD ((el - 1) / 2) 0) (h.values.getD i 0) ≤ 0) :
    heap_ok h.cmp (hashsig_heap_up_loop fuel h el).values h.size ∧
    ((hashsig_heap_up_loop fuel h el).values.take h.size).Perm (h.values.take h.size) := by
  induction fuel generalizing h el with
  | zero => omega
  | succ f ih =>
    simp only [hashsig_heap_up_loop, parent_eq]
    by_cases hc : 0 < el ∧
        0 < h.cmp.call (h.values.getD ((el - 1) / 2) 0) (h.values.getD el 0)
    · rw [if_pos hc]
      obtain ⟨hpos, hgt⟩ := hc
      have hlt : h.cmp.call (h.values.getD el 0) (h.values.getD ((el - 1) / 2) 0) < 0 :=
        (cmp_call_neg_iff _ _ _).mpr hgt
      have hpe : (el - 1) / 2 ≠ el := by omega
      obtain ⟨re, rp, ro⟩ := swap_reads h.values el ((el - 1) / 2) (by omega) (by omega)
        (fun e => hpe e.symm)
      have key := ih
        { h with
          values := (h.values.set el (h.values.getD ((el - 1) / 2) 0)).set
            ((el - 1) / 2) (h.values.getD el 0) }
        ((el - 1) / 2) (by simp only [List.length_set]; exact hlen)
        (by show (el - 1) / 2 < h.size; omega) (by omega)
        (by
          intro i hi0 hin hip
          show h.cmp.call _ _ ≤ 0
          by_cases hie : i = el
          · rw [hie, rp, re]; omega
          · by_cases hpi : (i - 1) / 2 = (el - 1) / 2
            · rw [hpi, rp, ro i hie hip]
              exact cmp_call_le_trans _ _ _ _ (by omega) (hpi ▸ h1 i hi0 hin hie)
            · by_cases hpe2 : (i - 1) / 2 = el
              · rw [hpe2, re, ro i hie hip]
                exact h2 hpos i hi0 hin hpe2
              · rw [ro _ hpe2 hpi, ro i hie hip]
                exact h1 i hi0 hin hie)
        (by
          intro hp0 i hi0 hin hpar
          show h.cmp.call _ _ ≤ 0
          have hpp : h.cmp.call (h.values.getD (((el - 1) / 2 - 1) / 2) 0)
              (h.values.getD ((el - 1) / 2) 0) ≤ 0 :=
            h1 ((el - 1) / 2) hp0 (by omega) hpe
          rw [ro (((el - 1) / 2 - 1) / 2) (by omega) (by omega)]
          by_cases hie : i = el
          · rw [hie, re]; exact hpp
          · rw [ro i hie (by omega)]
            exact cmp_call_le_trans _ _ _ _ hpp (hpar ▸ h1 i hi0 hin hie))
      refine ⟨key.1, key.2.trans ?_⟩
      exact swap_take_perm h.values h.size el ((el - 1) / 2) hlen hel (by omega)
        (fun e => hpe e.symm)
    · rw [if_neg hc]
      refine ⟨?_, List.Perm.refl _⟩
      intro i hi0 hin
      by_cases hie : i = el
      · rw [hie]
        have : ¬ 0 < h.cmp.call (h.values.getD ((el - 1) / 2) 0) (h.values.getD el 0) :=
          fun hh => hc ⟨by omega, hh⟩
        omega
      · exact h1 i hi0 hin hie

/-- One exchange of sift-down: the value at `el` and its child `s` change
places, where `s` compares no worse than the value at `el` and than the other
child.  The invariants of the loop move from `el` to `s`. -/
theorem heap_down_step (c : hashsig_cmp) (l : List Nat) (n el s : Nat)
    (hlen : n < l.length) (hs : s < n) (hs0 : 0 < s) (hpar : (s - 1) / 2 = el)
    (hstale : l.getD n 0 = l.getD el 0)
    (h1 : ∀ i, 0 < i → i < n → (i - 1) / 2 ≠ el →
      c.call (l.getD ((i - 1) / 2) 0) (l.getD i 0) ≤ 0)
    (h2 : 0 < el → ∀ i, 0 < i → i < n → (i - 1) / 2 = el →
      c.call (l.getD ((el - 1) / 2) 0) (l.getD i 0) ≤ 0)
    (hsv : c.call (l.getD s 0) (l.getD el 0) ≤ 0)
    (hch : ∀ i, 0 < i → i < n → (i - 1) / 2 = el → i ≠ s →
      c.call (l.getD s 0) (l.getD i 0) ≤ 0) :
    ((l.set el (l.getD s 0)).set s (l.getD el 0)).getD n 0 =
      ((l.set el (l.getD s 0)).set s (l.getD el 0)).getD s 0 ∧
    (∀ i, 0 < i → i < n → (i - 1) / 2 ≠ s →
      c.call (((l.set el (l.getD s 0)).set s (l.getD el 0)).getD ((i - 1) / 2) 0)
        (((l.set el (l.getD s 0)).set s (l.getD el 0)).getD i 0) ≤ 0) ∧
    (0 < s → ∀ i, 0 < i → i < n → (i - 1) / 2 = s →
      c.call (((l.set el (l.getD s 0)).set s (l.getD el 0)).getD ((s - 1) / 2) 0)
        (((l.set el (l.getD s 0)).set s (l.getD el 0)).getD i 0) ≤ 0) := by
  have hes : el ≠ s := by omega
  obtain ⟨re, rs, ro⟩ := swap_reads l el s (by omega) (by omega) hes
  refine ⟨?_, ?_, ?_⟩
  · rw [ro n (by omega) (by omega), rs, hstale]
  · intro i hi0 hin hips
    by_cases hpe : (i - 1) / 2 = el
    · rw [hpe, re]
      by_cases his : i = s
      · rw [his, rs]; exact hsv
      · rw [ro i (by omega) his]
        exact hch i hi0 hin hpe his
    · rw [ro _ hpe hips]
      by_cases hie : i = el
      · rw [hie, re]
        exact h2 (by omega) s hs0 hs hpar
      · rw [ro i hie (by omega)]
        exact h1 i hi0 hin hpe
  · intro _ i hi0 hin hips
    rw [hpar, re, ro i (by omega) (by omega)]
    have hpi := h1 i hi0 hin (by omega)
    rw [hips] at hpi
    exact hpi

theorem heap_down_loop_spec (fuel : Nat) (h : hashsig_heap) (el : Nat)
    (hlen : h.size < h.values.length) (hfuel : h.size ≤ el + fuel)
    (hstale : h.values.getD h.size 0 = h.values.getD el 0)
    (h1 : ∀ i, 0 < i → i < h.size → (i - 1) / 2 ≠ el →
      h.cmp.call (h.values.getD ((i - 1) / 2) 0) (h.values.getD i 0) ≤ 0)
    (h2 : 0 < el → ∀ i, 0 < i → i < h.size → (i - 1) / 2 = el →
      h.cmp.call (h.values.getD ((el - 1) / 2) 0) (h.values.getD i 0) ≤ 0) :
    heap_ok h.cmp (hashsig_heap_down_loop fuel h el).values h.size ∧
    ((hashsig_heap_down_loop fuel h el).values.take h.size).Perm (h.values.take h.size) := by
  induction fuel generalizing h el with
  | zero =>
    refine ⟨?_, List.Perm.refl _⟩
    intro i hi0 hin
    exact h1 i hi0 hin (by omega)
  | succ f ih =>
    simp only [hashsig_heap_down_loop, HEAP_LCHILD_OF, HEAP_RCHILD_OF]
    by_cases hbot : el < h.size / 2
    · rw [if_pos hbot]
      by_cases hbrk : h.cmp.call (h.values.getD el 0) (h.values.getD (el * 2 + 1) 0) < 0 ∧
          h.cmp.call (h.values.getD el 0) (h.values.getD (el * 2 + 2) 0) < 0
      · rw [if_pos hbrk]
        refine ⟨?_, List.Perm.refl _⟩
        intro i hi0 hin
        by_cases hpe : (i - 1) / 2 = el
        · rw [hpe]
          have hcases : i = el * 2 + 1 ∨ i = el * 2 + 2 := by omega
          rcases hcases with hi | hi
          · rw [hi]; omega
          · rw [hi]; omega
        · exact h1 i hi0 hin hpe
      · rw [if_neg hbrk]
        have hnot : 0 ≤ h.cmp.call (h.values.getD el 0) (h.values.getD (el * 2 + 1) 0) ∨
            0 ≤ h.cmp.call (h.values.getD el 0) (h.values.getD (el * 2 + 2) 0) := by
          by_cases hx : h.cmp.call (h.values.getD el 0) (h.values.getD (el * 2 + 1) 0) < 0
          · right
            by_cases hy : h.cmp.call (h.values.getD el 0) (h.values.getD (el * 2 + 2) 0) < 0
            · exact absurd ⟨hx, hy⟩ hbrk
            · omega
          · left; omega
        by_cases hlr : h.cmp.call (h.values.getD (el * 2 + 1) 0)
            (h.values.getD (el * 2 + 2) 0) < 0
        · rw [if_pos hlr]
          have hlrle : h.cmp.call (h.values.getD (el * 2 + 1) 0)
              (h.values.getD (el * 2 + 2) 0) ≤ 0 := by omega
          have hsv : h.cmp.call (h.values.getD (el * 2 + 1) 0) (h.values.getD el 0) ≤ 0 := by
            rcases hnot with hx | hy
            · exact (cmp_call_nonneg_iff _ _ _).mp hx
            · exact cmp_call_le_trans _ _ _ _ hlrle ((cmp_call_nonneg_iff _ _ _).mp hy)
          obtain ⟨s1, s2, s3⟩ := heap_down_step h.cmp h.values h.size el (el * 2 + 1) hlen
            (by omega) (by omega) (by omega) hstale h1 h2 hsv
            (by
              intro i hi0 hin hpe his
              have hi : i = el * 2 + 2 := by omega
              rw [hi]; exact hlrle)
          have key := ih
            { h with
              values := (h.values.set el (h.values.getD (el * 2 + 1) 0)).set (el * 2 + 1)
                (h.values.getD el 0) }
            (el * 2 + 1) (by simp only [List.length_set]; exact hlen)
            (by show h.size ≤ el * 2 + 1 + f; omega) s1 s2 s3
          refine ⟨key.1, key.2.trans ?_⟩
          exact swap_take_perm h.values h.size el (el * 2 + 1) (by omega) (by omega) (by omega)
            (by omega)
        · rw [if_neg hlr]
          have hrlle : h.cmp.call (h.values.getD (el * 2 + 2) 0)
              (h.values.getD (el * 2 + 1) 0) ≤ 0 :=
            (cmp_call_nonneg_iff _ _ _).mp (by omega)
          by_cases hrn : el * 2 + 2 < h.size
          · have hsv : h.cmp.call (h.values.getD (el * 2 + 2) 0) (h.values.getD el 0) ≤ 0 := by
              rcases hnot with hx | hy
              · exact cmp_call_le_trans _ _ _ _ hrlle ((cmp_call_nonneg_iff _ _ _).mp hx)
              · exact (cmp_call_nonneg_iff _ _ _).mp hy
            obtain ⟨s1, s2, s3⟩ := heap_down_step h.cmp h.values h.size el (el * 2 + 2) hlen
              hrn (by omega) (by omega) hstale h1 h2 hsv
              (by
                intro i hi0 hin hpe his
                have hi : i = el * 2 + 1 := by omega
                rw [hi]; exact hrlle)
            have key := ih
              { h with
                values := (h.values.set el (h.values.getD (el * 2 + 2) 0)).set (el * 2 + 2)
                  (h.values.getD el 0) }
              (el * 2 + 2) (by simp only [List.length_set]; exact hlen)
              (by show h.size ≤ el * 2 + 2 + f; omega) s1 s2 s3
            refine ⟨key.1, key.2.trans ?_⟩
            exact swap_take_perm h.values h.size el (el * 2 + 2) (by omega) (by omega) hrn
              (by omega)
          · have hrel : el * 2 + 2 = h.size := by omega
            have hsame : (h.values.set el (h.values.getD (el * 2 + 2) 0)).set (el * 2 + 2)
                (h.values.getD el 0) = h.values := by
              rw [hrel, hstale, set_getD_self, ← hstale, set_getD_self]
            rw [hsame]
            have hh : ({ h with values := h.values } : hashsig_heap) = h := rfl
            rw [hh]
            refine ih h (el * 2 + 2) hlen (by omega) (by rw [hrel]) ?_ ?_
            · intro i hi0 hin hpe
              by_cases hpe2 : (i - 1) / 2 = el
              · have hi : i = el * 2 + 1 := by omega
                rw [hpe2, hi]
                rw [hrel, hstale] at hlr
                exact (cmp_call_nonneg_iff _ _ _).mp (by omega)
              · exact h1 i hi0 hin hpe2
            · intro _ i hi0 hin hpe
              omega
    · rw [if_neg hbot]
      refine ⟨?_, List.Perm.refl _⟩
      intro i hi0 hin
      exact h1 i hi0 hin (by omega)

/-! ## `hashsig_heap_insert` on a well-formed heap -/

/-- `hashsig_heap_insert` is a conditional pop followed by a conditional
push. -/
theorem heap_insert_eq (h : hashsig_heap) (v : Nat) :
    hashsig_heap_insert h v =
      if (if h.size = h.asize ∧ 0 < h.cmp.call v (h.values.getD 0 0) then heap_pop h else h).size
          < (if h.size = h.asize ∧ 0 < h.cmp.call v (h.values.getD 0 0)
              then heap_pop h else h).asize then
        heap_push (if h.size = h.asize ∧ 0 < h.cmp.call v (h.values.getD 0 0)
          then heap_pop h else h) v
      else (if h.size = h.asize ∧ 0 < h.cmp.call v (h.values.getD 0 0) then heap_pop h else h) :=
  rfl

theorem take_succ_set (l : List Nat) (m v : Nat) (hm : m < l.length) :
    ((l.set m v).take (m + 1)).Perm (v :: l.take m) := by
  rw [List.set_eq_take_cons_drop v hm, List.take_append_eq_append_take, List.length_take,
    Nat.min_eq_left (by omega), List.take_take, Nat.min_eq_right (by omega),
    (by omega : m + 1 - m = 1), List.take_succ_cons, List.take_zero]
  exact List.perm_append_singleton v (l.take m)

theorem take_pop_perm (l : List Nat) (n : Nat) (hn : 0 < n) (hlen : n < l.length) :
    (((l.set 0 (l.getD n 0)).take n)).Perm ((l.take (n + 1)).tail) := by
  cases l with
  | nil => simp at hlen
  | cons y t =>
    cases n with
    | zero => omega
    | succ k =>
      have hk : k < t.length := by simpa using hlen
      have hg : (y :: t).getD (k + 1) 0 = t[k] := by
        rw [List.getD_cons_succ, List.getD_eq_getElem _ _ hk]
      rw [hg]
      show (t[k] :: t.take k).Perm (t.take (k + 1))
      rw [List.take_succ, List.getElem?_eq_getElem hk]
      exact (List.perm_append_singleton _ _).symm

theorem heap_push_spec (g : hashsig_heap) (v : Nat) (hgl : g.size < g.values.length)
    (hgok : heap_ok g.cmp g.values g.size) :
    (heap_push g v).size = g.size + 1 ∧ (heap_push g v).asize = g.asize ∧
    (heap_push g v).cmp = g.cmp ∧ (heap_push g v).values.length = g.values.length ∧
    heap_ok g.cmp (heap_push g v).values (g.size + 1) ∧
    ((heap_push g v).values.take (g.size + 1)).Perm (v :: g.values.take g.size) := by
  have hf := heap_up_loop_fields (g.size + 1 - 1 + 1)
    { g with values := g.values.set g.size v, size := g.size + 1 } (g.size + 1 - 1)
  have key := heap_up_loop_spec (g.size + 1 - 1 + 1)
    { g with values := g.values.set g.size v, size := g.size + 1 } (g.size + 1 - 1)
    (by simp only [List.length_set]; omega) (by show g.size + 1 - 1 < g.size + 1; omega)
    (by omega)
    (by
      intro i hi0 hin hie
      show g.cmp.call _ _ ≤ 0
      have hin2 : i < g.size + 1 := hin
      rw [getD_set, getD_set, if_neg (by omega), if_neg (by omega)]
      exact hgok i hi0 (by omega))
    (by
      intro _ i hi0 hin hpar
      have hin2 : i < g.size + 1 := hin
      omega)
  refine ⟨hf.1, hf.2.1, hf.2.2.1, ?_, key.1, key.2.trans ?_⟩
  · exact hf.2.2.2.trans (List.length_set _ _ _)
  · exact take_succ_set g.values g.size v hgl

theorem heap_pop_spec (h : hashsig_heap) (hn : 2 ≤ h.size) (hlen : h.size ≤ h.values.length)
    (hok : heap_ok h.cmp h.values h.size) :
    (heap_pop h).size = h.size - 1 ∧ (heap_pop h).asize = h.asize ∧
    (heap_pop h).cmp = h.cmp ∧ (heap_pop h).values.length = h.values.length ∧
    heap_ok h.cmp (heap_pop h).values (h.size - 1) ∧
    ((heap_pop h).values.take (h.size - 1)).Perm ((h.values.take h.size).tail) := by
  have hf := heap_down_loop_fields (h.size - 1 + 1)
    { h with size := h.size - 1, values := h.values.set 0 (h.values.getD (h.size - 1) 0) } 0
  have key := heap_down_loop_spec (h.size - 1 + 1)
    { h with size := h.size - 1, values := h.values.set 0 (h.values.getD (h.size - 1) 0) } 0
    (by simp only [List.length_set]; omega) (by show h.size - 1 ≤ 0 + (h.size - 1 + 1); omega)
    (by
      show (h.values.set 0 _).getD (h.size - 1) 0 = (h.values.set 0 _).getD 0 0
      rw [getD_set, getD_set, if_neg (by omega), if_pos ⟨rfl, by omega⟩])
    (by
      intro i hi0 hin hpe
      show h.cmp.call _ _ ≤ 0
      have hin2 : i < h.size - 1 := hin
      rw [getD_set, getD_set, if_neg (by omega), if_neg (by omega)]
      exact hok i hi0 (by omega))
    (by intro h0; omega)
  refine ⟨hf.1, hf.2.1, hf.2.2.1, ?_, key.1, key.2.trans ?_⟩
  · exact hf.2.2.2.trans (List.length_set _ _ _)
  · have := take_pop_perm h.values (h.size - 1) (by omega) (by omega)
    rw [(by omega : h.size - 1 + 1 = h.size)] at this
    exact this

/-- The effect of `hashsig_heap_insert` on a heap with 127 slots that satisfies
the heap property: the heap property is kept, and the live values are the old
ones plus `val` while the heap is not full; when it is full, `val` replaces the
root if it compares better than the root and is dropped otherwise. -/
theorem heap_insert_spec (h : hashsig_heap) (v : Nat) (hasz : h.asize = 127)
    (hlen : h.values.length = 127) (hsz : h.size ≤ 127)
    (hok : heap_ok h.cmp h.values h.size) :
    (hashsig_heap_insert h v).cmp = h.cmp ∧
    heap_ok h.cmp (hashsig_heap_insert h v).values (hashsig_heap_insert h v).size ∧
    (h.size < 127 →
      ((hashsig_heap_insert h v).values.take (hashsig_heap_insert h v).size).Perm
        (v :: h.values.take h.size)) ∧
    (h.size = 127 → 0 < h.cmp.call v (h.values.getD 0 0) →
      ((hashsig_heap_insert h v).values.take (hashsig_heap_insert h v).size).Perm
        (v :: (h.values.take h.size).tail)) ∧
    (h.size = 127 → ¬ 0 < h.cmp.call v (h.values.getD 0 0) → hashsig_heap_insert h v = h) := by
  rw [heap_insert_eq]
  by_cases hfull : h.size = h.asize ∧ 0 < h.cmp.call v (h.values.getD 0 0)
  · obtain ⟨p1, p2, p3, p4, p5, p6⟩ := heap_pop_spec h (by omega) (by omega) hok
    simp only [if_pos hfull]
    have hlt : (heap_pop h).size < (heap_pop h).asize := by rw [p1, p2]; omega
    rw [if_pos hlt]
    obtain ⟨q1, q2, q3, q4, q5, q6⟩ := heap_push_spec (heap_pop h) v (by rw [p1, p4]; omega)
      (by rw [p3, p1]; exact p5)
    rw [p3, p1] at q5
    rw [p1] at q6 q1
    rw [q1]
    refine ⟨q3.trans p3, q5, fun hc => absurd hc (by omega), ?_, fun _ hc => absurd hfull.2 hc⟩
    intro _ _
    exact q6.trans (List.Perm.cons v p6)
  · simp only [if_neg hfull]
    by_cases hlt : h.size < h.asize
    · rw [if_pos hlt]
      obtain ⟨q1, q2, q3, q4, q5, q6⟩ := heap_push_spec h v (by omega) hok
      rw [q1]
      exact ⟨q3, q5, fun _ => q6, fun hc => absurd hc (by omega),
        fun hc => absurd hc (by omega)⟩
    · rw [if_neg hlt]
      refine ⟨rfl, hok, fun hc => absurd hc (by omega), fun hs hb => ?_, fun _ _ => rfl⟩
      exact absurd (And.intro (by omega) hb) hfull

/-! ## The best `k` values of a list after one more value -/

theorem take_orderedInsert_in (r : Nat → Nat → Prop) [DecidableRel r] (v : Nat) (L : List Nat)
    (k : Nat) (h : ∀ x, L[k]? = some x → r v x) :
    (List.orderedInsert r v L).take (k + 1) = List.orderedInsert r v (L.take k) := by
  induction L generalizing k with
  | nil => simp
  | cons y t ih =>
    by_cases hvy : r v y
    · cases k with
      | zero => simp [List.orderedInsert, hvy]
      | succ k => simp [List.orderedInsert, hvy]
    · cases k with
      | zero => exact absurd (h y (by simp)) hvy
      | succ k =>
        have hih := ih k (fun x hx => h x (by simpa using hx))
        simp only [List.orderedInsert, if_neg hvy, List.take_succ_cons, hih]

theorem take_orderedInsert_out (r : Nat → Nat → Prop) [DecidableRel r]
    (htrans : ∀ a b c, r a b → r b c → r a c) (v : Nat) (L : List Nat) (hs : L.Sorted r)
    (k x : Nat) (hx : L[k]? = some x) (hv : ¬ r v x) :
    (List.orderedInsert r v L).take (k + 1) = L.take (k + 1) := by
  induction L generalizing k with
  | nil => simp at hx
  | cons y t ih =>
    have hyx : ¬ r v y := by
      intro hvy
      cases k with
      | zero =>
        have : y = x := by simpa using hx
        exact hv (this ▸ hvy)
      | succ k =>
        have hmem : x ∈ t := by
          have : t[k]? = some x := by simpa using hx
          exact List.getElem?_mem this
        exact hv (htrans _ _ _ hvy (List.rel_of_sorted_cons hs x hmem))
    cases k with
    | zero => simp [List.orderedInsert, hyx]
    | succ k =>
      have hih := ih (List.Sorted.of_cons hs) k (by simpa using hx)
      simp only [List.orderedInsert, if_neg hyx, List.take_succ_cons, hih]

theorem cmp_ge_total (c : hashsig_cmp) : IsTotal Nat (cmp_ge c) :=
  ⟨fun a b => cmp_call_le_total c b a⟩

theorem cmp_ge_trans (c : hashsig_cmp) : IsTrans Nat (cmp_ge c) :=
  ⟨fun _ _ _ h1 h2 => cmp_call_le_trans c _ _ _ h2 h1⟩

theorem cmp_ge_antisymm (c : hashsig_cmp) : IsAntisymm Nat (cmp_ge c) :=
  ⟨fun _ _ h1 h2 => cmp_call_le_antisymm c _ _ h2 h1⟩

theorem insertionSort_snoc (c : hashsig_cmp) (vs : List Nat) (v : Nat) :
    (vs ++ [v]).insertionSort (cmp_ge c) =
      List.orderedInsert (cmp_ge c) v (vs.insertionSort (cmp_ge c)) := by
  haveI := cmp_ge_total c
  haveI := cmp_ge_trans c
  haveI := cmp_ge_antisymm c
  apply List.eq_of_perm_of_sorted (r := cmp_ge c)
  · refine (List.perm_insertionSort _ _).trans ?_
    refine (List.perm_append_singleton v vs).trans ?_
    refine List.Perm.trans ?_ (List.perm_orderedInsert _ _ _).symm
    exact List.Perm.cons v (List.perm_insertionSort _ _).symm
  · exact List.sorted_insertionSort _ _
  · exact List.Sorted.orderedInsert _ _ (List.sorted_insertionSort _ _)

theorem take_127_split (L : List Nat) (x : Nat) (hx : L[126]? = some x) :
    L.take 127 = L.take 126 ++ [x] := by
  rw [List.take_succ, hx]; rfl

theorem best_step_short (c : hashsig_cmp) (L S : List Nat) (v : Nat) (hL : L.length < 127)
    (hS : S.Perm L) : (v :: S).Perm ((List.orderedInsert (cmp_ge c) v L).take 127) := by
  rw [take_orderedInsert_in (cmp_ge c) v L 126
    (fun x hx => by rw [List.getElem?_eq_none (by omega)] at hx; cases hx),
    List.take_of_length_le (by omega)]
  exact (List.Perm.cons v hS).trans (List.perm_orderedInsert _ _ _).symm

theorem best_step_replace (c : hashsig_cmp) (L S T : List Nat) (v x : Nat)
    (hx : L[126]? = some x) (hS : S.Perm (L.take 127)) (hT : (x :: T).Perm S)
    (hv : cmp_ge c v x) : (v :: T).Perm ((List.orderedInsert (cmp_ge c) v L).take 127) := by
  rw [take_orderedInsert_in (cmp_ge c) v L 126
    (fun y hy => by rw [hx] at hy; injection hy with hy; rw [← hy]; exact hv)]
  refine List.Perm.trans (List.Perm.cons v ?_) (List.perm_orderedInsert _ _ _).symm
  have h1 : (x :: T).Perm (x :: L.take 126) := by
    refine hT.trans (hS.trans ?_)
    rw [take_127_split L x hx]
    exact List.perm_append_singleton _ _
  exact h1.cons_inv

theorem best_step_keep (c : hashsig_cmp) (L S : List Nat) (v x : Nat)
    (hs : L.Sorted (cmp_ge c)) (hx : L[126]? = some x) (hS : S.Perm (L.take 127))
    (hv : c.call v x ≤ 0) : S.Perm ((List.orderedInsert (cmp_ge c) v L).take 127) := by
  by_cases hge : cmp_ge c v x
  · have hvx : v = x := cmp_call_le_antisymm c v x hv hge
    rw [take_orderedInsert_in (cmp_ge c) v L 126
      (fun y hy => by rw [hx] at hy; injection hy with hy; rw [← hy]; exact hge)]
    refine hS.trans (List.Perm.trans ?_ (List.perm_orderedInsert _ _ _).symm)
    rw [take_127_split L x hx, hvx]
    exact List.perm_append_singleton _ _
  · rw [take_orderedInsert_out (cmp_ge c) (cmp_ge_trans c).trans v L hs 126 x hx hge]
    exact hS

theorem best_root_eq (c : hashsig_cmp) (L S : List Nat) (root x : Nat)
    (hs : L.Sorted (cmp_ge c)) (hx : L[126]? = some x) (hS : S.Perm (L.take 127))
    (hroot : root ∈ S) (hworst : ∀ y ∈ S, c.call root y ≤ 0) : root = x := by
  have hsplit := take_127_split L x hx
  have hxS : x ∈ S := by
    rw [hS.mem_iff, hsplit]
    simp
  have h1 : c.call root x ≤ 0 := hworst x hxS
  have h2 : c.call x root ≤ 0 := by
    have hrL : root ∈ L.take 126 ++ [x] := by rw [← hsplit, ← hS.mem_iff]; exact hroot
    rcases List.mem_append.mp hrL with hr | hr
    · have hsorted : (L.take 126 ++ [x]).Pairwise (cmp_ge c) := by
        rw [← hsplit]
        exact List.Pairwise.sublist (List.take_sublist _ _) hs
      exact (List.pairwise_append.mp hsorted).2.2 root hr x (by simp)
    · have : root = x := by simpa using hr
      rw [this, cmp_call_self]
  exact cmp_call_le_antisymm c root x h1 h2

theorem heap_keeps_init (c : hashsig_cmp) : heap_keeps c [] (hashsig_heap_init c) := by
  refine ⟨rfl, by simp [hashsig_heap_init], rfl, rfl, ?_, ?_⟩
  · intro i _ hi
    exact absurd hi (by simp [hashsig_heap_init])
  · simp [hashsig_heap_init]

theorem heap_keeps_insert (c : hashsig_cmp) (vs : List Nat) (h : hashsig_heap) (v : Nat)
    (hk : heap_keeps c vs h) : heap_keeps c (vs ++ [v]) (hashsig_heap_insert h v) := by
  obtain ⟨ha, hl, hc, hsz, hok, hperm⟩ := hk
  subst hc
  haveI := cmp_ge_total h.cmp
  haveI := cmp_ge_trans h.cmp
  obtain ⟨f1, f2, f3⟩ := heap_insert_fields h v
  have fsz := heap_insert_size h v (by omega) (by omega)
  obtain ⟨_, iok, iA, iB, iC⟩ := heap_insert_spec h v ha hl (by omega) hok
  have hLlen : (vs.insertionSort (cmp_ge h.cmp)).length = vs.length :=
    List.length_insertionSort _ _
  have hLs : (vs.insertionSort (cmp_ge h.cmp)).Sorted (cmp_ge h.cmp) :=
    List.sorted_insertionSort _ _
  refine ⟨f1.trans ha, f3.trans hl, f2, ?_, iok, ?_⟩
  · rw [fsz, ha, hsz, List.length_append, List.length_singleton]; omega
  · rw [insertionSort_snoc]
    by_cases hlt : h.size < 127
    · refine (iA hlt).trans ?_
      apply best_step_short
      · omega
      · refine hperm.trans ?_
        rw [List.take_of_length_le (by omega)]
    · have hfull : h.size = 127 := by omega
      have hx : ∃ x, (vs.insertionSort (cmp_ge h.cmp))[126]? = some x :=
        ⟨_, List.getElem?_eq_getElem (by omega)⟩
      obtain ⟨x, hx⟩ := hx
      have hne : h.values.take h.size = h.values.getD 0 0 :: (h.values.take h.size).tail := by
        cases hv : h.values with
        | nil => rw [hv] at hl; simp at hl
        | cons y t => rw [hfull]; rfl
      have hrootmem : h.values.getD 0 0 ∈ h.values.take h.size := by
        rw [hne]; exact List.mem_cons_self _ _
      have hworst : ∀ y ∈ h.values.take h.size, h.cmp.call (h.values.getD 0 0) y ≤ 0 := by
        intro y hy
        obtain ⟨i, hi, hyi⟩ := List.mem_iff_getElem.mp hy
        have hi2 : i < h.size := by
          rw [List.length_take] at hi; omega
        have hget : h.values.getD i 0 = y := by
          rw [← getD_take h.values h.size i hi2, List.getD_eq_getElem _ _ hi]
          exact hyi
        rw [← hget]
        exact heap_ok_root h.cmp h.values h.size hok i hi2
      have hroot := best_root_eq h.cmp _ _ _ x hLs hx hperm hrootmem hworst
      by_cases hbetter : 0 < h.cmp.call v (h.values.getD 0 0)
      · refine (iB hfull hbetter).trans ?_
        apply best_step_replace h.cmp _ (h.values.take h.size) _ v x hx hperm
        · rw [← hroot, ← hne]
        · show h.cmp.call x v ≤ 0
          rw [← hroot]
          have := (cmp_call_neg_iff h.cmp (h.values.getD 0 0) v).mpr hbetter
          omega
      · rw [iC hfull hbetter]
        apply best_step_keep h.cmp _ _ v x hLs hx hperm
        rw [← hroot]
        omega

theorem heap_keeps_fold (c : hashsig_cmp) (ws vs : List Nat) (h : hashsig_heap)
    (hk : heap_keeps c vs h) : heap_keeps c (vs ++ ws) (ws.foldl hashsig_heap_insert h) := by
  induction ws generalizing vs h with
  | nil => rw [List.append_nil]; exact hk
  | cons w rest ih =>
    rw [List.foldl_cons, ← List.singleton_append, ← List.append_assoc]
    exact ih _ _ (heap_keeps_insert c vs h w hk)

theorem insertionSort_congr (r1 r2 : Nat → Nat → Prop) [DecidableRel r1] [DecidableRel r2]
    (h : ∀ a b, r1 a b ↔ r2 a b) (l : List Nat) :
    l.insertionSort r1 = l.insertionSort r2 := by
  have hins : ∀ (v : Nat) (t : List Nat),
      List.orderedInsert r1 v t = List.orderedInsert r2 v t := by
    intro v t
    induction t with
    | nil => rfl
    | cons y t ih =>
      by_cases hv : r1 v y
      · simp only [List.orderedInsert, if_pos hv, if_pos ((h v y).mp hv)]
      · simp only [List.orderedInsert, if_neg hv, if_neg (fun h2 => hv ((h v y).mpr h2)), ih]
  induction l with
  | nil => rfl
  | cons y t ih => simp only [List.insertionSort, ih, hins]

/-! ## The fuel of the sift loops is never exhausted -/

theorem heap_up_loop_fuel (fuel k : Nat) (h : hashsig_heap) (el : Nat) (hf : el < fuel) :
    hashsig_heap_up_loop (fuel + k) h el = hashsig_heap_up_loop fuel h el := by
  induction fuel generalizing h el with
  | zero => omega
  | succ f ih =>
    rw [Nat.add_right_comm]
    simp only [hashsig_heap_up_loop, parent_eq]
    by_cases hc : 0 < el ∧
        0 < h.cmp.call (h.values.getD ((el - 1) / 2) 0) (h.values.getD el 0)
    · rw [if_pos hc, if_pos hc]
      exact ih _ _ (by omega)
    · rw [if_neg hc, if_neg hc]

theorem heap_down_loop_fuel (fuel k : Nat) (h : hashsig_heap) (el : Nat)
    (hf : h.size ≤ el + fuel) :
    hashsig_heap_down_loop (fuel + k) h el = hashsig_heap_down_loop fuel h el := by
  induction fuel generalizing h el with
  | zero =>
    cases k with
    | zero => rfl
    | succ k =>
      simp only [Nat.zero_add, hashsig_heap_down_loop]
      rw [if_neg (by omega)]
  | succ f ih =>
    rw [Nat.add_right_comm]
    simp only [hashsig_heap_down_loop, HEAP_LCHILD_OF, HEAP_RCHILD_OF]
    by_cases hbot : el < h.size / 2
    · rw [if_pos hbot, if_pos hbot]
      by_cases hbrk : h.cmp.call (h.values.getD el 0) (h.values.getD (el * 2 + 1) 0) < 0 ∧
          h.cmp.call (h.values.getD el 0) (h.values.getD (el * 2 + 2) 0) < 0
      · rw [if_pos hbrk, if_pos hbrk]
      · rw [if_neg hbrk, if_neg hbrk]
        apply ih
        show h.size ≤ _
        split_ifs <;> omega
    · rw [if_neg hbot, if_neg hbot]

/-! ## `qsort` -/

theorem cmp_le_total (c : hashsig_cmp) : IsTotal Nat (cmp_le c) :=
  ⟨fun a b => cmp_call_le_total c a b⟩

theorem cmp_le_trans (c : hashsig_cmp) : IsTrans Nat (cmp_le c) :=
  ⟨fun _ _ _ h1 h2 => cmp_call_le_trans c _ _ _ h1 h2⟩

theorem cmp_le_antisymm (c : hashsig_cmp) : IsAntisymm Nat (cmp_le c) :=
  ⟨fun _ _ h1 h2 => cmp_call_le_antisymm c _ _ h1 h2⟩

theorem qsort_insert_eq (c : hashsig_cmp) (x : Nat) (l : List Nat) :
    qsort_insert c x l = List.orderedInsert (cmp_le c) x l := by
  induction l with
  | nil => rfl
  | cons y t ih =>
    by_cases h : c.call x y ≤ 0
    · have h2 : cmp_le c x y := h
      simp only [qsort_insert, List.orderedInsert, if_pos h, if_pos h2]
    · have h2 : ¬ cmp_le c x y := h
      simp only [qsort_insert, List.orderedInsert, if_neg h, if_neg h2, ih]

theorem qsort_eq (c : hashsig_cmp) (l : List Nat) : qsort c l = l.insertionSort (cmp_le c) := by
  induction l with
  | nil => rfl
  | cons y t ih =>
    have h : qsort c (y :: t) = qsort_insert c y (qsort c t) := rfl
    rw [h, ih, qsort_insert_eq]
    rfl

theorem qsort_perm (c : hashsig_cmp) (l : List Nat) : (qsort c l).Perm l := by
  rw [qsort_eq]; exact List.perm_insertionSort _ _

theorem qsort_sorted (c : hashsig_cmp) (l : List Nat) : (qsort c l).Pairwise (cmp_le c) := by
  haveI := cmp_le_total c
  haveI := cmp_le_trans c
  rw [qsort_eq]; exact List.sorted_insertionSort _ _

/-- The result of `qsort` does not depend on the sorting algorithm: every
arrangement of the same values that is sorted by the comparator equals it. -/
theorem qsort_unique (c : hashsig_cmp) (l l2 : List Nat) (hp : l2.Perm l)
    (hs : l2.Pairwise (cmp_le c)) : l2 = qsort c l := by
  haveI := cmp_le_antisymm c
  exact List.eq_of_perm_of_sorted (hp.trans (qsort_perm c l).symm) hs (qsort_sorted c l)

theorem pairwise_getD (r : Nat → Nat → Prop) (l : List Nat) (hs : l.Pairwise r) (i : Nat)
    (hi : i + 1 < l.length) : r (l.getD i 0) (l.getD (i + 1) 0) := by
  rw [List.getD_eq_getElem _ _ (by omega : i < l.length), List.getD_eq_getElem _ _ hi]
  exact List.pairwise_iff_getElem.mp hs i (i + 1) (by omega) hi (by omega)

theorem heap_sort_full (h : hashsig_heap) (hsz : h.size = 127) (hlen : h.values.length = 127) :
    (hashsig_heap_sort h).values = qsort h.cmp h.values := by
  unfold hashsig_heap_sort
  simp only
  rw [List.take_of_length_le (by omega), List.drop_of_length_le (by omega), List.append_nil]

/-- The heaps that `hashsig_add_hashes` leaves, starting from fresh
structures, satisfy the invariant of a heap built by insertions. -/
theorem add_hashes_heap_keeps (sgn : Bool) (opts : Nat) (data : List UInt8) :
    heap_keeps .cmp_min (hashsig_samples sgn opts HASHSIG_IN_PROGRESS_INIT data)
      (hashsig_add_hashes sgn (hashsig_alloc opts) data HASHSIG_IN_PROGRESS_INIT).1.mins ∧
    heap_keeps .cmp_max (hashsig_samples sgn opts HASHSIG_IN_PROGRESS_INIT data)
      (hashsig_add_hashes sgn (hashsig_alloc opts) data HASHSIG_IN_PROGRESS_INIT).1.maxs := by
  obtain ⟨h1, h2⟩ := add_hashes_heaps sgn data (hashsig_alloc opts) HASHSIG_IN_PROGRESS_INIT
  rw [h1, h2]
  have k1 := heap_keeps_fold .cmp_min
    (hashsig_samples sgn opts HASHSIG_IN_PROGRESS_INIT data) [] _ (heap_keeps_init .cmp_min)
  have k2 := heap_keeps_fold .cmp_max
    (hashsig_samples sgn opts HASHSIG_IN_PROGRESS_INIT data) [] _ (heap_keeps_init .cmp_max)
  rw [List.nil_append] at k1 k2
  exact ⟨k1, k2⟩

/-! ## A full score means equal arrays -/

theorem cmp_call_eq_zero_iff (c : hashsig_cmp) (x y : Nat) : c.call x y = 0 ↔ x = y := by
  constructor
  · intro h
    exact cmp_call_le_antisymm c x y (by omega) ((cmp_call_nonneg_iff c x y).mp (by omega))
  · intro h
    rw [h, cmp_call_self]

theorem compare_loop_diag (a b : hashsig_heap) (n : Nat) (ha : a.size = n) (hb : b.size = n)
    (fuel i m : Nat) (hf : n - i ≤ fuel) :
    hashsig_heap_compare_loop fuel a b i i m = m + (n - i) ↔
      ∀ k, i ≤ k → k < n → a.values.getD k 0 = b.values.getD k 0 := by
  induction fuel generalizing i m with
  | zero =>
    simp only [hashsig_heap_compare_loop]
    constructor
    · intro _ k h1 h2; omega
    · intro _; omega
  | succ f ih =>
    simp only [hashsig_heap_compare_loop]
    by_cases hi : i < a.size ∧ i < b.size
    · rw [if_pos hi]
      have hin : i < n := by omega
      by_cases hlt : a.cmp.call (a.values.getD i 0) (b.values.getD i 0) < 0
      · rw [if_pos hlt]
        have hle := compare_loop_le a b f (i + 1) i m
        have hne : a.values.getD i 0 ≠ b.values.getD i 0 := by
          intro he
          rw [(cmp_call_eq_zero_iff _ _ _).mpr he] at hlt
          omega
        constructor
        · intro h; omega
        · intro h; exact absurd (h i (by omega) hin) hne
      · rw [if_neg hlt]
        by_cases hgt : 0 < a.cmp.call (a.values.getD i 0) (b.values.getD i 0)
        · rw [if_pos hgt]
          have hle := compare_loop_le a b f i (i + 1) m
          have hne : a.values.getD i 0 ≠ b.values.getD i 0 := by
            intro he
            rw [(cmp_call_eq_zero_iff _ _ _).mpr he] at hgt
            omega
          constructor
          · intro h; omega
          · intro h; exact absurd (h i (by omega) hin) hne
        · rw [if_neg hgt]
          have heq : a.values.getD i 0 = b.values.getD i 0 :=
            (cmp_call_eq_zero_iff a.cmp _ _).mp (by omega)
          have hih := ih (i + 1) (m + 1) (by omega)
          have hsum : m + 1 + (n - (i + 1)) = m + (n - i) := by omega
          rw [hsum] at hih
          rw [hih]
          constructor
          · intro h k hk1 hk2
            by_cases hki : k = i
            · rw [hki]; exact heq
            · exact h k (by omega) hk2
          · intro h k hk1 hk2
            exact h k (by omega) hk2
    · rw [if_neg hi]
      constructor
      · intro _ k h1 h2; omega
      · intro _; omega

theorem heap_matches_full_iff (a b : hashsig_heap) (ha : a.size = 127) (hb : b.size = 127) :
    hashsig_heap_matches a b = 127 ↔
      ∀ k, k < 127 → a.values.getD k 0 = b.values.getD k 0 := by
  unfold hashsig_heap_matches
  have h := compare_loop_diag a b 127 ha hb (a.size + b.size) 0 0 (by omega)
  simp only [Nat.zero_add, Nat.sub_zero] at h
  rw [h]
  constructor
  · intro hk k hlt; exact hk k (by omega) hlt
  · intro hk k _ hlt; exact hk k hlt

/-! ## Counting samples -/

theorem roll_win_len (sgn : Bool) (p : hashsig_in_progress) (ch n : Nat)
    (hw : p.win_len = min n HASHSIG_HASH_WINDOW) :
    (hashsig_roll sgn p ch).1.win_len = min (n + 1) HASHSIG_HASH_WINDOW ∧
    (hashsig_roll sgn p ch).2.toList.length = (n + 1 - 7) - (n - 7) := by
  have hW : HASHSIG_HASH_WINDOW = 8 := rfl
  rw [hW] at hw ⊢
  unfold hashsig_roll
  rw [hW]
  by_cases hwl : p.win_len < 8
  · rw [if_pos hwl]
    by_cases hfull : p.win_len + 1 = 8
    · simp only [if_pos hfull, Option.toList_some, List.length_singleton]
      omega
    · simp only [if_neg hfull, Option.toList_none, List.length_nil]
      omega
  · simp only [if_neg hwl, Option.toList_some, List.length_singleton]
    omega

theorem roll_samples_length (sgn : Bool) (l : List UInt8) (p : hashsig_in_progress) (n : Nat)
    (hw : p.win_len = min n HASHSIG_HASH_WINDOW) :
    (hashsig_roll_samples sgn p l).length = (n + l.length - 7) - (n - 7) := by
  induction l generalizing p n with
  | nil => simp [hashsig_roll_samples]
  | cons b rest ih =>
    obtain ⟨h1, h2⟩ := roll_win_len sgn p b.toNat n hw
    simp only [hashsig_roll_samples, List.length_append, List.length_cons]
    rw [ih _ (n + 1) h1, h2]
    omega

/-! ## The SmartWhitespace filter -/

theorem char_eq_lf (sgn : Bool) (b : UInt8) : char_of_uchar sgn b.toNat = 10 ↔ b = 10 := by
  have hb : b.toNat < 2 ^ 8 := UInt8.toNat_lt b
  constructor
  · intro h
    apply UInt8.ext
    show b.toNat = 10
    simp only [char_of_uchar, Bool.and_eq_true, decide_eq_true_eq] at h
    split_ifs at h <;> omega
  · intro h
    rw [h]
    cases sgn <;> rfl

/-- The decision of `hashsig_include_char` under SmartWhitespace alone. -/
theorem include_char_smart (sgn : Bool) (b : UInt8) (s : Bool) :
    ((hashsig_include_char (char_of_uchar sgn b.toNat) GIT_HASHSIG_SMART_WHITESPACE s).1 = false ↔
      b.toNat = 13 ∨ (is_ws b = true ∧ s = true)) ∧
    ((hashsig_include_char (char_of_uchar sgn b.toNat) GIT_HASHSIG_SMART_WHITESPACE s).1 = false →
      (hashsig_include_char (char_of_uchar sgn b.toNat) GIT_HASHSIG_SMART_WHITESPACE s).2 = s) ∧
    ((hashsig_include_char (char_of_uchar sgn b.toNat) GIT_HASHSIG_SMART_WHITESPACE s).1 = true →
      ((hashsig_include_char (char_of_uchar sgn b.toNat) GIT_HASHSIG_SMART_WHITESPACE s).2 = true
        ↔ b = 10)) := by
  have h1 : ¬ (GIT_HASHSIG_SMART_WHITESPACE &&& GIT_HASHSIG_IGNORE_WHITESPACE ≠ 0) := by decide
  have h2 : GIT_HASHSIG_SMART_WHITESPACE &&& GIT_HASHSIG_SMART_WHITESPACE ≠ 0 := by decide
  unfold hashsig_include_char
  rw [if_neg (fun h => h1 h.1), if_pos h2]
  simp only [isspace_char, char_eq_cr]
  by_cases hrej : b.toNat = 13 ∨ (s = true ∧ is_ws b = true)
  · rw [if_pos hrej]
    refine ⟨⟨fun _ => ?_, fun _ => rfl⟩, fun _ => rfl, fun h => (by cases h)⟩
    rcases hrej with h | h
    · exact Or.inl h
    · exact Or.inr ⟨h.2, h.1⟩
  · rw [if_neg hrej]
    refine ⟨⟨fun h => (by cases h), fun h => ?_⟩, fun h => (by cases h), fun _ => ?_⟩
    · exfalso
      apply hrej
      rcases h with h | h
      · exact Or.inl h
      · exact Or.inr ⟨h.2, h.1⟩
    · simp only [decide_eq_true_eq]
      exact char_eq_lf sgn b

theorem accepted_append (sgn : Bool) (o : Nat) (s : Bool) (pre post : List UInt8) :
    hashsig_accepted sgn o s (pre ++ post) =
      ((hashsig_accepted sgn o s pre).1 ++
          (hashsig_accepted sgn o (hashsig_accepted sgn o s pre).2 post).1,
        (hashsig_accepted sgn o (hashsig_accepted sgn o s pre).2 post).2) := by
  induction pre generalizing s with
  | nil => rfl
  | cons b rest ih =>
    rw [List.cons_append]
    simp only [hashsig_accepted, ih]
    split_ifs <;> rfl

theorem smart_flag_inv (sgn : Bool) (data : List UInt8) (s : Bool) (prev : List UInt8)
    (h : s = true ↔ at_line_start prev) :
    (hashsig_accepted sgn GIT_HASHSIG_SMART_WHITESPACE s data).2 = true ↔
      at_line_start (prev ++ (hashsig_accepted sgn GIT_HASHSIG_SMART_WHITESPACE s data).1) := by
  induction data generalizing s prev with
  | nil => simpa [hashsig_accepted] using h
  | cons b rest ih =>
    obtain ⟨-, hrej, hacc⟩ := include_char_smart sgn b s
    simp only [hashsig_accepted]
    by_cases hinc : (hashsig_include_char (char_of_uchar sgn b.toNat)
        GIT_HASHSIG_SMART_WHITESPACE s).1 = false
    · rw [if_pos hinc, hrej hinc]
      exact ih s prev h
    · rw [if_neg hinc]
      have hinc2 : (hashsig_include_char (char_of_uchar sgn b.toNat)
          GIT_HASHSIG_SMART_WHITESPACE s).1 = true := by simpa using hinc
      have hnext : (hashsig_include_char (char_of_uchar sgn b.toNat)
          GIT_HASHSIG_SMART_WHITESPACE s).2 = true ↔ at_line_start (prev ++ [b]) := by
        rw [hacc hinc2]
        unfold at_line_start
        rw [List.getLast?_concat]
        constructor
        · intro hb; right; rw [hb]
        · rintro (hb | hb)
          · simp at hb
          · injection hb
      have := ih _ (prev ++ [b]) hnext
      rw [List.append_assoc, List.singleton_append] at this
      exact this

theorem smart_head_not_ws (sgn : Bool) (data : List UInt8) (x : UInt8)
    (hx : (hashsig_accepted sgn GIT_HASHSIG_SMART_WHITESPACE true data).1.head? = some x) :
    is_ws x = false := by
  induction data with
  | nil => simp [hashsig_accepted] at hx
  | cons b rest ih =>
    obtain ⟨hiff, hrej, -⟩ := include_char_smart sgn b true
    simp only [hashsig_accepted] at hx
    by_cases hinc : (hashsig_include_char (char_of_uchar sgn b.toNat)
        GIT_HASHSIG_SMART_WHITESPACE true).1 = false
    · rw [if_pos hinc, hrej hinc] at hx
      exact ih hx
    · rw [if_neg hinc] at hx
      have hbx : b = x := by simpa using hx
      rw [← hbx]
      cases hws : is_ws b
      · rfl
      · exact absurd (hiff.mpr (Or.inr ⟨hws, rfl⟩)) hinc

theorem smart_no_cr (sgn : Bool) (data : List UInt8) (s : Bool) (x : UInt8)
    (hx : x ∈ (hashsig_accepted sgn GIT_HASHSIG_SMART_WHITESPACE s data).1) :
    x.toNat ≠ 13 := by
  induction data generalizing s with
  | nil => simp [hashsig_accepted] at hx
  | cons b rest ih =>
    obtain ⟨hiff, -, -⟩ := include_char_smart sgn b s
    simp only [hashsig_accepted] at hx
    by_cases hinc : (hashsig_include_char (char_of_uchar sgn b.toNat)
        GIT_HASHSIG_SMART_WHITESPACE s).1 = false
    · rw [if_pos hinc] at hx
      exact ih _ hx
    · rw [if_neg hinc] at hx
      rcases List.mem_cons.mp hx with hxb | hxr
      · rw [hxb]
        exact fun h13 => hinc (hiff.mpr (Or.inl h13))
      · exact ih _ hxr

theorem smart_chain (sgn : Bool) (data : List UInt8) (s : Bool) :
    List.Chain' no_ws_after_lf (hashsig_accepted sgn GIT_HASHSIG_SMART_WHITESPACE s data).1 := by
  induction data generalizing s with
  | nil => simp [hashsig_accepted]
  | cons b rest ih =>
    obtain ⟨-, -, hacc⟩ := include_char_smart sgn b s
    simp only [hashsig_accepted]
    by_cases hinc : (hashsig_include_char (char_of_uchar sgn b.toNat)
        GIT_HASHSIG_SMART_WHITESPACE s).1 = false
    · rw [if_pos hinc]
      exact ih _
    · rw [if_neg hinc]
      have hinc2 : (hashsig_include_char (char_of_uchar sgn b.toNat)
          GIT_HASHSIG_SMART_WHITESPACE s).1 = true := by simpa using hinc
      rw [List.chain'_cons']
      refine ⟨?_, ih _⟩
      intro y hy hb
      have hflag := (hacc hinc2).mpr hb
      rw [hflag] at hy
      exact smart_head_not_ws sgn rest y (by simpa using hy)

/-! ## The importer forwards to the blob store -/

theorem importer_blobs_eq {Repo World Oid : Type}
    (frombuffer : Repo → World → List UInt8 → Nat → Int × Oid × World) (repo : Repo)
    (w : World) (bufs : List (List UInt8)) :
    importer_blobs frombuffer (git_importer_create repo).2 w bufs =
      frombuffer_blobs frombuffer repo w bufs := by
  induction bufs generalizing w with
  | nil => rfl
  | cons buf rest ih =>
    simp only [importer_blobs, frombuffer_blobs]
    have h : git_importer_blob frombuffer (git_importer_create repo).2 w buf buf.length =
        frombuffer repo w buf buf.length := rfl
    rw [h, ih]

/-! ## The merge of two sorted arrays counts their common values -/

theorem take_drop_cons (l : List Nat) (n i : Nat) (hn : n ≤ l.length) (hi : i < n) :
    (l.take n).drop i = l.getD i 0 :: (l.take n).drop (i + 1) := by
  have hlen : i < (l.take n).length := by rw [List.length_take]; omega
  rw [List.drop_eq_getElem_cons hlen, ← getD_take l n i hi, List.getD_eq_getElem _ _ hlen]

theorem compare_loop_inter (a b : hashsig_heap)
    (hla : a.size ≤ a.values.length) (hlb : b.size ≤ b.values.length)
    (hsa : (a.values.take a.size).Pairwise (cmp_le a.cmp))
    (hsb : (b.values.take b.size).Pairwise (cmp_le a.cmp))
    (fuel i j m : Nat) (hf : (a.size - i) + (b.size - j) ≤ fuel) :
    hashsig_heap_compare_loop fuel a b i j m =
      m + Multiset.card ((((a.values.take a.size).drop i : List Nat) : Multiset Nat) ∩
        (((b.values.take b.size).drop j : List Nat) : Multiset Nat)) := by
  induction fuel generalizing i j m with
  | zero =>
    have h1 : (a.values.take a.size).drop i = [] :=
      List.drop_of_length_le (by rw [List.length_take]; omega)
    simp only [hashsig_heap_compare_loop, h1, Multiset.coe_nil, Multiset.zero_inter,
      Multiset.card_zero, Nat.add_zero]
  | succ f ih =>
    simp only [hashsig_heap_compare_loop]
    by_cases hij : i < a.size ∧ j < b.size
    · rw [if_pos hij]
      have hA := take_drop_cons a.values a.size i hla hij.1
      have hB := take_drop_cons b.values b.size j hlb hij.2
      have hsA : ((a.values.take a.size).drop i).Pairwise (cmp_le a.cmp) :=
        List.Pairwise.sublist (List.drop_sublist _ _) hsa
      have hsB : ((b.values.take b.size).drop j).Pairwise (cmp_le a.cmp) :=
        List.Pairwise.sublist (List.drop_sublist _ _) hsb
      by_cases hlt : a.cmp.call (a.values.getD i 0) (b.values.getD j 0) < 0
      · rw [if_pos hlt, ih (i + 1) j m (by omega)]
        have hnot : a.values.getD i 0 ∉
            (((b.values.take b.size).drop j : List Nat) : Multiset Nat) := by
          rw [Multiset.mem_coe]
          intro hmem
          rw [hB] at hmem hsB
          rcases List.mem_cons.mp hmem with he | hr
          · rw [(cmp_call_eq_zero_iff a.cmp _ _).mpr he] at hlt
            omega
          · have h1 : a.cmp.call (b.values.getD j 0) (a.values.getD i 0) ≤ 0 :=
              List.rel_of_pairwise_cons hsB hr
            have h2 := (cmp_call_nonneg_iff a.cmp (a.values.getD i 0) (b.values.getD j 0)).mpr h1
            omega
        conv_rhs => rw [hA, ← Multiset.cons_coe, Multiset.cons_inter_of_neg _ hnot]
      · rw [if_neg hlt]
        by_cases hgt : 0 < a.cmp.call (a.values.getD i 0) (b.values.getD j 0)
        · rw [if_pos hgt, ih i (j + 1) m (by omega)]
          have hnot : b.values.getD j 0 ∉
              (((a.values.take a.size).drop i : List Nat) : Multiset Nat) := by
            rw [Multiset.mem_coe]
            intro hmem
            rw [hA] at hmem hsA
            rcases List.mem_cons.mp hmem with he | hr
            · rw [(cmp_call_eq_zero_iff a.cmp _ _).mpr he.symm] at hgt
              omega
            · have h1 : a.cmp.call (a.values.getD i 0) (b.values.getD j 0) ≤ 0 :=
                List.rel_of_pairwise_cons hsA hr
              omega
          conv_rhs =>
            rw [hB, ← Multiset.cons_coe, Multiset.inter_comm,
              Multiset.cons_inter_of_neg _ hnot, Multiset.inter_comm]
        · rw [if_neg hgt, ih (i + 1) (j + 1) (m + 1) (by omega)]
          have heq : a.values.getD i 0 = b.values.getD j 0 :=
            (cmp_call_eq_zero_iff a.cmp _ _).mp (by omega)
          conv_rhs =>
            rw [hA, hB, heq, ← Multiset.cons_coe, ← Multiset.cons_coe,
              Multiset.cons_inter_of_pos _ (Multiset.mem_cons_self _ _),
              Multiset.erase_cons_head, Multiset.card_cons]
          omega
    · rw [if_neg hij]
      by_cases hi : i < a.size
      · have h1 : (b.values.take b.size).drop j = [] :=
          List.drop_of_length_le (by rw [List.length_take]; omega)
        simp only [h1, Multiset.coe_nil, Multiset.inter_zero, Multiset.card_zero, Nat.add_zero]
      · have h1 : (a.values.take a.size).drop i = [] :=
          List.drop_of_length_le (by rw [List.length_take]; omega)
        simp only [h1, Multiset.coe_nil, Multiset.zero_inter, Multiset.card_zero, Nat.add_zero]

theorem heap_of_live (c : hashsig_cmp) (l : List Nat) :
    (heap_of c l).values.take (heap_of c l).size = l ∧
    (heap_of c l).size ≤ (heap_of c l).values.length := by
  simp [heap_of]

/-! ## The mixer is invertible -/

theorem shiftRight_xor (a b n : Nat) : (a ^^^ b) >>> n = (a >>> n) ^^^ (b >>> n) := by
  apply Nat.eq_of_testBit_eq
  intro i
  simp only [Nat.testBit_shiftRight, Nat.testBit_xor]

theorem shiftRight_zero_of_lt (x : Nat) (hx : x < 2 ^ 32) (n : Nat) (hn : 32 ≤ n) :
    x >>> n = 0 := by
  rw [Nat.shiftRight_eq_div_pow]
  apply Nat.div_eq_of_lt
  calc x < 2 ^ 32 := hx
    _ ≤ 2 ^ n := Nat.pow_le_pow_right (by omega) hn

theorem shiftRight_lt (x : Nat) (hx : x < 2 ^ 32) (n : Nat) : x >>> n < 2 ^ 32 := by
  rw [Nat.shiftRight_eq_div_pow]
  exact Nat.lt_of_le_of_lt (Nat.div_le_self _ _) hx

theorem xorshift16_lt (x : Nat) (hx : x < 2 ^ 32) : x ^^^ (x >>> 16) < 2 ^ 32 :=
  Nat.xor_lt_two_pow hx (shiftRight_lt x hx 16)

theorem xorshift16_involutive (x : Nat) (hx : x < 2 ^ 32) :
    (x ^^^ (x >>> 16)) ^^^ ((x ^^^ (x >>> 16)) >>> 16) = x := by
  rw [shiftRight_xor, ← Nat.shiftRight_add, shiftRight_zero_of_lt x hx (16 + 16) (by omega),
    Nat.xor_zero, Nat.xor_assoc, Nat.xor_self, Nat.xor_zero]

theorem xorshift13_lt (x : Nat) (hx : x < 2 ^ 32) : x ^^^ (x >>> 13) < 2 ^ 32 :=
  Nat.xor_lt_two_pow hx (shiftRight_lt x hx 13)

theorem xorshift13_inv_lt (x : Nat) (hx : x < 2 ^ 32) :
    x ^^^ (x >>> 13) ^^^ (x >>> 26) < 2 ^ 32 :=
  Nat.xor_lt_two_pow (xorshift13_lt x hx) (shiftRight_lt x hx 26)

theorem xorshift13_left_inv (x : Nat) (hx : x < 2 ^ 32) :
    (x ^^^ (x >>> 13)) ^^^ ((x ^^^ (x >>> 13)) >>> 13) ^^^ ((x ^^^ (x >>> 13)) >>> 26) = x := by
  have h26 : x >>> 13 >>> 13 = x >>> 26 := by rw [← Nat.shiftRight_add]
  have h39 : x >>> 13 >>> 26 = 0 := by
    rw [← Nat.shiftRight_add]; exact shiftRight_zero_of_lt x hx _ (by omega)
  rw [shiftRight_xor, shiftRight_xor, h26, h39, Nat.xor_zero]
  rw [Nat.xor_assoc (x ^^^ x >>> 13), Nat.xor_assoc (x >>> 13), Nat.xor_self, Nat.xor_zero,
    Nat.xor_assoc, Nat.xor_self, Nat.xor_zero]

theorem xorshift13_right_inv (y : Nat) (hy : y < 2 ^ 32) :
    (y ^^^ (y >>> 13) ^^^ (y >>> 26)) ^^^ ((y ^^^ (y >>> 13) ^^^ (y >>> 26)) >>> 13) = y := by
  have h26 : y >>> 13 >>> 13 = y >>> 26 := by rw [← Nat.shiftRight_add]
  have h39 : y >>> 26 >>> 13 = 0 := by
    rw [← Nat.shiftRight_add]; exact shiftRight_zero_of_lt y hy _ (by omega)
  rw [shiftRight_xor, shiftRight_xor, h26, h39, Nat.xor_zero]
  rw [Nat.xor_assoc (y ^^^ y >>> 13), Nat.xor_comm (y >>> 26), Nat.xor_assoc (y >>> 13),
    Nat.xor_self, Nat.xor_zero, Nat.xor_assoc, Nat.xor_self, Nat.xor_zero]

theorem u32_lt (n : Nat) : u32 n < 2 ^ 32 := Nat.mod_lt _ (by norm_num)

theorem u32_of_lt (n : Nat) (h : n < 2 ^ 32) : u32 n = n := Nat.mod_eq_of_lt h

theorem mul_inv_u32 (x c d : Nat) (hx : x < 2 ^ 32) (hcd : (c * d) % 2 ^ 32 = 1) :
    u32 (u32 (x * c) * d) = x := by
  unfold u32
  rw [Nat.mod_mul_mod, Nat.mul_assoc, Nat.mul_mod, hcd, Nat.mul_one, Nat.mod_mod,
    Nat.mod_eq_of_lt hx]

theorem fmix32_lt (x : Nat) : fmix32 (u32 x) < 2 ^ 32 := by
  unfold fmix32
  exact xorshift16_lt _ (u32_lt _)

theorem fmix32_inv_lt (y : Nat) : fmix32_inv (u32 y) < 2 ^ 32 := by
  unfold fmix32_inv
  exact xorshift16_lt _ (u32_lt _)

theorem fmix32_left_inv (x : Nat) (hx : x < 2 ^ 32) : fmix32_inv (fmix32 x) = x := by
  unfold fmix32_inv fmix32
  simp only
  rw [xorshift16_involutive _ (u32_lt _),
    mul_inv_u32 _ 0xc2b2ae35 0x7ed1b41d (xorshift13_lt _ (u32_lt _)) (by norm_num),
    xorshift13_left_inv _ (u32_lt _),
    mul_inv_u32 _ 0x85ebca6b 0xa5cb9243 (xorshift16_lt _ hx) (by norm_num),
    xorshift16_involutive _ hx]

theorem fmix32_right_inv (y : Nat) (hy : y < 2 ^ 32) : fmix32 (fmix32_inv y) = y := by
  unfold fmix32_inv fmix32
  simp only
  rw [xorshift16_involutive _ (u32_lt _),
    mul_inv_u32 _ 0xa5cb9243 0x85ebca6b (xorshift13_inv_lt _ (u32_lt _)) (by norm_num),
    xorshift13_right_inv _ (u32_lt _),
    mul_inv_u32 _ 0x7ed1b41d 0xc2b2ae35 (xorshift16_lt _ hy) (by norm_num),
    xorshift16_involutive _ hy]

/-! ## The recorded accesses -/

theorem heap_up_loop_traced_fst (fuel : Nat) (h : hashsig_heap) (el : Nat) :
    (hashsig_heap_up_loop_traced fuel h el).1 = hashsig_heap_up_loop fuel h el := by
  induction fuel generalizing h el with
  | zero => rfl
  | succ f ih =>
    simp only [hashsig_heap_up_loop_traced, hashsig_heap_up_loop]
    by_cases h0 : 0 < el
    · by_cases hc : 0 < h.cmp.call (h.values.getD (HEAP_PARENT_OF el) 0) (h.values.getD el 0)
      · rw [if_pos h0, if_pos hc, if_pos ⟨h0, hc⟩]
        exact ih _ _
      · rw [if_pos h0, if_neg hc, if_neg (fun hh => hc hh.2)]
    · rw [if_neg h0, if_neg (fun hh => h0 hh.1)]

theorem heap_down_loop_traced_fst (fuel : Nat) (h : hashsig_heap) (el : Nat) :
    (hashsig_heap_down_loop_traced fuel h el).1 = hashsig_heap_down_loop fuel h el := by
  induction fuel generalizing h el with
  | zero => rfl
  | succ f ih =>
    simp only [hashsig_heap_down_loop_traced, hashsig_heap_down_loop]
    by_cases hbot : el < h.size / 2
    · rw [if_pos hbot, if_pos hbot]
      by_cases hbrk : h.cmp.call (h.values.getD el 0) (h.values.getD (HEAP_LCHILD_OF el) 0) < 0 ∧
          h.cmp.call (h.values.getD el 0) (h.values.getD (HEAP_RCHILD_OF el) 0) < 0
      · rw [if_pos hbrk, if_pos hbrk]
      · rw [if_neg hbrk, if_neg hbrk]
        exact ih _ _
    · rw [if_neg hbot, if_neg hbot]

/-- More fuel than `el + 1` records the same accesses: the trace of
`hashsig_heap_up_traced` is complete. -/
theorem heap_up_loop_traced_fuel (fuel k : Nat) (h : hashsig_heap) (el : Nat) (hf : el < fuel) :
    hashsig_heap_up_loop_traced (fuel + k) h el = hashsig_heap_up_loop_traced fuel h el := by
  induction fuel generalizing h el with
  | zero => omega
  | succ f ih =>
    rw [Nat.add_right_comm]
    simp only [hashsig_heap_up_loop_traced, parent_eq]
    by_cases h0 : 0 < el
    · by_cases hc : 0 < h.cmp.call (h.values.getD ((el - 1) / 2) 0) (h.values.getD el 0)
      · rw [if_pos h0, if_pos hc, if_pos h0, if_pos hc, ih _ _ (by omega)]
      · rw [if_pos h0, if_neg hc, if_pos h0, if_neg hc]
    · rw [if_neg h0, if_neg h0]

/-- More fuel than `size + 1` records the same accesses: the trace of
`hashsig_heap_down_traced` is complete. -/
theorem heap_down_loop_traced_fuel (fuel k : Nat) (h : hashsig_heap) (el : Nat)
    (hf : h.size ≤ el + fuel) :
    hashsig_heap_down_loop_traced (fuel + k) h el = hashsig_heap_down_loop_traced fuel h el := by
  induction fuel generalizing h el with
  | zero =>
    cases k with
    | zero => rfl
    | succ k =>
      simp only [Nat.zero_add, hashsig_heap_down_loop_traced]
      rw [if_neg (by omega)]
  | succ f ih =>
    rw [Nat.add_right_comm]
    simp only [hashsig_heap_down_loop_traced, HEAP_LCHILD_OF, HEAP_RCHILD_OF]
    by_cases hbot : el < h.size / 2
    · rw [if_pos hbot, if_pos hbot]
      by_cases hbrk : h.cmp.call (h.values.getD el 0) (h.values.getD (el * 2 + 1) 0) < 0 ∧
          h.cmp.call (h.values.getD el 0) (h.values.getD (el * 2 + 2) 0) < 0
      · rw [if_pos hbrk, if_pos hbrk]
      · rw [if_neg hbrk, if_neg hbrk]
        by_cases hlr : h.cmp.call (h.values.getD (el * 2 + 1) 0)
            (h.values.getD (el * 2 + 2) 0) < 0
        · simp only [if_pos hlr]
          rw [ih _ _ (by show h.size ≤ el * 2 + 1 + f; omega)]
        · simp only [if_neg hlr]
          rw [ih _ _ (by show h.size ≤ el * 2 + 2 + f; omega)]
    · rw [if_neg hbot, if_neg hbot]

/-- Sift-up from a live slot touches live slots only. -/
theorem heap_up_loop_traced_bounds (fuel : Nat) (h : hashsig_heap) (el : Nat)
    (hel : el < h.size) :
    ∀ a ∈ (hashsig_heap_up_loop_traced fuel h el).2, a.idx < a.live ∧ a.live = h.size := by
  induction fuel generalizing h el with
  | zero => exact fun a ha => absurd ha (List.not_mem_nil a)
  | succ f ih =>
    simp only [hashsig_heap_up_loop_traced, parent_eq]
    by_cases h0 : 0 < el
    · by_cases hc : 0 < h.cmp.call (h.values.getD ((el - 1) / 2) 0) (h.values.getD el 0)
      · rw [if_pos h0, if_pos hc]
        have key := ih
          { h with
            values := (h.values.set el (h.values.getD ((el - 1) / 2) 0)).set ((el - 1) / 2)
              (h.values.getD el 0) }
          ((el - 1) / 2) (by show (el - 1) / 2 < h.size; omega)
        simp only [List.forall_mem_append, List.forall_mem_cons]
        refine ⟨⟨⟨⟨by omega, trivial⟩, ⟨hel, trivial⟩, ?_⟩, ⟨hel, trivial⟩, ⟨by omega, trivial⟩,
          ⟨hel, trivial⟩, ⟨by omega, trivial⟩, ?_⟩, key⟩
        · exact fun a ha => absurd ha (List.not_mem_nil a)
        · exact fun a ha => absurd ha (List.not_mem_nil a)
      · rw [if_pos h0, if_neg hc]
        simp only [List.forall_mem_cons]
        exact ⟨⟨by omega, trivial⟩, ⟨hel, trivial⟩, fun a ha => absurd ha (List.not_mem_nil a)⟩
    · rw [if_neg h0]
      exact fun a ha => absurd ha (List.not_mem_nil a)

/-- Sift-down after a pop of a full heap (`size = 126`, the array has 127
slots): every index is at most 126, and every access to slot 126 loads or
stores `s`, the value being sifted, of which slot 126 holds a copy. -/
theorem heap_down_loop_traced_bounds (fuel : Nat) (h : hashsig_heap) (el s : Nat)
    (hsz : h.size = 126) (hlen : h.values.length = 127) (hel : el ≤ 126)
    (hstale : h.values.getD 126 0 = s) (hv : h.values.getD el 0 = s) :
    ∀ a ∈ (hashsig_heap_down_loop_traced fuel h el).2,
      a.idx ≤ 126 ∧ a.live = 126 ∧ (126 ≤ a.idx → a.val = s) := by
  induction fuel generalizing h el with
  | zero => exact fun a ha => absurd ha (List.not_mem_nil a)
  | succ f ih =>
    simp only [hashsig_heap_down_loop_traced, HEAP_LCHILD_OF, HEAP_RCHILD_OF]
    by_cases hbot : el < h.size / 2
    · rw [if_pos hbot]
      have hel63 : el < 63 := by omega
      have hrel : 126 ≤ el * 2 + 2 → h.values.getD (el * 2 + 2) 0 = s := by
        intro hh
        have : el * 2 + 2 = 126 := by omega
        rw [this]; exact hstale
      have hloads : ∀ a ∈ ([⟨false, el, h.values.getD el 0, h.size⟩,
          ⟨false, el * 2 + 1, h.values.getD (el * 2 + 1) 0, h.size⟩,
          ⟨false, el * 2 + 2, h.values.getD (el * 2 + 2) 0, h.size⟩] : List heap_access),
          a.idx ≤ 126 ∧ a.live = 126 ∧ (126 ≤ a.idx → a.val = s) := by
        simp only [List.forall_mem_cons]
        exact ⟨⟨by omega, hsz, fun hh => by omega⟩, ⟨by omega, hsz, fun hh => by omega⟩,
          ⟨by omega, hsz, hrel⟩, fun a ha => absurd ha (List.not_mem_nil a)⟩
      by_cases hbrk : h.cmp.call (h.values.getD el 0) (h.values.getD (el * 2 + 1) 0) < 0 ∧
          h.cmp.call (h.values.getD el 0) (h.values.getD (el * 2 + 2) 0) < 0
      · rw [if_pos hbrk]
        exact hloads
      · rw [if_neg hbrk]
        obtain ⟨sw, hsw, hcases⟩ : ∃ sw, sw = (if h.cmp.call (h.values.getD (el * 2 + 1) 0)
            (h.values.getD (el * 2 + 2) 0) < 0 then el * 2 + 1 else el * 2 + 2) ∧
            (sw = el * 2 + 1 ∨ sw = el * 2 + 2) := by
          refine ⟨_, rfl, ?_⟩
          split_ifs
          · exact Or.inl rfl
          · exact Or.inr rfl
        rw [← hsw]
        have hswv : 126 ≤ sw → h.values.getD sw 0 = s := by
          intro hh
          have : sw = 126 := by omega
          rw [this]; exact hstale
        have key := ih
          { h with
            values := (h.values.set el (h.values.getD sw 0)).set sw (h.values.getD el 0) }
          sw hsz (by simp only [List.length_set]; exact hlen) (by omega)
          (by
            show ((h.values.set el (h.values.getD sw 0)).set sw (h.values.getD el 0)).getD 126 0 = s
            rw [getD_set]
            split_ifs
            · exact hv
            · rw [getD_set, if_neg (by omega)]; exact hstale)
          (by
            show ((h.values.set el (h.values.getD sw 0)).set sw (h.values.getD el 0)).getD sw 0 = s
            rw [getD_set, if_pos ⟨rfl, by rw [List.length_set]; omega⟩]; exact hv)
        simp only [List.forall_mem_append]
        refine ⟨⟨hloads, ?_⟩, key⟩
        simp only [List.forall_mem_cons]
        exact ⟨⟨by omega, hsz, hswv⟩, ⟨by omega, hsz, fun hh => by omega⟩,
          ⟨by omega, hsz, fun _ => hv⟩, fun a ha => absurd ha (List.not_mem_nil a)⟩
    · rw [if_neg hbot]
      exact fun a ha => absurd ha (List.not_mem_nil a)

theorem heap_up_traced_push (g : hashsig_heap) (val : Nat) :
    (hashsig_heap_up_traced { g with values := g.values.set g.size val, size := g.size + 1 }
      (g.size + 1 - 1)).1 = heap_push g val ∧
    ∀ a ∈ (hashsig_heap_up_traced { g with values := g.values.set g.size val, size := g.size + 1 }
      (g.size + 1 - 1)).2, a.idx < a.live ∧ a.live = g.size + 1 :=
  ⟨heap_up_loop_traced_fst _ _ _,
    heap_up_loop_traced_bounds _
      { g with values := g.values.set g.size val, size := g.size + 1 } (g.size + 1 - 1)
      (by show g.size + 1 - 1 < g.size + 1; omega)⟩

theorem heap_down_traced_pop (h : hashsig_heap) (hsize : h.size = 127)
    (hlen : h.values.length = 127) :
    (hashsig_heap_down_traced
      { h with size := h.size - 1, values := h.values.set 0 (h.values.getD (h.size - 1) 0) }
      0).1 = heap_pop h ∧
    ∀ a ∈ (hashsig_heap_down_traced
      { h with size := h.size - 1, values := h.values.set 0 (h.values.getD (h.size - 1) 0) }
      0).2, a.idx ≤ 126 ∧ a.live = 126 ∧ (126 ≤ a.idx → a.val = h.values.getD 126 0) := by
  refine ⟨heap_down_loop_traced_fst _ _ _, ?_⟩
  refine heap_down_loop_traced_bounds _
    { h with size := h.size - 1, values := h.values.set 0 (h.values.getD (h.size - 1) 0) }
    0 (h.values.getD 126 0) (by show h.size - 1 = 126; omega)
    (by simp only [List.length_set]; exact hlen) (by omega) ?_ ?_
  · show (h.values.set 0 (h.values.getD (h.size - 1) 0)).getD 126 0 = h.values.getD 126 0
    rw [getD_set, if_neg (by omega)]
  · show (h.values.set 0 (h.values.getD (h.size - 1) 0)).getD 0 0 = h.values.getD 126 0
    rw [getD_set, if_pos ⟨rfl, by omega⟩, hsize]

theorem heap_pop_fields (h : hashsig_heap) :
    (heap_pop h).size = h.size - 1 ∧ (heap_pop h).asize = h.asize ∧
    (heap_pop h).values.length = h.values.length := by
  have hf := heap_down_loop_fields (h.size - 1 + 1)
    { h with size := h.size - 1, values := h.values.set 0 (h.values.getD (h.size - 1) 0) } 0
  refine ⟨hf.1, hf.2.1, ?_⟩
  have := hf.2.2.2
  simp only [List.length_set] at this
  exact this

theorem heap_push_fields (g : hashsig_heap) (val : Nat) :
    (heap_push g val).size = g.size + 1 ∧ (heap_push g val).asize = g.asize ∧
    (heap_push g val).values.length = g.values.length := by
  have hf := heap_up_loop_fields (g.size + 1 - 1 + 1)
    { g with values := g.values.set g.size val, size := g.size + 1 } (g.size + 1 - 1)
  refine ⟨hf.1, hf.2.1, ?_⟩
  have := hf.2.2.2
  simp only [List.length_set] at this
  exact this

theorem heap_insert_traced_push (h : hashsig_heap) (val : Nat) (hlt : h.size < h.asize) :
    hashsig_heap_insert_traced h val =
      ((hashsig_heap_up_traced { h with values := h.values.set h.size val, size := h.size + 1 }
          (h.size + 1 - 1)).1,
        [⟨true, h.size, val, h.size⟩] ++
          (hashsig_heap_up_traced { h with values := h.values.set h.size val, size := h.size + 1 }
            (h.size + 1 - 1)).2) := by
  have hne : ¬ h.size = h.asize := by omega
  simp only [hashsig_heap_insert_traced, if_neg hne, if_pos hlt, List.nil_append]

theorem heap_insert_traced_keep (h : hashsig_heap) (val : Nat) (hfull : h.size = h.asize)
    (hc : ¬ 0 < h.cmp.call val (h.values.getD 0 0)) :
    hashsig_heap_insert_traced h val = (h, [⟨false, 0, h.values.getD 0 0, h.size⟩]) := by
  have hlt : ¬ h.size < h.asize := by omega
  simp only [hashsig_heap_insert_traced, if_pos hfull, if_neg hc, if_neg hlt]

theorem heap_insert_traced_replace (h : hashsig_heap) (val : Nat) (hfull : h.size = h.asize)
    (hpos : 0 < h.size) (hc : 0 < h.cmp.call val (h.values.getD 0 0)) :
    hashsig_heap_insert_traced h val =
      ((hashsig_heap_up_traced
          { heap_pop h with
            values := (heap_pop h).values.set (heap_pop h).size val,
            size := (heap_pop h).size + 1 }
          ((heap_pop h).size + 1 - 1)).1,
        [⟨false, 0, h.values.getD 0 0, h.size⟩] ++
          [⟨false, h.size - 1, h.values.getD (h.size - 1) 0, h.size - 1⟩,
           ⟨true, 0, h.values.getD (h.size - 1) 0, h.size - 1⟩] ++
          (hashsig_heap_down_traced
            { h with
              size := h.size - 1,
              values := h.values.set 0 (h.values.getD (h.size - 1) 0) } 0).2 ++
          [⟨true, (heap_pop h).size, val, (heap_pop h).size⟩] ++
          (hashsig_heap_up_traced
            { heap_pop h with
              values := (heap_pop h).values.set (heap_pop h).size val,
              size := (heap_pop h).size + 1 }
            ((heap_pop h).size + 1 - 1)).2) := by
  have hd : (hashsig_heap_down_traced
      { h with size := h.size - 1, values := h.values.set 0 (h.values.getD (h.size - 1) 0) }
      0).1 = heap_pop h := heap_down_loop_traced_fst _ _ _
  have hlt : (heap_pop h).size < (heap_pop h).asize := by
    rw [(heap_pop_fields h).1, (heap_pop_fields h).2.1]; omega
  simp only [hashsig_heap_insert_traced, if_pos hfull, if_pos hc, hd, if_pos hlt]

theorem heap_insert_traced_spec (h : hashsig_heap) (val : Nat)
    (hsize : h.size ≤ 127) (hasize : h.asize = 127) (hlen : h.values.length = 127) :
    (hashsig_heap_insert_traced h val).1 = hashsig_heap_insert h val ∧
    (∀ a ∈ (hashsig_heap_insert_traced h val).2,
      a.idx ≤ 126 ∧ a.idx ≤ a.live ∧ a.live ≤ 127 ∧
      (a.wr = false → a.live ≤ a.idx →
        h.size = 127 ∧ a.live = 126 ∧ a.idx = 126 ∧ a.val = h.values.getD 126 0)) ∧
    (hashsig_heap_insert h val).size ≤ 127 ∧ (hashsig_heap_insert h val).asize = 127 ∧
    (hashsig_heap_insert h val).values.length = 127 := by
  rw [heap_insert_eq]
  by_cases hfull : h.size = h.asize
  · by_cases hc : 0 < h.cmp.call val (h.values.getD 0 0)
    · have hs : h.size = 127 := by omega
      obtain ⟨p1, p2, p3⟩ := heap_pop_fields h
      obtain ⟨q1, q2, q3⟩ := heap_push_fields (heap_pop h) val
      obtain ⟨-, d2⟩ := heap_down_traced_pop h hs hlen
      obtain ⟨u1, u2⟩ := heap_up_traced_push (heap_pop h) val
      have hlt : (heap_pop h).size < (heap_pop h).asize := by rw [p1, p2]; omega
      rw [heap_insert_traced_replace h val hfull (by omega) hc]
      simp only [if_pos (And.intro hfull hc), if_pos hlt]
      refine ⟨u1, ?_, by rw [q1, p1]; omega, by rw [q2, p2]; exact hasize,
        by rw [q3, p3]; exact hlen⟩
      simp only [List.forall_mem_append, List.forall_mem_cons]
      refine ⟨⟨⟨⟨⟨?_, ?_⟩, ?_, ?_, ?_⟩, ?_⟩, ?_, ?_⟩, ?_⟩
      · exact ⟨by omega, by omega, hsize, fun _ hh => by omega⟩
      · exact fun a ha => absurd ha (List.not_mem_nil a)
      · refine ⟨by omega, by omega, by omega, fun _ _ => ⟨hs, by omega, by omega, ?_⟩⟩
        rw [hs]
      · exact ⟨by omega, by omega, by omega, fun hh => by cases hh⟩
      · exact fun a ha => absurd ha (List.not_mem_nil a)
      · intro a ha
        obtain ⟨e1, e2, e3⟩ := d2 a ha
        exact ⟨e1, by omega, by omega, fun _ hh => ⟨hs, e2, by omega, e3 (by omega)⟩⟩
      · exact ⟨by rw [p1]; omega, by omega, by rw [p1]; omega, fun hh => by cases hh⟩
      · exact fun a ha => absurd ha (List.not_mem_nil a)
      · intro a ha
        obtain ⟨e1, e2⟩ := u2 a ha
        rw [p1] at e2
        exact ⟨by omega, by omega, by omega, fun _ hh => by omega⟩
    · have hlt : ¬ h.size < h.asize := by omega
      rw [heap_insert_traced_keep h val hfull hc]
      simp only [if_neg (fun hh : h.size = h.asize ∧ 0 < h.cmp.call val (h.values.getD 0 0) =>
        hc hh.2), if_neg hlt]
      refine ⟨trivial, ?_, hsize, hasize, hlen⟩
      simp only [List.forall_mem_cons]
      exact ⟨⟨by omega, by omega, hsize, fun _ hh => by omega⟩,
        fun a ha => absurd ha (List.not_mem_nil a)⟩
  · have hlt : h.size < h.asize := by omega
    obtain ⟨q1, q2, q3⟩ := heap_push_fields h val
    obtain ⟨u1, u2⟩ := heap_up_traced_push h val
    rw [heap_insert_traced_push h val hlt]
    simp only [if_neg (fun hh : h.size = h.asize ∧ 0 < h.cmp.call val (h.values.getD 0 0) =>
      hfull hh.1), if_pos hlt]
    refine ⟨u1, ?_, by rw [q1]; omega, by rw [q2]; exact hasize, by rw [q3]; exact hlen⟩
    simp only [List.forall_mem_append, List.forall_mem_cons]
    refine ⟨⟨?_, ?_⟩, ?_⟩
    · exact ⟨by omega, by omega, by omega, fun hh => by cases hh⟩
    · exact fun a ha => absurd ha (List.not_mem_nil a)
    · intro a ha
      obtain ⟨e1, e2⟩ := u2 a ha
      exact ⟨by omega, by omega, by omega, fun _ hh => by omega⟩

/-! ## The rolling state where the window bytes are not sign-extended -/

theorem not_mask_eq : HASHSIG_HASH_NOT_MASK = 2 ^ 20 * (2 ^ 44 - 1) := by decide

theorem u64_of_lt (n : Nat) (h : n < 2 ^ 64) : u64 n = n := Nat.mod_eq_of_lt h

theorem u64_of_int_natCast (n : Nat) (h : n < 2 ^ 64) : u64_of_int (n : Int) = n := by
  unfold u64_of_int
  have : ((n : Int) % 2 ^ 64) = ((n % 2 ^ 64 : Nat) : Int) := by
    rw [Int.natCast_mod]; rfl
  rw [this, Int.toNat_natCast, Nat.mod_eq_of_lt h]

/-- The high part of a state survives `& ~HASHSIG_HASH_MASK`, the low part does
not. -/
theorem and_not_mask (H P : Nat) (hP : P < 2 ^ 20) (hH : H < 2 ^ 44) :
    (2 ^ 20 * H + P) &&& HASHSIG_HASH_NOT_MASK = 2 ^ 20 * H := by
  rw [not_mask_eq]
  apply Nat.eq_of_testBit_eq
  intro j
  rw [Nat.testBit_and, Nat.testBit_mul_pow_two_add H hP, Nat.testBit_mul_pow_two,
    Nat.testBit_mul_pow_two, Nat.testBit_two_pow_sub_one]
  by_cases hj : j < 20
  · have : ¬ j ≥ 20 := by omega
    simp [hj, this]
  · have hge : j ≥ 20 := by omega
    simp only [if_neg hj, hge, decide_True, Bool.true_and]
    by_cases h44 : j - 20 < 44
    · simp [h44]
    · have : H.testBit (j - 20) = false := by
        apply Nat.testBit_lt_two_pow
        calc H < 2 ^ 44 := hH
          _ ≤ 2 ^ (j - 20) := Nat.pow_le_pow_right (by omega) (by omega)
      simp [this]

theorem and_mask (x : Nat) : x &&& HASHSIG_HASH_MASK = x % 2 ^ 20 :=
  Nat.and_pow_two_sub_one_eq_mod x 20

/-- The masked multiply-and-add of the rolling hash, on a state whose low part
does not overflow 20 bits. -/
theorem mask_step (H P c : Nat) (hP : 3 * P + c < 2 ^ 20) (hH : H < 2 ^ 44) :
    ((2 ^ 20 * H + P) &&& HASHSIG_HASH_NOT_MASK) |||
      (u64 ((2 ^ 20 * H + P) * HASHSIG_HASH_SHIFT + c) &&& HASHSIG_HASH_MASK) =
      2 ^ 20 * H + (3 * P + c) := by
  rw [and_not_mask H P (by omega) hH, and_mask]
  have h1 : u64 ((2 ^ 20 * H + P) * HASHSIG_HASH_SHIFT + c) % 2 ^ 20 = 3 * P + c := by
    unfold u64
    rw [Nat.mod_mod_of_dvd _ (by norm_num : 2 ^ 20 ∣ 2 ^ 64)]
    have : (2 ^ 20 * H + P) * HASHSIG_HASH_SHIFT + c = (3 * P + c) + 2 ^ 20 * (3 * H) := by
      show (2 ^ 20 * H + P) * 3 + c = _
      ring
    rw [this, Nat.add_mul_mod_self_left, Nat.mod_eq_of_lt hP]
  rw [h1, ← Nat.mul_add_lt_is_or hP]

theorem window_poly_snoc (w : List UInt8) (b : UInt8) :
    window_poly (w ++ [b]) = 3 * window_poly w + b.toNat := by
  unfold window_poly
  rw [List.foldl_append]
  rfl

theorem window_sum_snoc (w : List UInt8) (b : UInt8) :
    window_sum (w ++ [b]) = window_sum w + b.toNat := by
  unfold window_sum
  rw [List.foldl_append]
  rfl

theorem poly_foldl_init (t : List UInt8) (i : Nat) :
    t.foldl (fun p b => 3 * p + b.toNat) i =
      3 ^ t.length * i + t.foldl (fun p b => 3 * p + b.toNat) 0 := by
  induction t generalizing i with
  | nil => simp
  | cons a t ih =>
    rw [List.foldl_cons, ih, List.foldl_cons, ih (3 * 0 + a.toNat), List.length_cons]
    ring

theorem sum_foldl_init (t : List UInt8) (i : Nat) :
    t.foldl (fun s b => s + b.toNat) i = i + t.foldl (fun s b => s + b.toNat) 0 := by
  induction t generalizing i with
  | nil => simp
  | cons a t ih =>
    rw [List.foldl_cons, ih, List.foldl_cons, ih (0 + a.toNat)]
    omega

theorem window_poly_cons (a : UInt8) (t : List UInt8) :
    window_poly (a :: t) = 3 ^ t.length * a.toNat + window_poly t := by
  unfold window_poly
  rw [List.foldl_cons, poly_foldl_init]
  simp

theorem window_sum_cons (a : UInt8) (t : List UInt8) :
    window_sum (a :: t) = a.toNat + window_sum t := by
  unfold window_sum
  rw [List.foldl_cons, sum_foldl_init]
  simp

theorem window_poly_bound (w : List UInt8) : window_poly w + 128 ≤ 128 * 3 ^ w.length := by
  induction w using List.reverseRecOn with
  | nil => decide
  | append_singleton w b ih =>
    have hb := UInt8.toNat_lt b
    rw [window_poly_snoc, List.length_append, List.length_singleton, pow_succ]
    omega

theorem window_sum_bound (w : List UInt8) : window_sum w ≤ 255 * w.length := by
  induction w using List.reverseRecOn with
  | nil => decide
  | append_singleton w b ih =>
    have hb := UInt8.toNat_lt b
    rw [window_sum_snoc, List.length_append, List.length_singleton]
    omega

theorem getD_set_int (l : List Int) (i j : Nat) (x : Int) :
    (l.set i x).getD j 0 = if i = j ∧ i < l.length then x else l.getD j 0 := by
  rw [List.getD_eq_getElem?_getD, List.getD_eq_getElem?_getD, List.getElem?_set]
  by_cases hij : i = j
  · by_cases hi : i < l.length
    · rw [if_pos hij, if_pos hi, if_pos ⟨hij, hi⟩]; rfl
    · rw [if_pos hij, if_neg hi, if_neg (fun h => hi h.2)]
      rw [← hij, List.getElem?_eq_none (by omega)]
  · rw [if_neg hij, if_neg (fun h => hij h.1)]

/-- One accepted byte while the window fills: the structure holds the window
with the byte appended. -/
theorem roll_warm (cs : Bool) (p : hashsig_in_progress) (w : List UInt8) (b : UInt8)
    (hinv : window_inv p w) (hk : w.length < 8)
    (hb : char_of_uchar cs b.toNat = (b.toNat : Int)) :
    window_inv (hashsig_roll cs p b.toNat).1 (w ++ [b]) := by
  obtain ⟨i1, i2, i3, i4, i5, i6, i7, i8⟩ := hinv
  have hlt : p.win_len < HASHSIG_HASH_WINDOW := by rw [i1]; exact hk
  have hbl := UInt8.toNat_lt b
  have hpow : 3 ^ w.length ≤ 3 ^ 7 := Nat.pow_le_pow_right (by omega) (by omega)
  have hpb := window_poly_bound w
  have hsb := window_sum_bound w
  have hpos := i5 hk
  simp only [hashsig_roll, if_pos hlt]
  refine ⟨?_, ?_, ?_, i4, fun _ => hpos, ?_, ?_, ?_⟩
  · show p.win_len + 1 = (w ++ [b]).length
    rw [List.length_append, List.length_singleton, i1]
  · rw [List.length_append, List.length_singleton]; omega
  · show (p.window.set p.win_len _).length = 8
    rw [List.length_set]; exact i3
  · intro _
    show (if p.win_len = 0 then 1
      else u64 (p.shift_n * HASHSIG_HASH_SHIFT) &&& HASHSIG_HASH_MASK) =
        3 ^ ((w ++ [b]).length - 1)
    rw [List.length_append, List.length_singleton, Nat.add_sub_cancel]
    by_cases h0 : w.length = 0
    · rw [if_pos (by rw [i1]; exact h0), h0]; rfl
    · rw [if_neg (by rw [i1]; exact h0), i6 (by omega), and_mask]
      have h3 : 3 ^ (w.length - 1) * HASHSIG_HASH_SHIFT = 3 ^ w.length := by
        show 3 ^ (w.length - 1) * 3 = _
        rw [← pow_succ]; congr 1; omega
      rw [h3, u64_of_lt _ (by omega), Nat.mod_eq_of_lt (by omega)]
  · show u64 (((p.state &&& HASHSIG_HASH_NOT_MASK) |||
        (u64 (p.state * HASHSIG_HASH_SHIFT + b.toNat) &&& HASHSIG_HASH_MASK)) +
        (b.toNat <<< 20)) = window_state (w ++ [b])
    rw [i7]
    unfold window_state
    rw [mask_step _ _ _ (by omega) (by omega), window_sum_snoc, window_poly_snoc,
      Nat.shiftLeft_eq, u64_of_lt _ (by omega)]
    ring
  · intro j x hj
    show (p.window.set p.win_len (char_of_uchar cs b.toNat)).getD ((p.win_pos + j) % 8) 0 = _
    rw [hpos, Nat.zero_add, getD_set_int, hb, i1]
    rw [List.getElem?_append] at hj
    by_cases hjk : j < w.length
    · rw [if_pos hjk] at hj
      have h8 := i8 j x hj
      rw [hpos, Nat.zero_add] at h8
      rw [Nat.mod_eq_of_lt (by omega)] at h8 ⊢
      rw [if_neg (by omega), h8]
    · rw [if_neg hjk] at hj
      have hjk2 : j = w.length := by
        by_contra hne
        have h1 : j - w.length = (j - w.length - 1) + 1 := by omega
        rw [h1] at hj
        simp at hj
      subst hjk2
      simp at hj
      rw [Nat.mod_eq_of_lt (by omega), if_pos ⟨rfl, by omega⟩, hj]

theorem u64_wrap (x : Nat) (h : x < 2 ^ 64) : u64 (2 ^ 64 + x) = x := by
  unfold u64
  rw [Nat.add_mod_left, Nat.mod_eq_of_lt h]

/-- One accepted byte on a full window whose oldest byte is read back without
sign extension: the structure holds the window shifted by one byte. -/
theorem roll_steady (cs : Bool) (p : hashsig_in_progress) (a : UInt8) (t : List UInt8)
    (b : UInt8) (hinv : window_inv p (a :: t)) (hk : t.length = 7)
    (hb : char_of_uchar cs b.toNat = (b.toNat : Int)) :
    window_inv (hashsig_roll cs p b.toNat).1 (t ++ [b]) := by
  obtain ⟨i1, i2, i3, i4, i5, i6, i7, i8⟩ := hinv
  have hge : ¬ p.win_len < HASHSIG_HASH_WINDOW := by
    rw [i1, List.length_cons, hk]; decide
  have hbl := UInt8.toNat_lt b
  have hal := UInt8.toNat_lt a
  have hpb := window_poly_bound t
  have hsb := window_sum_bound t
  rw [hk] at hpb hsb
  have hsh : p.shift_n = 2187 := by
    rw [i6 (by simp), List.length_cons, hk]; rfl
  have hw0 : p.window.getD p.win_pos 0 = (a.toNat : Int) := by
    have h0 := i8 0 a (by simp)
    rw [Nat.add_zero, Nat.mod_eq_of_lt i4] at h0
    exact h0
  have hst : p.state = 2 ^ 20 * (a.toNat + window_sum t) + (2187 * a.toNat + window_poly t) := by
    rw [i7]
    unfold window_state
    rw [window_sum_cons, window_poly_cons, hk]
    rfl
  have hrmv : u64 (u64 (p.shift_n + (1 <<< 20)) * u64_of_int (p.window.getD p.win_pos 0)) =
      (2187 + 2 ^ 20) * a.toNat := by
    rw [hw0, u64_of_int_natCast _ (by omega), hsh]
    have h1 : (2187 + (1 <<< 20) : Nat) = 2187 + 2 ^ 20 := by decide
    rw [h1, u64_of_lt (2187 + 2 ^ 20) (by omega), u64_of_lt _ (by omega)]
  have hs1 : u64 (p.state + 2 ^ 64 - (2187 + 2 ^ 20) * a.toNat) =
      2 ^ 20 * window_sum t + window_poly t := by
    have h1 : p.state + 2 ^ 64 - (2187 + 2 ^ 20) * a.toNat =
        2 ^ 64 + (2 ^ 20 * window_sum t + window_poly t) := by
      rw [hst]; omega
    rw [h1, u64_wrap _ (by omega)]
  have hms := mask_step (window_sum t) (window_poly t) 0 (by omega) (by omega)
  rw [Nat.add_zero, Nat.add_zero] at hms
  simp only [hashsig_roll, if_neg hge]
  refine ⟨?_, ?_, ?_, ?_, ?_, ?_, ?_, ?_⟩
  · show p.win_len = (t ++ [b]).length
    rw [i1, List.length_append, List.length_singleton, List.length_cons]
  · rw [List.length_append, List.length_singleton, hk]
  · show (p.window.set p.win_pos _).length = 8
    rw [List.length_set]; exact i3
  · show (p.win_pos + 1) % HASHSIG_HASH_WINDOW < 8
    exact Nat.mod_lt _ (by decide)
  · intro h
    rw [List.length_append, List.length_singleton, hk] at h
    omega
  · intro _
    show p.shift_n = 3 ^ ((t ++ [b]).length - 1)
    rw [hsh, List.length_append, List.length_singleton, hk]; rfl
  · show u64 (u64 (((u64 (p.state + 2 ^ 64 -
        u64 (u64 (p.shift_n + (1 <<< 20)) * u64_of_int (p.window.getD p.win_pos 0))) &&&
          HASHSIG_HASH_NOT_MASK) |||
        (u64 (u64 (p.state + 2 ^ 64 -
          u64 (u64 (p.shift_n + (1 <<< 20)) * u64_of_int (p.window.getD p.win_pos 0))) *
            HASHSIG_HASH_SHIFT) &&& HASHSIG_HASH_MASK)) + b.toNat) + (b.toNat <<< 20)) =
      window_state (t ++ [b])
    rw [hrmv, hs1, hms]
    unfold window_state
    rw [window_sum_snoc, window_poly_snoc, Nat.shiftLeft_eq,
      u64_of_lt (2 ^ 20 * window_sum t + 3 * window_poly t + b.toNat) (by omega),
      u64_of_lt _ (by omega)]
    ring
  · intro j x hj
    show (p.window.set p.win_pos (char_of_uchar cs b.toNat)).getD
      (((p.win_pos + 1) % HASHSIG_HASH_WINDOW + j) % 8) 0 = _
    have hj8 : j < 8 := by
      have := (List.getElem?_eq_some.mp hj).1
      rw [List.length_append, List.length_singleton, hk] at this
      exact this
    rw [getD_set_int, hb, i3]
    rw [List.getElem?_append] at hj
    by_cases hjk : j < t.length
    · rw [if_pos hjk] at hj
      have h8 := i8 (j + 1) x (by rw [List.getElem?_cons_succ]; exact hj)
      have e1 : ((p.win_pos + 1) % HASHSIG_HASH_WINDOW + j) % 8 = (p.win_pos + (j + 1)) % 8 := by
        show ((p.win_pos + 1) % 8 + j) % 8 = _
        omega
      rw [e1, if_neg (by omega), h8]
    · rw [if_neg hjk] at hj
      have hj7 : j = 7 := by omega
      subst hj7
      rw [hk] at hj
      simp at hj
      have e1 : ((p.win_pos + 1) % HASHSIG_HASH_WINDOW + 7) % 8 = p.win_pos := by
        show ((p.win_pos + 1) % 8 + 7) % 8 = _
        omega
      rw [e1, if_pos ⟨rfl, by omega⟩, hj]

theorem window_inv_init : window_inv HASHSIG_IN_PROGRESS_INIT [] := by
  refine ⟨rfl, by decide, rfl, by decide, fun _ => rfl, fun h => absurd h (by decide), rfl, ?_⟩
  intro j x hj
  simp at hj

theorem roll_all_snoc (cs : Bool) (p : hashsig_in_progress) (l : List UInt8) (b : UInt8) :
    hashsig_roll_all cs p (l ++ [b]) = (hashsig_roll cs (hashsig_roll_all cs p l) b.toNat).1 := by
  unfold hashsig_roll_all
  rw [List.foldl_append]
  rfl

/-- After any accepted bytes that are read back from the window without sign
extension, the structure holds exactly the last eight of them. -/
theorem window_inv_roll_all (cs : Bool) (l : List UInt8)
    (hl : ∀ b ∈ l, char_of_uchar cs b.toNat = (b.toNat : Int)) :
    window_inv (hashsig_roll_all cs HASHSIG_IN_PROGRESS_INIT l) (l.drop (l.length - 8)) := by
  induction l using List.reverseRecOn with
  | nil => exact window_inv_init
  | append_singleton l b ih =>
    have ih1 := ih (fun x hx => hl x (List.mem_append_left _ hx))
    have hb := hl b (List.mem_append_right _ (List.mem_singleton_self b))
    rw [roll_all_snoc]
    by_cases hn : l.length < 8
    · have e1 : l.length - 8 = 0 := by omega
      have e2 : (l ++ [b]).length - 8 = 0 := by
        rw [List.length_append, List.length_singleton]; omega
      rw [e1, List.drop_zero] at ih1
      rw [e2, List.drop_zero]
      exact roll_warm cs _ l b ih1 hn hb
    · have hlen : (l.drop (l.length - 8)).length = 8 := by rw [List.length_drop]; omega
      obtain ⟨a, t, hat⟩ : ∃ a t, l.drop (l.length - 8) = a :: t := by
        cases h : l.drop (l.length - 8) with
        | nil => rw [h] at hlen; simp at hlen
        | cons a t => exact ⟨a, t, rfl⟩
      have ht : t.length = 7 := by
        rw [hat, List.length_cons] at hlen; omega
      have htd : l.drop (l.length - 8 + 1) = t := by
        rw [← List.tail_drop, hat]; rfl
      have e2 : (l ++ [b]).drop ((l ++ [b]).length - 8) = t ++ [b] := by
        rw [List.length_append, List.length_singleton,
          List.drop_append_of_le_length (by omega)]
        have e3 : l.length + 1 - 8 = l.length - 8 + 1 := by omega
        rw [e3, htd]
      rw [hat] at ih1
      rw [e2]
      exact roll_steady cs _ a t b ih1 ht hb

/-- The state after the accepted bytes `l` is the state of their last eight
bytes, where no byte is sign-extended on its way out of the window. -/
theorem roll_state_eq_window (cs : Bool) (l : List UInt8)
    (hl : ∀ b ∈ l, char_of_uchar cs b.toNat = (b.toNat : Int)) :
    (hashsig_roll_all cs HASHSIG_IN_PROGRESS_INIT l).state =
      window_state (l.drop (l.length - 8)) :=
  (window_inv_roll_all cs l hl).2.2.2.2.2.2.1

theorem fold_advance_snd (cs : Bool) (l : List UInt8)
    (sp : git_hashsig × hashsig_in_progress) :
    (l.foldl (hashsig_advance cs) sp).2 = hashsig_roll_all cs sp.2 l := by
  induction l generalizing sp with
  | nil => rfl
  | cons b rest ih =>
    rw [List.foldl_cons, ih]
    rfl

theorem add_hashes_state (cs : Bool) (o : Nat) (data : List UInt8) :
    (hashsig_add_hashes cs (hashsig_alloc o) data HASHSIG_IN_PROGRESS_INIT).2.state =
      (hashsig_roll_all cs HASHSIG_IN_PROGRESS_INIT (hashsig_accepted cs o true data).1).state := by
  rw [add_hashes_by_accepted]
  show ((hashsig_accepted cs o true data).1.foldl (hashsig_advance cs)
    (hashsig_alloc GIT_HASHSIG_NORMAL, HASHSIG_IN_PROGRESS_INIT)).2.state = _
  rw [fold_advance_snd]

/-- Under Normal options the warm-up loop on at most 8 - `wl` bytes consumes
them all and leaves what advancing the hasher over them leaves. -/
theorem initial_window_loop_normal (cs : Bool) (data : List UInt8) (st sh wl : Nat)
    (prog : hashsig_in_progress) (h : wl + data.length ≤ 8) :
    ({ (hashsig_initial_window_loop cs GIT_HASHSIG_NORMAL data st sh wl prog).prog with
        state := (hashsig_initial_window_loop cs GIT_HASHSIG_NORMAL data st sh wl prog).state,
        win_len := (hashsig_initial_window_loop cs GIT_HASHSIG_NORMAL data st sh wl prog).win_len,
        shift_n := (hashsig_initial_window_loop cs GIT_HASHSIG_NORMAL data st sh wl prog).shift_n }
      : hashsig_in_progress) =
      hashsig_roll_all cs { prog with state := st, win_len := wl, shift_n := sh } data := by
  induction data generalizing st sh wl prog with
  | nil => rfl
  | cons b rest ih =>
    have hlt : wl < HASHSIG_HASH_WINDOW := by
      rw [List.length_cons] at h
      show wl < 8
      omega
    simp only [hashsig_initial_window_loop, if_pos hlt, include_char_normal]
    rw [if_neg (by decide)]
    rw [ih _ _ _ _ (by rw [List.length_cons] at h; omega)]
    have hstep : hashsig_roll_all cs { prog with state := st, win_len := wl, shift_n := sh }
        (b :: rest) =
        hashsig_roll_all cs
          (hashsig_roll cs { prog with state := st, win_len := wl, shift_n := sh } b.toNat).1
          rest := rfl
    rw [hstep]
    simp only [hashsig_roll, if_pos hlt]

theorem initial_window_state (cs : Bool) (w : List UInt8) (h : w.length ≤ 8) :
    (hashsig_initial_window cs (hashsig_alloc GIT_HASHSIG_NORMAL) w
      HASHSIG_IN_PROGRESS_INIT).2.1.state =
      (hashsig_roll_all cs HASHSIG_IN_PROGRESS_INIT w).state := by
  have key := initial_window_loop_normal cs w HASHSIG_HASH_START 1 0 HASHSIG_IN_PROGRESS_INIT
    (by omega)
  have hinit : ({ HASHSIG_IN_PROGRESS_INIT with
      state := HASHSIG_HASH_START, win_len := 0, shift_n := 1 } : hashsig_in_progress) =
      HASHSIG_IN_PROGRESS_INIT := rfl
  rw [hinit] at key
  rw [← key]
  rfl

theorem char_of_uchar_unsigned (n : Nat) : char_of_uchar false n = (n : Int) := rfl

theorem char_of_uchar_ascii (cs : Bool) (n : Nat) (h : n < 128) :
    char_of_uchar cs n = (n : Int) := by
  unfold char_of_uchar
  rw [if_neg]
  intro hc
  rw [Bool.and_eq_true, decide_eq_true_eq] at hc
  omega

/-- Where no accepted byte is sign-extended on its way out of the window (plain
`char` is unsigned, or every accepted byte is below 0x80), the state after the
input is the state that the warm-up loop computes from a fresh structure fed
the last eight accepted bytes. -/
theorem state_eq_warmup_of_last_eight (cs : Bool) (o : Nat) (data : List UInt8)
    (hl : ∀ b ∈ (hashsig_accepted cs o true data).1,
      char_of_uchar cs b.toNat = (b.toNat : Int))
    (h8 : 8 ≤ (hashsig_accepted cs o true data).1.length) :
    (hashsig_add_hashes cs (hashsig_alloc o) data HASHSIG_IN_PROGRESS_INIT).2.state =
      (hashsig_initial_window cs (hashsig_alloc GIT_HASHSIG_NORMAL)
        ((hashsig_accepted cs o true data).1.drop
          ((hashsig_accepted cs o true data).1.length - 8))
        HASHSIG_IN_PROGRESS_INIT).2.1.state := by
  rw [add_hashes_state, initial_window_state _ _ (by rw [List.length_drop]; omega),
    roll_state_eq_window cs _ hl,
    roll_state_eq_window cs _ (fun b hb => hl b (List.mem_of_mem_drop hb)),
    List.length_drop]
  have e : (hashsig_accepted cs o true data).1.length -
      ((hashsig_accepted cs o true data).1.length - 8) - 8 = 0 := by omega
  rw [e, List.drop_zero]

/-! ## The sample counter stays within `int` -/

/-- With at most `INT_MAX + 7` accepted bytes, `considered` is at most
`INT_MAX` after every prefix of the input: no increment of the `int` counter
overflows, at any point of the run. -/
theorem considered_le_int_max (cs : Bool) (opts : Nat) (data : List UInt8)
    (hb : (hashsig_accepted cs opts true data).1.length ≤ INT_MAX + 7)
    (pre suf : List UInt8) (h : data = pre ++ suf) :
    (hashsig_add_hashes cs (hashsig_alloc opts) pre HASHSIG_IN_PROGRESS_INIT).1.considered ≤
      INT_MAX := by
  have hc := (fed_inv_add_hashes cs opts pre).2.1
  rw [h, accepted_append] at hb
  simp only [List.length_append] at hb
  rw [hc]
  omega

/-! ## The claims -/

/-- C1 (chunking independence): feeding the chunks of any partition of an input
one `hashsig_add_hashes` call per chunk, starting from a fresh signature and a
fresh in-progress state, leaves the same pair of structures (every field of the
in-progress state, both heaps, the considered count) as one call on the whole
input, and finalize then gives the same result. -/
theorem C1_chunking_independence (char_signed : Bool) (opts : Nat)
    (chunks : List (List UInt8)) :
    hashsig_add_chunks char_signed (hashsig_alloc opts) chunks HASHSIG_IN_PROGRESS_INIT =
      hashsig_add_hashes char_signed (hashsig_alloc opts) chunks.flatten
        HASHSIG_IN_PROGRESS_INIT ∧
    hashsig_finalize_hashes
        (hashsig_add_chunks char_signed (hashsig_alloc opts) chunks HASHSIG_IN_PROGRESS_INIT).1 =
      git_hashsig_create char_signed chunks.flatten opts := by
  refine ⟨add_chunks_eq _ _ _ _, ?_⟩
  rw [add_chunks_eq]
  rfl

/-- C3 (finalize fails exactly on insufficient data): after feeding, under any
options, any input with at most `INT_MAX + 7` accepted bytes (so that the `int`
counter `considered` never overflows: it is at most `INT_MAX` after every
prefix of the input), `hashsig_finalize_hashes` returns `GIT_EBUFS` if and only
if `considered < 127` and succeeds otherwise; on success both heaps have size
127 and `127 <= considered <= INT_MAX`.  "Hello, world." under Normal options
fails and 200 bytes of "abcdefgh" cycled succeed. -/
theorem C3_finalize_fails_iff_insufficient (char_signed : Bool) (opts : Nat)
    (data : List UInt8)
    (hb : (hashsig_accepted char_signed opts true data).1.length ≤ INT_MAX + 7) :
    (∀ pre suf, data = pre ++ suf →
      (hashsig_add_hashes char_signed (hashsig_alloc opts) pre
        HASHSIG_IN_PROGRESS_INIT).1.considered ≤ INT_MAX) ∧
    (git_hashsig_create char_signed data opts = .error .GIT_EBUFS ↔
      (hashsig_add_hashes char_signed (hashsig_alloc opts) data
        HASHSIG_IN_PROGRESS_INIT).1.considered < 127) ∧
    ((∃ s, git_hashsig_create char_signed data opts = .ok s) ↔
      127 ≤ (hashsig_add_hashes char_signed (hashsig_alloc opts) data
        HASHSIG_IN_PROGRESS_INIT).1.considered) ∧
    (match git_hashsig_create char_signed data opts with
      | .ok s => s.mins.size = 127 ∧ s.maxs.size = 127 ∧ 127 ≤ s.considered ∧
          s.considered ≤ INT_MAX
      | .error e => e = .GIT_EBUFS) ∧
    git_hashsig_create char_signed hello_world GIT_HASHSIG_NORMAL = .error .GIT_EBUFS ∧
    (∃ s, git_hashsig_create char_signed abcdefgh_200 GIT_HASHSIG_NORMAL = .ok s) := by
  obtain ⟨hw, hc, ha1, ha2, hs1, hs2, hc1, hc2⟩ := fed_inv_add_hashes char_signed opts data
  have hA : HASHSIG_HEAP_SIZE = 127 := rfl
  rw [hA] at hs1
  have hiff := (finalize_ok_iff (hashsig_add_hashes char_signed (hashsig_alloc opts) data
        HASHSIG_IN_PROGRESS_INIT).1)
  rw [hA] at hiff
  have hsize : (hashsig_add_hashes char_signed (hashsig_alloc opts) data
        HASHSIG_IN_PROGRESS_INIT).1.mins.size < 127 ↔
      (hashsig_add_hashes char_signed (hashsig_alloc opts) data
        HASHSIG_IN_PROGRESS_INIT).1.considered < 127 := by
    rw [hs1, hc]; omega
  have hfin := considered_le_int_max char_signed opts data hb data [] (List.append_nil data).symm
  refine ⟨considered_le_int_max char_signed opts data hb, hiff.1.trans hsize, ⟨?_, ?_⟩, ?_, ?_,
    ?_⟩
  · rintro ⟨s, hs⟩
    have := (create_ok char_signed opts data s hs).2.2.2.2
    have hcons : s.considered = (hashsig_add_hashes char_signed (hashsig_alloc opts) data
        HASHSIG_IN_PROGRESS_INIT).1.considered := by
      unfold git_hashsig_create at hs
      by_cases hlt : (hashsig_add_hashes char_signed (hashsig_alloc opts) data
          HASHSIG_IN_PROGRESS_INIT).1.mins.size < 127
      · rw [hiff.1.mpr hlt] at hs; cases hs
      · rw [hiff.2 hlt] at hs; injection hs with hs; rw [← hs]
    rw [← hcons]; exact this
  · intro h
    exact ⟨_, hiff.2 (fun hlt => absurd (hsize.mp hlt) (by omega))⟩
  · cases hres : git_hashsig_create char_signed data opts with
    | ok s =>
      obtain ⟨h1, h2, -, -, h5⟩ := create_ok char_signed opts data s hres
      have hcons : s.considered = (hashsig_add_hashes char_signed (hashsig_alloc opts) data
          HASHSIG_IN_PROGRESS_INIT).1.considered := by
        unfold git_hashsig_create at hres
        by_cases hlt : (hashsig_add_hashes char_signed (hashsig_alloc opts) data
            HASHSIG_IN_PROGRESS_INIT).1.mins.size < 127
        · rw [hiff.1.mpr hlt] at hres; cases hres
        · rw [hiff.2 hlt] at hres; injection hres with hres; rw [← hres]
      exact ⟨h1, h2, h5, by rw [hcons]; exact hfin⟩
    | error e => cases e; rfl
  · apply (create_result char_signed GIT_HASHSIG_NORMAL hello_world).1
    rw [accepted_normal]
    decide
  · exact create_normal_ok char_signed abcdefgh_200 (by rw [abcdefgh_200_length]; omega)

theorem C3_finalize_fails_iff_insufficient_witness :
    (hashsig_accepted true GIT_HASHSIG_NORMAL true abcdefgh_200).1.length ≤ INT_MAX + 7 ∧
    ((∃ s, git_hashsig_create true abcdefgh_200 GIT_HASHSIG_NORMAL = .ok s) ↔
      127 ≤ (hashsig_add_hashes true (hashsig_alloc GIT_HASHSIG_NORMAL) abcdefgh_200
        HASHSIG_IN_PROGRESS_INIT).1.considered) :=
  ⟨by rw [accepted_normal, abcdefgh_200_length]; decide,
    (C3_finalize_fails_iff_insufficient true GIT_HASHSIG_NORMAL abcdefgh_200
      (by rw [accepted_normal, abcdefgh_200_length]; decide)).2.2.1⟩

/-- C4 (commutativity): for signatures `a` and `b` whose min-side heaps share a
comparator and whose max-side heaps share a comparator,
`git_hashsig_compare a b = git_hashsig_compare b a`. -/
theorem C4_compare_comm (a b : git_hashsig) (hmins : a.mins.cmp = b.mins.cmp)
    (hmaxs : a.maxs.cmp = b.maxs.cmp) :
    git_hashsig_compare a b = git_hashsig_compare b a := by
  unfold git_hashsig_compare
  rw [heap_compare_comm a.mins b.mins hmins, heap_compare_comm a.maxs b.maxs hmaxs]

theorem C4_compare_comm_witness :
    (heap_of .cmp_min [9, 5, 2]).cmp = (heap_of .cmp_min [7, 5, 3, 2]).cmp ∧
    (heap_of .cmp_max [2, 5, 9]).cmp = (heap_of .cmp_max [2, 3, 5, 7]).cmp ∧
    git_hashsig_compare
        { mins := heap_of .cmp_min [9, 5, 2], maxs := heap_of .cmp_max [2, 5, 9],
          opt := 0, considered := 3 }
        { mins := heap_of .cmp_min [7, 5, 3, 2], maxs := heap_of .cmp_max [2, 3, 5, 7],
          opt := 0, considered := 4 } =
      git_hashsig_compare
        { mins := heap_of .cmp_min [7, 5, 3, 2], maxs := heap_of .cmp_max [2, 3, 5, 7],
          opt := 0, considered := 4 }
        { mins := heap_of .cmp_min [9, 5, 2], maxs := heap_of .cmp_max [2, 5, 9],
          opt := 0, considered := 3 } :=
  ⟨rfl, rfl, C4_compare_comm _ _ rfl rfl⟩

/-- C5 (self-identity): a signature whose two heaps have size 127, as every
signature accepted by finalize has, compares to itself as 100. -/
theorem C5_compare_self (s : git_hashsig) (hmins : s.mins.size = HASHSIG_HEAP_SIZE)
    (hmaxs : s.maxs.size = HASHSIG_HEAP_SIZE) : git_hashsig_compare s s = some 100 := by
  rw [compare_full s s hmins hmaxs hmins hmaxs, heap_matches_self, heap_matches_self,
    hmins, hmaxs]
  rfl

/-- The signature of 200 bytes of "abcdefgh" cycled, built under Normal
options, has heaps of size 127 and compares to itself as 100. -/
theorem C5_compare_self_witness :
    ∃ s, git_hashsig_create true abcdefgh_200 GIT_HASHSIG_NORMAL = .ok s ∧
      s.mins.size = HASHSIG_HEAP_SIZE ∧ s.maxs.size = HASHSIG_HEAP_SIZE ∧
      git_hashsig_compare s s = some 100 := by
  obtain ⟨s, hs⟩ := create_normal_ok true abcdefgh_200 (by rw [abcdefgh_200_length]; omega)
  obtain ⟨h1, h2, -⟩ := create_ok true _ _ s hs
  exact ⟨s, hs, h1, h2, C5_compare_self s h1 h2⟩

/-- C6 (range): for signatures whose four heaps have size 127, the matches
counted on each side are at most `min a.size b.size`, the divisors are
non-zero, and `0 <= git_hashsig_compare a b <= 100`. -/
theorem C6_compare_range (a b : git_hashsig)
    (h1 : a.mins.size = HASHSIG_HEAP_SIZE) (h2 : a.maxs.size = HASHSIG_HEAP_SIZE)
    (h3 : b.mins.size = HASHSIG_HEAP_SIZE) (h4 : b.maxs.size = HASHSIG_HEAP_SIZE) :
    hashsig_heap_matches a.mins b.mins ≤ min a.mins.size b.mins.size ∧
    hashsig_heap_matches a.maxs b.maxs ≤ min a.maxs.size b.maxs.size ∧
    a.mins.size + b.mins.size ≠ 0 ∧ a.maxs.size + b.maxs.size ≠ 0 ∧
    ∃ r, git_hashsig_compare a b = some r ∧ 0 ≤ r ∧ r ≤ 100 := by
  have hA : HASHSIG_HEAP_SIZE = 127 := rfl
  have hm1 := heap_matches_le a.mins b.mins
  have hm2 := heap_matches_le a.maxs b.maxs
  refine ⟨hm1, hm2, by rw [h1, hA]; omega, by rw [h2, hA]; omega, _,
    compare_full a b h1 h2 h3 h4, Int.ofNat_nonneg _, ?_⟩
  rw [h1, h3, hA] at hm1
  rw [h2, h4, hA] at hm2
  have : (100 * (hashsig_heap_matches a.mins b.mins * 2) / 254 +
        100 * (hashsig_heap_matches a.maxs b.maxs * 2) / 254) / 2 ≤ 100 := by omega
  exact_mod_cast this

/-- Two signatures built under Normal options from two 200-byte inputs score
within 0..100. -/
theorem C6_compare_range_witness :
    ∃ a b, git_hashsig_create true abcdefgh_200 GIT_HASHSIG_NORMAL = .ok a ∧
      git_hashsig_create true bytes_0_199 GIT_HASHSIG_NORMAL = .ok b ∧
      a.mins.size = HASHSIG_HEAP_SIZE ∧ a.maxs.size = HASHSIG_HEAP_SIZE ∧
      b.mins.size = HASHSIG_HEAP_SIZE ∧ b.maxs.size = HASHSIG_HEAP_SIZE ∧
      ∃ r, git_hashsig_compare a b = some r ∧ 0 ≤ r ∧ r ≤ 100 := by
  obtain ⟨a, ha⟩ := create_normal_ok true abcdefgh_200 (by rw [abcdefgh_200_length]; omega)
  obtain ⟨b, hb⟩ := create_normal_ok true bytes_0_199 (by rw [bytes_0_199_length]; omega)
  obtain ⟨h1, h2, -⟩ := create_ok true _ _ a ha
  obtain ⟨h3, h4, -⟩ := create_ok true _ _ b hb
  exact ⟨a, b, ha, hb, h1, h2, h3, h4, (C6_compare_range a b h1 h2 h3 h4).2.2.2.2⟩

/-- C7 (IgnoreWhitespace equals stripping): building from `I` with option
IgnoreWhitespace and building from `strip_ws I` with option Normal leave the
same min-side heap, max-side heap, considered count and in-progress state, emit
the same samples, and `git_hashsig_create` has the same outcome: both fail, or
both succeed with the same two arrays and considered count. -/
theorem C7_ignore_whitespace_eq_strip (char_signed : Bool) (I : List UInt8) :
    (hashsig_add_hashes char_signed (hashsig_alloc GIT_HASHSIG_IGNORE_WHITESPACE) I
        HASHSIG_IN_PROGRESS_INIT).1.mins =
      (hashsig_add_hashes char_signed (hashsig_alloc GIT_HASHSIG_NORMAL) (strip_ws I)
        HASHSIG_IN_PROGRESS_INIT).1.mins ∧
    (hashsig_add_hashes char_signed (hashsig_alloc GIT_HASHSIG_IGNORE_WHITESPACE) I
        HASHSIG_IN_PROGRESS_INIT).1.maxs =
      (hashsig_add_hashes char_signed (hashsig_alloc GIT_HASHSIG_NORMAL) (strip_ws I)
        HASHSIG_IN_PROGRESS_INIT).1.maxs ∧
    (hashsig_add_hashes char_signed (hashsig_alloc GIT_HASHSIG_IGNORE_WHITESPACE) I
        HASHSIG_IN_PROGRESS_INIT).1.considered =
      (hashsig_add_hashes char_signed (hashsig_alloc GIT_HASHSIG_NORMAL) (strip_ws I)
        HASHSIG_IN_PROGRESS_INIT).1.considered ∧
    (hashsig_add_hashes char_signed (hashsig_alloc GIT_HASHSIG_IGNORE_WHITESPACE) I
        HASHSIG_IN_PROGRESS_INIT).2 =
      (hashsig_add_hashes char_signed (hashsig_alloc GIT_HASHSIG_NORMAL) (strip_ws I)
        HASHSIG_IN_PROGRESS_INIT).2 ∧
    hashsig_samples char_signed GIT_HASHSIG_IGNORE_WHITESPACE HASHSIG_IN_PROGRESS_INIT I =
      hashsig_samples char_signed GIT_HASHSIG_NORMAL HASHSIG_IN_PROGRESS_INIT (strip_ws I) ∧
    same_outcome (git_hashsig_create char_signed I GIT_HASHSIG_IGNORE_WHITESPACE)
      (git_hashsig_create char_signed (strip_ws I) GIT_HASHSIG_NORMAL) := by
  have hA := add_hashes_by_accepted char_signed GIT_HASHSIG_IGNORE_WHITESPACE I
  have hB := add_hashes_by_accepted char_signed GIT_HASHSIG_NORMAL (strip_ws I)
  rw [accepted_ignore] at hA
  rw [accepted_normal] at hB
  have h1 : (hashsig_add_hashes char_signed (hashsig_alloc GIT_HASHSIG_IGNORE_WHITESPACE) I
        HASHSIG_IN_PROGRESS_INIT).1.mins =
      (hashsig_add_hashes char_signed (hashsig_alloc GIT_HASHSIG_NORMAL) (strip_ws I)
        HASHSIG_IN_PROGRESS_INIT).1.mins := by rw [hA, hB]
  have h2 : (hashsig_add_hashes char_signed (hashsig_alloc GIT_HASHSIG_IGNORE_WHITESPACE) I
        HASHSIG_IN_PROGRESS_INIT).1.maxs =
      (hashsig_add_hashes char_signed (hashsig_alloc GIT_HASHSIG_NORMAL) (strip_ws I)
        HASHSIG_IN_PROGRESS_INIT).1.maxs := by rw [hA, hB]
  have h3 : (hashsig_add_hashes char_signed (hashsig_alloc GIT_HASHSIG_IGNORE_WHITESPACE) I
        HASHSIG_IN_PROGRESS_INIT).1.considered =
      (hashsig_add_hashes char_signed (hashsig_alloc GIT_HASHSIG_NORMAL) (strip_ws I)
        HASHSIG_IN_PROGRESS_INIT).1.considered := by rw [hA, hB]
  refine ⟨h1, h2, h3, by rw [hA, hB], ?_, finalize_same_outcome _ _ h1 h2 h3⟩
  rw [samples_eq_roll_samples, samples_eq_roll_samples, accepted_ignore, accepted_normal]

/-- C8 (SmartWhitespace is blind to CR): if `J` is `I` with CR bytes inserted
anywhere, then under SmartWhitespace feeding `J` emits the same samples as
feeding `I` and leaves the same structures, `git_hashsig_create` returns the
same result, and when it succeeds the two signatures compare as 100. -/
theorem C8_smart_whitespace_blind_to_cr (char_signed : Bool) (I J : List UInt8)
    (hIJ : cr_inserted I J) :
    hashsig_samples char_signed GIT_HASHSIG_SMART_WHITESPACE HASHSIG_IN_PROGRESS_INIT J =
      hashsig_samples char_signed GIT_HASHSIG_SMART_WHITESPACE HASHSIG_IN_PROGRESS_INIT I ∧
    hashsig_add_hashes char_signed (hashsig_alloc GIT_HASHSIG_SMART_WHITESPACE) J
        HASHSIG_IN_PROGRESS_INIT =
      hashsig_add_hashes char_signed (hashsig_alloc GIT_HASHSIG_SMART_WHITESPACE) I
        HASHSIG_IN_PROGRESS_INIT ∧
    git_hashsig_create char_signed J GIT_HASHSIG_SMART_WHITESPACE =
      git_hashsig_create char_signed I GIT_HASHSIG_SMART_WHITESPACE ∧
    (match git_hashsig_create char_signed I GIT_HASHSIG_SMART_WHITESPACE,
        git_hashsig_create char_signed J GIT_HASHSIG_SMART_WHITESPACE with
      | .ok s, .ok t => git_hashsig_compare s t = some 100
      | .error e, .error f => e = f
      | _, _ => False) := by
  have hbit : GIT_HASHSIG_SMART_WHITESPACE &&& GIT_HASHSIG_SMART_WHITESPACE ≠ 0 := by decide
  have hadd : hashsig_add_hashes char_signed (hashsig_alloc GIT_HASHSIG_SMART_WHITESPACE) J
        HASHSIG_IN_PROGRESS_INIT =
      hashsig_add_hashes char_signed (hashsig_alloc GIT_HASHSIG_SMART_WHITESPACE) I
        HASHSIG_IN_PROGRESS_INIT := by
    rw [add_hashes_eq_fold, add_hashes_eq_fold]
    exact fold_feed_cr_inserted char_signed I J hIJ _ hbit
  have hcreate : git_hashsig_create char_signed J GIT_HASHSIG_SMART_WHITESPACE =
      git_hashsig_create char_signed I GIT_HASHSIG_SMART_WHITESPACE := by
    unfold git_hashsig_create
    rw [hadd]
  refine ⟨samples_cr_inserted char_signed _ I J hIJ _ hbit, hadd, hcreate, ?_⟩
  rw [hcreate]
  cases hres : git_hashsig_create char_signed I GIT_HASHSIG_SMART_WHITESPACE with
  | error e => rfl
  | ok s =>
    obtain ⟨h1, h2, -⟩ := create_ok char_signed _ _ s hres
    exact compare_self_full s h1 h2

/-- An input with LF line ends and the same input with CR LF line ends give the
same result under SmartWhitespace. -/
theorem C8_smart_whitespace_blind_to_cr_witness :
    cr_inserted two_lines (lf_to_crlf two_lines) ∧
    hashsig_add_hashes true (hashsig_alloc GIT_HASHSIG_SMART_WHITESPACE) (lf_to_crlf two_lines)
        HASHSIG_IN_PROGRESS_INIT =
      hashsig_add_hashes true (hashsig_alloc GIT_HASHSIG_SMART_WHITESPACE) two_lines
        HASHSIG_IN_PROGRESS_INIT ∧
    git_hashsig_create true (lf_to_crlf two_lines) GIT_HASHSIG_SMART_WHITESPACE =
      git_hashsig_create true two_lines GIT_HASHSIG_SMART_WHITESPACE :=
  ⟨lf_to_crlf_inserted two_lines,
   (C8_smart_whitespace_blind_to_cr true two_lines (lf_to_crlf two_lines)
      (lf_to_crlf_inserted two_lines)).2.1,
   (C8_smart_whitespace_blind_to_cr true two_lines (lf_to_crlf two_lines)
      (lf_to_crlf_inserted two_lines)).2.2.1⟩

/-- C9 (IgnoreWhitespace dominates): with both flags set (option value 3)
`hashsig_include_char` makes the same decision on every byte as with
IgnoreWhitespace alone (option value 1), whatever the two `saw_lf` flags hold;
so both builds accept the same bytes, emit the same samples, leave the same
heaps, considered count and hasher state (only `saw_lf` may differ), and
`git_hashsig_create` has the same outcome. -/
theorem C9_ignore_whitespace_dominates (char_signed : Bool) (I : List UInt8) :
    GIT_HASHSIG_IGNORE_WHITESPACE ||| GIT_HASHSIG_SMART_WHITESPACE = 3 ∧
    GIT_HASHSIG_IGNORE_WHITESPACE = 1 ∧
    (∀ (c : Int) (s1 s2 : Bool),
      (hashsig_include_char c (GIT_HASHSIG_IGNORE_WHITESPACE ||| GIT_HASHSIG_SMART_WHITESPACE)
        s1).1 = (hashsig_include_char c GIT_HASHSIG_IGNORE_WHITESPACE s2).1) ∧
    (∀ s1 s2 : Bool,
      (hashsig_accepted char_signed
        (GIT_HASHSIG_IGNORE_WHITESPACE ||| GIT_HASHSIG_SMART_WHITESPACE) s1 I).1 =
      (hashsig_accepted char_signed GIT_HASHSIG_IGNORE_WHITESPACE s2 I).1) ∧
    hashsig_samples char_signed (GIT_HASHSIG_IGNORE_WHITESPACE ||| GIT_HASHSIG_SMART_WHITESPACE)
        HASHSIG_IN_PROGRESS_INIT I =
      hashsig_samples char_signed GIT_HASHSIG_IGNORE_WHITESPACE HASHSIG_IN_PROGRESS_INIT I ∧
    (hashsig_add_hashes char_signed
        (hashsig_alloc (GIT_HASHSIG_IGNORE_WHITESPACE ||| GIT_HASHSIG_SMART_WHITESPACE)) I
        HASHSIG_IN_PROGRESS_INIT).1.mins =
      (hashsig_add_hashes char_signed (hashsig_alloc GIT_HASHSIG_IGNORE_WHITESPACE) I
        HASHSIG_IN_PROGRESS_INIT).1.mins ∧
    (hashsig_add_hashes char_signed
        (hashsig_alloc (GIT_HASHSIG_IGNORE_WHITESPACE ||| GIT_HASHSIG_SMART_WHITESPACE)) I
        HASHSIG_IN_PROGRESS_INIT).1.maxs =
      (hashsig_add_hashes char_signed (hashsig_alloc GIT_HASHSIG_IGNORE_WHITESPACE) I
        HASHSIG_IN_PROGRESS_INIT).1.maxs ∧
    (hashsig_add_hashes char_signed
        (hashsig_alloc (GIT_HASHSIG_IGNORE_WHITESPACE ||| GIT_HASHSIG_SMART_WHITESPACE)) I
        HASHSIG_IN_PROGRESS_INIT).1.considered =
      (hashsig_add_hashes char_signed (hashsig_alloc GIT_HASHSIG_IGNORE_WHITESPACE) I
        HASHSIG_IN_PROGRESS_INIT).1.considered ∧
    same_but_saw_lf
      (hashsig_add_hashes char_signed
        (hashsig_alloc (GIT_HASHSIG_IGNORE_WHITESPACE ||| GIT_HASHSIG_SMART_WHITESPACE)) I
        HASHSIG_IN_PROGRESS_INIT).2
      (hashsig_add_hashes char_signed (hashsig_alloc GIT_HASHSIG_IGNORE_WHITESPACE) I
        HASHSIG_IN_PROGRESS_INIT).2 ∧
    same_outcome
      (git_hashsig_create char_signed I
        (GIT_HASHSIG_IGNORE_WHITESPACE ||| GIT_HASHSIG_SMART_WHITESPACE))
      (git_hashsig_create char_signed I GIT_HASHSIG_IGNORE_WHITESPACE) := by
  have hacc : ∀ s1 s2 : Bool,
      (hashsig_accepted char_signed
        (GIT_HASHSIG_IGNORE_WHITESPACE ||| GIT_HASHSIG_SMART_WHITESPACE) s1 I).1 =
      (hashsig_accepted char_signed GIT_HASHSIG_IGNORE_WHITESPACE s2 I).1 := by
    intro s1 s2
    rw [accepted_both, accepted_ignore]
  have hA := add_hashes_by_accepted char_signed
    (GIT_HASHSIG_IGNORE_WHITESPACE ||| GIT_HASHSIG_SMART_WHITESPACE) I
  have hB := add_hashes_by_accepted char_signed GIT_HASHSIG_IGNORE_WHITESPACE I
  rw [hacc true true] at hA
  have h1 : (hashsig_add_hashes char_signed
        (hashsig_alloc (GIT_HASHSIG_IGNORE_WHITESPACE ||| GIT_HASHSIG_SMART_WHITESPACE)) I
        HASHSIG_IN_PROGRESS_INIT).1.mins =
      (hashsig_add_hashes char_signed (hashsig_alloc GIT_HASHSIG_IGNORE_WHITESPACE) I
        HASHSIG_IN_PROGRESS_INIT).1.mins := by rw [hA, hB]
  have h2 : (hashsig_add_hashes char_signed
        (hashsig_alloc (GIT_HASHSIG_IGNORE_WHITESPACE ||| GIT_HASHSIG_SMART_WHITESPACE)) I
        HASHSIG_IN_PROGRESS_INIT).1.maxs =
      (hashsig_add_hashes char_signed (hashsig_alloc GIT_HASHSIG_IGNORE_WHITESPACE) I
        HASHSIG_IN_PROGRESS_INIT).1.maxs := by rw [hA, hB]
  have h3 : (hashsig_add_hashes char_signed
        (hashsig_alloc (GIT_HASHSIG_IGNORE_WHITESPACE ||| GIT_HASHSIG_SMART_WHITESPACE)) I
        HASHSIG_IN_PROGRESS_INIT).1.considered =
      (hashsig_add_hashes char_signed (hashsig_alloc GIT_HASHSIG_IGNORE_WHITESPACE) I
        HASHSIG_IN_PROGRESS_INIT).1.considered := by rw [hA, hB]
  refine ⟨by decide, rfl, ?_, hacc, ?_, h1, h2, h3, ?_, finalize_same_outcome _ _ h1 h2 h3⟩
  · intro c s1 s2
    rw [include_char_both, include_char_ignore]
  · rw [samples_eq_roll_samples, samples_eq_roll_samples, hacc]
  · rw [hA, hB]
    exact ⟨rfl, rfl, rfl, rfl, rfl⟩

/-- C2 (faithful bottom-k / top-k): after inserting any values `vs` with
`hashsig_heap_insert` into an empty heap, the heap holds `min(n, 127)` live
values, and their multiset is that of the 127 smallest of `vs` (the first 127
of `vs` sorted ascending) for the heap with `hashsig_cmp_min`, and that of the
127 largest (the first 127 of `vs` sorted descending) for the heap with
`hashsig_cmp_max`, duplicates counted. -/
theorem C2_heap_keeps_smallest_and_largest (vs : List Nat) :
    (vs.foldl hashsig_heap_insert (hashsig_heap_init .cmp_min)).size = min vs.length 127 ∧
    (((vs.foldl hashsig_heap_insert (hashsig_heap_init .cmp_min)).values.take
        (vs.foldl hashsig_heap_insert (hashsig_heap_init .cmp_min)).size : List Nat) :
          Multiset Nat) =
      (((vs.insertionSort (fun a b => a ≤ b)).take 127 : List Nat) : Multiset Nat) ∧
    (vs.foldl hashsig_heap_insert (hashsig_heap_init .cmp_max)).size = min vs.length 127 ∧
    (((vs.foldl hashsig_heap_insert (hashsig_heap_init .cmp_max)).values.take
        (vs.foldl hashsig_heap_insert (hashsig_heap_init .cmp_max)).size : List Nat) :
          Multiset Nat) =
      (((vs.insertionSort (fun a b => a ≥ b)).take 127 : List Nat) : Multiset Nat) := by
  have k1 := heap_keeps_fold .cmp_min vs [] _ (heap_keeps_init .cmp_min)
  have k2 := heap_keeps_fold .cmp_max vs [] _ (heap_keeps_init .cmp_max)
  rw [List.nil_append] at k1 k2
  obtain ⟨-, -, -, s1, -, p1⟩ := k1
  obtain ⟨-, -, -, s2, -, p2⟩ := k2
  have e1 : vs.insertionSort (cmp_ge .cmp_min) = vs.insertionSort (fun a b => a ≤ b) :=
    insertionSort_congr _ _ (fun a b => cmp_min_call_le b a) vs
  have e2 : vs.insertionSort (cmp_ge .cmp_max) = vs.insertionSort (fun a b => a ≥ b) :=
    insertionSort_congr _ _ (fun a b => cmp_max_call_le b a) vs
  rw [e1] at p1
  rw [e2] at p2
  exact ⟨s1, Multiset.coe_eq_coe.mpr p1, s2, Multiset.coe_eq_coe.mpr p2⟩

/-- C10 as the code has it (finalize sorts each heap by its own comparator):
after a successful `git_hashsig_create`, both heaps hold 127 values, each array
is a permutation of the heap before sorting, the max-side array is in ascending
numeric order and the min-side array is in descending numeric order. -/
theorem C10_finalize_sorts_by_comparator (char_signed : Bool) (opts : Nat) (data : List UInt8)
    (s : git_hashsig) (h : git_hashsig_create char_signed data opts = .ok s) :
    s.mins.size = 127 ∧ s.maxs.size = 127 ∧
    s.mins.values.length = 127 ∧ s.maxs.values.length = 127 ∧
    s.mins.values.Perm (hashsig_add_hashes char_signed (hashsig_alloc opts) data
      HASHSIG_IN_PROGRESS_INIT).1.mins.values ∧
    s.maxs.values.Perm (hashsig_add_hashes char_signed (hashsig_alloc opts) data
      HASHSIG_IN_PROGRESS_INIT).1.maxs.values ∧
    (∀ i, i < 126 → s.maxs.values.getD i 0 ≤ s.maxs.values.getD (i + 1) 0) ∧
    (∀ i, i < 126 → s.mins.values.getD (i + 1) 0 ≤ s.mins.values.getD i 0) := by
  obtain ⟨c1, c2, -⟩ := create_ok char_signed opts data s h
  obtain ⟨k1, k2⟩ := add_hashes_heap_keeps char_signed opts data
  obtain ⟨-, l1, m1, -, -, -⟩ := k1
  obtain ⟨-, l2, m2, -, -, -⟩ := k2
  unfold git_hashsig_create at h
  by_cases hlt : (hashsig_add_hashes char_signed (hashsig_alloc opts) data
      HASHSIG_IN_PROGRESS_INIT).1.mins.size < HASHSIG_HEAP_SIZE
  · rw [(finalize_ok_iff _).1.mpr hlt] at h
    cases h
  · rw [(finalize_ok_iff _).2 hlt] at h
    injection h with h
    subst h
    have c1v : (hashsig_add_hashes char_signed (hashsig_alloc opts) data
        HASHSIG_IN_PROGRESS_INIT).1.mins.size = 127 := c1
    have c2v : (hashsig_add_hashes char_signed (hashsig_alloc opts) data
        HASHSIG_IN_PROGRESS_INIT).1.maxs.size = 127 := c2
    simp only [heap_sort_full _ c1v l1, heap_sort_full _ c2v l2]
    have hp1 := qsort_perm
      (hashsig_add_hashes char_signed (hashsig_alloc opts) data
        HASHSIG_IN_PROGRESS_INIT).1.mins.cmp
      (hashsig_add_hashes char_signed (hashsig_alloc opts) data
        HASHSIG_IN_PROGRESS_INIT).1.mins.values
    have hp2 := qsort_perm
      (hashsig_add_hashes char_signed (hashsig_alloc opts) data
        HASHSIG_IN_PROGRESS_INIT).1.maxs.cmp
      (hashsig_add_hashes char_signed (hashsig_alloc opts) data
        HASHSIG_IN_PROGRESS_INIT).1.maxs.values
    refine ⟨c1, c2, by rw [hp1.length_eq]; exact l1, by rw [hp2.length_eq]; exact l2,
      hp1, hp2, ?_, ?_⟩
    · intro i hi
      have := pairwise_getD _ _ (qsort_sorted
        (hashsig_add_hashes char_signed (hashsig_alloc opts) data
          HASHSIG_IN_PROGRESS_INIT).1.maxs.cmp
        (hashsig_add_hashes char_signed (hashsig_alloc opts) data
          HASHSIG_IN_PROGRESS_INIT).1.maxs.values) i (by rw [hp2.length_eq, l2]; omega)
      rw [m2] at this ⊢
      exact (cmp_max_call_le _ _).mp this
    · intro i hi
      have := pairwise_getD _ _ (qsort_sorted
        (hashsig_add_hashes char_signed (hashsig_alloc opts) data
          HASHSIG_IN_PROGRESS_INIT).1.mins.cmp
        (hashsig_add_hashes char_signed (hashsig_alloc opts) data
          HASHSIG_IN_PROGRESS_INIT).1.mins.values) i (by rw [hp1.length_eq, l1]; omega)
      rw [m1] at this ⊢
      exact (cmp_min_call_le _ _).mp this

/-- The signature of 200 bytes of "abcdefgh" cycled has its max-side array
ascending and its min-side array descending. -/
theorem C10_finalize_sorts_by_comparator_witness :
    ∃ s, git_hashsig_create true abcdefgh_200 GIT_HASHSIG_NORMAL = .ok s ∧
      (∀ i, i < 126 → s.maxs.values.getD i 0 ≤ s.maxs.values.getD (i + 1) 0) ∧
      (∀ i, i < 126 → s.mins.values.getD (i + 1) 0 ≤ s.mins.values.getD i 0) := by
  obtain ⟨s, hs⟩ := create_normal_ok true abcdefgh_200 (by rw [abcdefgh_200_length]; omega)
  have h := C10_finalize_sorts_by_comparator true GIT_HASHSIG_NORMAL abcdefgh_200 s hs
  exact ⟨s, hs, h.2.2.2.2.2.2.1, h.2.2.2.2.2.2.2⟩

/-- C10 as stated fails: the signature of 200 bytes of "abcdefgh" cycled, built
under Normal options, has a min-side array that is not in ascending order
(the value at index 6 is greater than the value at index 7). -/
theorem C10_min_side_not_ascending :
    ∃ s, git_hashsig_create true abcdefgh_200 GIT_HASHSIG_NORMAL = .ok s ∧
      ¬ (∀ i, i < 126 → s.mins.values.getD i 0 ≤ s.mins.values.getD (i + 1) 0) := by
  have he : (match git_hashsig_create true abcdefgh_200 GIT_HASHSIG_NORMAL with
      | .ok s => decide (s.mins.values.getD 7 0 < s.mins.values.getD 6 0)
      | .error _ => false) = true := by decide!
  cases hres : git_hashsig_create true abcdefgh_200 GIT_HASHSIG_NORMAL with
  | error e => rw [hres] at he; cases he
  | ok s =>
    rw [hres] at he
    have hlt : s.mins.values.getD 7 0 < s.mins.values.getD 6 0 := of_decide_eq_true he
    refine ⟨s, rfl, fun hall => ?_⟩
    have h6 : s.mins.values.getD 6 0 ≤ s.mins.values.getD 7 0 := hall 6 (by omega)
    omega

/-- C11 (score 100 means identical signatures): for signatures whose four
heaps have size 127, `git_hashsig_compare a b` is 100 if and only if the
min-side arrays agree at every index 0..126 and the max-side arrays agree at
every index 0..126. -/
theorem C11_score_100_iff_identical (a b : git_hashsig)
    (h1 : a.mins.size = HASHSIG_HEAP_SIZE) (h2 : a.maxs.size = HASHSIG_HEAP_SIZE)
    (h3 : b.mins.size = HASHSIG_HEAP_SIZE) (h4 : b.maxs.size = HASHSIG_HEAP_SIZE) :
    git_hashsig_compare a b = some 100 ↔
      (∀ i, i < 127 → a.mins.values.getD i 0 = b.mins.values.getD i 0) ∧
      (∀ i, i < 127 → a.maxs.values.getD i 0 = b.maxs.values.getD i 0) := by
  rw [compare_full a b h1 h2 h3 h4, ← heap_matches_full_iff a.mins b.mins h1 h3,
    ← heap_matches_full_iff a.maxs b.maxs h2 h4]
  have hm1 := heap_matches_le a.mins b.mins
  have hm2 := heap_matches_le a.maxs b.maxs
  have hA : HASHSIG_HEAP_SIZE = 127 := rfl
  rw [h1, h3, hA] at hm1
  rw [h2, h4, hA] at hm2
  constructor
  · intro h
    injection h with h
    have h' : (100 * (hashsig_heap_matches a.mins b.mins * 2) / 254 +
        100 * (hashsig_heap_matches a.maxs b.maxs * 2) / 254) / 2 = 100 := by exact_mod_cast h
    omega
  · rintro ⟨e1, e2⟩
    rw [e1, e2]
    rfl

/-- The signature of 200 bytes of "abcdefgh" cycled scores 100 against
itself exactly because its arrays agree with themselves. -/
theorem C11_score_100_iff_identical_witness :
    ∃ s, git_hashsig_create true abcdefgh_200 GIT_HASHSIG_NORMAL = .ok s ∧
      s.mins.size = HASHSIG_HEAP_SIZE ∧ s.maxs.size = HASHSIG_HEAP_SIZE ∧
      (git_hashsig_compare s s = some 100 ↔
        (∀ i, i < 127 → s.mins.values.getD i 0 = s.mins.values.getD i 0) ∧
        (∀ i, i < 127 → s.maxs.values.getD i 0 = s.maxs.values.getD i 0)) := by
  obtain ⟨s, hs⟩ := create_normal_ok true abcdefgh_200 (by rw [abcdefgh_200_length]; omega)
  obtain ⟨h1, h2, -⟩ := create_ok true _ _ s hs
  exact ⟨s, hs, h1, h2, C11_score_100_iff_identical s s h1 h2 h1 h2⟩

/-- C14 (heap invariant under insert): after any sequence of
`hashsig_heap_insert` calls on the empty heap, `size <= 127`, every parent
compares no worse than its child (numerically `parent >= child` in the
min-side heap and `parent <= child` in the max-side heap), and so `values[0]`
is the largest live value of the min-side heap and the smallest live value of
the max-side heap. -/
theorem C14_heap_invariant (vs : List Nat) :
    (vs.foldl hashsig_heap_insert (hashsig_heap_init .cmp_min)).size ≤ 127 ∧
    (∀ i, 0 < i → i < (vs.foldl hashsig_heap_insert (hashsig_heap_init .cmp_min)).size →
      (vs.foldl hashsig_heap_insert (hashsig_heap_init .cmp_min)).values.getD i 0 ≤
        (vs.foldl hashsig_heap_insert (hashsig_heap_init .cmp_min)).values.getD
          ((i - 1) / 2) 0) ∧
    (∀ i, i < (vs.foldl hashsig_heap_insert (hashsig_heap_init .cmp_min)).size →
      (vs.foldl hashsig_heap_insert (hashsig_heap_init .cmp_min)).values.getD i 0 ≤
        (vs.foldl hashsig_heap_insert (hashsig_heap_init .cmp_min)).values.getD 0 0) ∧
    (vs.foldl hashsig_heap_insert (hashsig_heap_init .cmp_max)).size ≤ 127 ∧
    (∀ i, 0 < i → i < (vs.foldl hashsig_heap_insert (hashsig_heap_init .cmp_max)).size →
      (vs.foldl hashsig_heap_insert (hashsig_heap_init .cmp_max)).values.getD
          ((i - 1) / 2) 0 ≤
        (vs.foldl hashsig_heap_insert (hashsig_heap_init .cmp_max)).values.getD i 0) ∧
    (∀ i, i < (vs.foldl hashsig_heap_insert (hashsig_heap_init .cmp_max)).size →
      (vs.foldl hashsig_heap_insert (hashsig_heap_init .cmp_max)).values.getD 0 0 ≤
        (vs.foldl hashsig_heap_insert (hashsig_heap_init .cmp_max)).values.getD i 0) := by
  have k1 := heap_keeps_fold .cmp_min vs [] _ (heap_keeps_init .cmp_min)
  have k2 := heap_keeps_fold .cmp_max vs [] _ (heap_keeps_init .cmp_max)
  rw [List.nil_append] at k1 k2
  obtain ⟨-, -, -, s1, o1, -⟩ := k1
  obtain ⟨-, -, -, s2, o2, -⟩ := k2
  refine ⟨by omega, ?_, ?_, by omega, ?_, ?_⟩
  · intro i hi0 hin
    exact (cmp_min_call_le _ _).mp (o1 i hi0 hin)
  · intro i hin
    exact (cmp_min_call_le _ _).mp (heap_ok_root _ _ _ o1 i hin)
  · intro i hi0 hin
    exact (cmp_max_call_le _ _).mp (o2 i hi0 hin)
  · intro i hin
    exact (cmp_max_call_le _ _).mp (heap_ok_root _ _ _ o2 i hin)

/-- C16 as stated fails: under SmartWhitespace, a space examined while `saw_lf`
is set is rejected and leaves `saw_lf` set, although the byte is not LF. -/
theorem C16_rejected_byte_keeps_saw_lf :
    hashsig_include_char 32 GIT_HASHSIG_SMART_WHITESPACE true = (false, true) ∧
    ¬ ((hashsig_include_char 32 GIT_HASHSIG_SMART_WHITESPACE true).2 = true ↔
        (32 : Int) = 10) := by
  decide

/-- C16 as the code has it: with SmartWhitespace set and IgnoreWhitespace not
set, `hashsig_include_char` updates `saw_lf` only when it accepts the byte:
after an accepted byte `saw_lf` is true if and only if that byte is LF, and
after a rejected byte `saw_lf` is unchanged. -/
theorem C16_saw_lf_tracks_accepted_byte (c : Int) (s : Bool) :
    ((hashsig_include_char c GIT_HASHSIG_SMART_WHITESPACE s).1 = true →
      ((hashsig_include_char c GIT_HASHSIG_SMART_WHITESPACE s).2 = true ↔ c = 10)) ∧
    ((hashsig_include_char c GIT_HASHSIG_SMART_WHITESPACE s).1 = false →
      (hashsig_include_char c GIT_HASHSIG_SMART_WHITESPACE s).2 = s) := by
  have h1 : ¬ (GIT_HASHSIG_SMART_WHITESPACE &&& GIT_HASHSIG_IGNORE_WHITESPACE ≠ 0) := by decide
  have h2 : GIT_HASHSIG_SMART_WHITESPACE &&& GIT_HASHSIG_SMART_WHITESPACE ≠ 0 := by decide
  unfold hashsig_include_char
  rw [if_neg (fun h => h1 h.1), if_pos h2]
  by_cases hrej : c = 13 ∨ (s = true ∧ git__isspace c = true)
  · rw [if_pos hrej]
    exact ⟨fun h => (by cases h), fun _ => rfl⟩
  · rw [if_neg hrej]
    exact ⟨fun _ => (by simp), fun h => (by cases h)⟩

/-- C17 (sample count): with `n` the number of bytes that the filter accepts,
and `n <= INT_MAX + 7` (so that the `int` counter `considered` never overflows:
it is at most `INT_MAX` after every prefix of the input), feeding an input
leaves `considered = 0` when `n < 8` and `considered = n - 7` otherwise;
`considered` is the number of samples emitted, the heaps are the empty heaps
with exactly these samples inserted in order, once each, and both heap sizes
are `min(considered, 127)`.  For "Hello, world." under Normal options
`considered = 6`. -/
theorem C17_sample_count (char_signed : Bool) (opts : Nat) (data : List UInt8)
    (hb : (hashsig_accepted char_signed opts true data).1.length ≤ INT_MAX + 7) :
    (∀ pre suf, data = pre ++ suf →
      (hashsig_add_hashes char_signed (hashsig_alloc opts) pre
        HASHSIG_IN_PROGRESS_INIT).1.considered ≤ INT_MAX) ∧
    (hashsig_add_hashes char_signed (hashsig_alloc opts) data
        HASHSIG_IN_PROGRESS_INIT).1.considered =
      (if (hashsig_accepted char_signed opts true data).1.length < 8 then 0
        else (hashsig_accepted char_signed opts true data).1.length - 7) ∧
    (hashsig_samples char_signed opts HASHSIG_IN_PROGRESS_INIT data).length =
      (hashsig_add_hashes char_signed (hashsig_alloc opts) data
        HASHSIG_IN_PROGRESS_INIT).1.considered ∧
    (hashsig_add_hashes char_signed (hashsig_alloc opts) data
        HASHSIG_IN_PROGRESS_INIT).1.mins =
      (hashsig_samples char_signed opts HASHSIG_IN_PROGRESS_INIT data).foldl
        hashsig_heap_insert (hashsig_heap_init .cmp_min) ∧
    (hashsig_add_hashes char_signed (hashsig_alloc opts) data
        HASHSIG_IN_PROGRESS_INIT).1.maxs =
      (hashsig_samples char_signed opts HASHSIG_IN_PROGRESS_INIT data).foldl
        hashsig_heap_insert (hashsig_heap_init .cmp_max) ∧
    (hashsig_add_hashes char_signed (hashsig_alloc opts) data
        HASHSIG_IN_PROGRESS_INIT).1.mins.size =
      min (hashsig_add_hashes char_signed (hashsig_alloc opts) data
        HASHSIG_IN_PROGRESS_INIT).1.considered 127 ∧
    (hashsig_add_hashes char_signed (hashsig_alloc opts) data
        HASHSIG_IN_PROGRESS_INIT).1.maxs.size =
      min (hashsig_add_hashes char_signed (hashsig_alloc opts) data
        HASHSIG_IN_PROGRESS_INIT).1.considered 127 ∧
    (hashsig_add_hashes char_signed (hashsig_alloc GIT_HASHSIG_NORMAL) hello_world
        HASHSIG_IN_PROGRESS_INIT).1.considered = 6 := by
  obtain ⟨hw, hc, ha1, ha2, hs1, hs2, hc1, hc2⟩ := fed_inv_add_hashes char_signed opts data
  obtain ⟨hm1, hm2⟩ := add_hashes_heaps char_signed data (hashsig_alloc opts)
    HASHSIG_IN_PROGRESS_INIT
  have hlen := roll_samples_length char_signed (hashsig_accepted char_signed opts true data).1
    HASHSIG_IN_PROGRESS_INIT 0 rfl
  have hhello := (fed_inv_add_hashes char_signed GIT_HASHSIG_NORMAL hello_world).2.1
  rw [accepted_normal] at hhello
  refine ⟨considered_le_int_max char_signed opts data hb, ?_, ?_, hm1, hm2, ?_, ?_, hhello⟩
  · rw [hc]; split_ifs <;> omega
  · rw [samples_eq_roll_samples, hc]
    have : HASHSIG_IN_PROGRESS_INIT.saw_lf = true := rfl
    rw [this, hlen]; omega
  · rw [hs1, hc]; rfl
  · rw [hs2, hc]; rfl

theorem C17_sample_count_witness :
    (hashsig_accepted true GIT_HASHSIG_NORMAL true hello_world).1.length ≤ INT_MAX + 7 ∧
    (hashsig_add_hashes true (hashsig_alloc GIT_HASHSIG_NORMAL) hello_world
        HASHSIG_IN_PROGRESS_INIT).1.considered =
      (if (hashsig_accepted true GIT_HASHSIG_NORMAL true hello_world).1.length < 8 then 0
        else (hashsig_accepted true GIT_HASHSIG_NORMAL true hello_world).1.length - 7) :=
  ⟨by rw [accepted_normal]; decide,
    (C17_sample_count true GIT_HASHSIG_NORMAL hello_world
      (by rw [accepted_normal]; decide)).2.1⟩

/-- C15 (SmartWhitespace rejection rule): with only SmartWhitespace set, after
any prefix `pre` of the input, `saw_lf` is true exactly when no byte has been
accepted yet or the last accepted byte is LF, and the next byte `b` is rejected
if and only if it is CR, or it is whitespace and no byte has been accepted or
the last accepted byte is LF.  So the accepted stream does not start with
whitespace, holds no CR and has no whitespace directly after an LF; of
"a LF LF LF" only "a LF" is accepted. -/
theorem C15_smart_whitespace_rule (char_signed : Bool) (pre : List UInt8) (b : UInt8) :
    ((hashsig_accepted char_signed GIT_HASHSIG_SMART_WHITESPACE true pre).2 = true ↔
      at_line_start (hashsig_accepted char_signed GIT_HASHSIG_SMART_WHITESPACE true pre).1) ∧
    ((hashsig_include_char (char_of_uchar char_signed b.toNat) GIT_HASHSIG_SMART_WHITESPACE
        (hashsig_accepted char_signed GIT_HASHSIG_SMART_WHITESPACE true pre).2).1 = false ↔
      b.toNat = 13 ∨ (is_ws b = true ∧
        at_line_start (hashsig_accepted char_signed GIT_HASHSIG_SMART_WHITESPACE true pre).1)) ∧
    (∀ x, (hashsig_accepted char_signed GIT_HASHSIG_SMART_WHITESPACE true pre).1.head? = some x →
      is_ws x = false) ∧
    (∀ x, x ∈ (hashsig_accepted char_signed GIT_HASHSIG_SMART_WHITESPACE true pre).1 →
      x.toNat ≠ 13) ∧
    List.Chain' no_ws_after_lf
      (hashsig_accepted char_signed GIT_HASHSIG_SMART_WHITESPACE true pre).1 ∧
    (hashsig_accepted char_signed GIT_HASHSIG_SMART_WHITESPACE true [97, 10, 10, 10]).1 =
      [97, 10] := by
  have hflag := smart_flag_inv char_signed pre true []
    (by unfold at_line_start; simp)
  rw [List.nil_append] at hflag
  refine ⟨hflag, ?_, fun x hx => smart_head_not_ws char_signed pre x hx,
    fun x hx => smart_no_cr char_signed pre true x hx, smart_chain char_signed pre true, ?_⟩
  · rw [(include_char_smart char_signed b _).1, hflag]
  · cases char_signed <;> decide

/-- C12 (the importer is a faithful forwarder): `git_importer_create` returns 0
with an importer owned by the repository; `git_importer_blob` on it returns
exactly what `git_blob_create_frombuffer` returns for the repository, buffer
and length (code, id and resulting store), also over any number of successive
calls, so every lookup sees the same as after direct calls; on the example
store the three tests find each blob with the size and bytes of its buffer. -/
theorem C12_importer_forwards {Repo World Oid : Type}
    (frombuffer : Repo → World → List UInt8 → Nat → Int × Oid × World) (repo : Repo)
    (w : World) (buffer : List UInt8) (len : Nat) (bufs : List (List UInt8)) :
    (git_importer_create repo).1 = 0 ∧
    (git_importer_create repo).2.owner = repo ∧
    git_importer_blob frombuffer (git_importer_create repo).2 w buffer len =
      frombuffer repo w buffer len ∧
    importer_blobs frombuffer (git_importer_create repo).2 w bufs =
      frombuffer_blobs frombuffer repo w bufs ∧
    (∀ (Blob : Type) (lookup : Repo → World → Oid → Blob),
      lookup repo (git_importer_blob frombuffer (git_importer_create repo).2 w buffer len).2.2
          (git_importer_blob frombuffer (git_importer_create repo).2 w buffer len).2.1 =
        lookup repo (frombuffer repo w buffer len).2.2 (frombuffer repo w buffer len).2.1) ∧
    (importer_blobs example_frombuffer (git_importer_create ()).2 []
        [hello_world, some_more_data, even_more_data]).1 = [(0, 0), (0, 1), (0, 2)] ∧
    example_lookup (importer_blobs example_frombuffer (git_importer_create ()).2 []
        [hello_world, some_more_data, even_more_data]).2 0 = some hello_world ∧
    example_lookup (importer_blobs example_frombuffer (git_importer_create ()).2 []
        [hello_world, some_more_data, even_more_data]).2 1 = some some_more_data ∧
    example_lookup (importer_blobs example_frombuffer (git_importer_create ()).2 []
        [hello_world, some_more_data, even_more_data]).2 2 = some even_more_data := by
  refine ⟨rfl, rfl, rfl, importer_blobs_eq frombuffer repo w bufs, fun _ _ => rfl,
    by decide, by decide, by decide, by decide⟩

/-- C19 (the merge counts the multiset intersection): for two heaps that share
a comparator and whose live values are each sorted by it, the number of
matches counted by `hashsig_heap_compare` is the size of the multiset
intersection of the live values, and the value returned is
`floor(200 * that size / (a.size + b.size))` (no value when both heaps are
empty, where the code divides by zero). -/
theorem C19_merge_counts_intersection (a b : hashsig_heap) (hc : a.cmp = b.cmp)
    (hla : a.size ≤ a.values.length) (hlb : b.size ≤ b.values.length)
    (hsa : (a.values.take a.size).Pairwise (cmp_le a.cmp))
    (hsb : (b.values.take b.size).Pairwise (cmp_le b.cmp)) :
    hashsig_heap_matches a b =
      Multiset.card (((a.values.take a.size : List Nat) : Multiset Nat) ∩
        ((b.values.take b.size : List Nat) : Multiset Nat)) ∧
    hashsig_heap_compare a b =
      if a.size + b.size = 0 then none
      else some (((200 * Multiset.card (((a.values.take a.size : List Nat) : Multiset Nat) ∩
        ((b.values.take b.size : List Nat) : Multiset Nat)) / (a.size + b.size) : Nat) : Int)) := by
  rw [← hc] at hsb
  have hm : hashsig_heap_matches a b =
      Multiset.card (((a.values.take a.size : List Nat) : Multiset Nat) ∩
        ((b.values.take b.size : List Nat) : Multiset Nat)) := by
    have h := compare_loop_inter a b hla hlb hsa hsb (a.size + b.size) 0 0 0 (by omega)
    simpa [hashsig_heap_matches] using h
  refine ⟨hm, ?_⟩
  unfold hashsig_heap_compare
  rw [hm]
  by_cases h0 : a.size + b.size = 0
  · rw [if_pos h0, if_pos h0]
  · rw [if_neg h0, if_neg h0, Int.ofNat_tdiv]
    congr 1
    push_cast
    ring_nf

/-- Two small sorted max-side heaps, with values 2, 5, 9 and 2, 3, 5, 7, have
the two common values 2 and 5. -/
theorem C19_merge_counts_intersection_witness :
    (heap_of .cmp_max [2, 5, 9]).cmp = (heap_of .cmp_max [2, 3, 5, 7]).cmp ∧
    hashsig_heap_matches (heap_of .cmp_max [2, 5, 9]) (heap_of .cmp_max [2, 3, 5, 7]) =
      Multiset.card ((((heap_of .cmp_max [2, 5, 9]).values.take
          (heap_of .cmp_max [2, 5, 9]).size : List Nat) : Multiset Nat) ∩
        (((heap_of .cmp_max [2, 3, 5, 7]).values.take
          (heap_of .cmp_max [2, 3, 5, 7]).size : List Nat) : Multiset Nat)) :=
  ⟨rfl, (C19_merge_counts_intersection (heap_of .cmp_max [2, 5, 9])
    (heap_of .cmp_max [2, 3, 5, 7]) rfl (heap_of_live _ _).2 (heap_of_live _ _).2
    (by rw [(heap_of_live _ _).1]; decide) (by rw [(heap_of_live _ _).1]; decide)).1⟩

/-- C18 (the mixer is a permutation of the 32-bit words): `fmix32` maps
`uint32_t` to `uint32_t`, `fmix32_inv` undoes it and is undone by it, so
`fmix32` is a bijection of the 32-bit words: equal outputs come from equal
inputs, and two states with different low 32 bits give different samples. -/
theorem C18_fmix32_bijective :
    (∀ x, fmix32 (u32 x) < 2 ^ 32) ∧
    (∀ x, fmix32_inv (fmix32 (u32 x)) = u32 x) ∧
    (∀ y, fmix32 (fmix32_inv (u32 y)) = u32 y) ∧
    (∀ x y, x < 2 ^ 32 → y < 2 ^ 32 → fmix32 x = fmix32 y → x = y) ∧
    (∀ y, y < 2 ^ 32 → ∃ x, x < 2 ^ 32 ∧ fmix32 x = y) ∧
    (∀ s1 s2, u32 s1 ≠ u32 s2 → fmix32 (u32 s1) ≠ fmix32 (u32 s2)) := by
  have hinj : ∀ x y, x < 2 ^ 32 → y < 2 ^ 32 → fmix32 x = fmix32 y → x = y := by
    intro x y hx hy h
    rw [← fmix32_left_inv x hx, ← fmix32_left_inv y hy, h]
  refine ⟨fmix32_lt, fun x => fmix32_left_inv _ (u32_lt x),
    fun y => fmix32_right_inv _ (u32_lt y), hinj, ?_, ?_⟩
  · intro y hy
    refine ⟨fmix32_inv y, ?_, fmix32_right_inv y hy⟩
    have := fmix32_inv_lt y
    rw [u32_of_lt y hy] at this
    exact this
  · intro s1 s2 hne h
    exact hne (hinj _ _ (u32_lt s1) (u32_lt s2) h)

/-- C20 (heap indexing stays in bounds): for a heap with `size <= 127 = asize`
over the 127-slot array, `hashsig_heap_insert_traced` computes the heap of
`hashsig_heap_insert` and records every access of `hashsig_heap_insert`,
`hashsig_heap_down` and `hashsig_heap_up` to `h->values`; every recorded index
is at most 126 and at most `h->size` at that moment; a load at an index outside
the live range `0..size-1` happens only after the pop of a full heap
(`size = 126`), is a load of slot 126, and returns the value the pop moved to
the root, the value being sifted down; the result again has
`size <= 127 = asize` and 127 slots, and on a well-formed full heap its live
values are the old ones with the root replaced by `val`. -/
theorem C20_heap_indices_in_bounds (h : hashsig_heap) (val : Nat)
    (hsize : h.size ≤ 127) (hasize : h.asize = 127) (hlen : h.values.length = 127) :
    (hashsig_heap_insert_traced h val).1 = hashsig_heap_insert h val ∧
    (∀ a ∈ (hashsig_heap_insert_traced h val).2,
      a.idx ≤ 126 ∧ a.idx ≤ a.live ∧ a.live ≤ 127) ∧
    (∀ a ∈ (hashsig_heap_insert_traced h val).2, a.wr = false → a.live ≤ a.idx →
      h.size = 127 ∧ a.live = 126 ∧ a.idx = 126 ∧ a.val = h.values.getD 126 0) ∧
    (hashsig_heap_insert h val).size ≤ 127 ∧ (hashsig_heap_insert h val).asize = 127 ∧
    (hashsig_heap_insert h val).values.length = 127 ∧
    (heap_ok h.cmp h.values h.size → h.size = 127 →
      0 < h.cmp.call val (h.values.getD 0 0) →
      ((hashsig_heap_insert h val).values.take (hashsig_heap_insert h val).size).Perm
        (val :: (h.values.take h.size).tail)) := by
  obtain ⟨t1, t2, t3, t4, t5⟩ := heap_insert_traced_spec h val hsize hasize hlen
  refine ⟨t1, fun a ha => ⟨(t2 a ha).1, (t2 a ha).2.1, (t2 a ha).2.2.1⟩,
    fun a ha => (t2 a ha).2.2.2, t3, t4, t5, ?_⟩
  intro hok hs hc
  exact (heap_insert_spec h val hasize hlen hsize hok).2.2.2.1 hs hc

theorem C20_heap_indices_in_bounds_witness :
    full_heap_0_126.size ≤ 127 ∧ full_heap_0_126.asize = 127 ∧
    full_heap_0_126.values.length = 127 ∧
    ∀ a ∈ (hashsig_heap_insert_traced full_heap_0_126 200).2,
      a.idx ≤ 126 ∧ a.idx ≤ a.live ∧ a.live ≤ 127 :=
  ⟨by decide, rfl, List.length_range 127,
    (C20_heap_indices_in_bounds full_heap_0_126 200 (by decide) rfl
      (List.length_range 127)).2.1⟩

/-- C13 (samples depend only on the current window) fails where `char` is
signed: after the nine accepted bytes 0x80, 1, ..., 8 under Normal options the
rolling state is 306820148, while the warm-up loop of `hashsig_initial_window`
on a fresh in-progress state fed the last eight bytes 1, ..., 8 leaves 37753652;
the second sample emitted is 1179828148 instead of 2775138923.  The byte 0x80
leaves the window as the `char` -128, whose conversion to `uint64_t` in
`rmv` is sign-extended, so its contribution is not cancelled.  Where `char` is
unsigned the two states agree on this input, and indeed on every input with at
least eight accepted bytes; where `char` is signed they agree on every input
whose accepted bytes are all below 0x80. -/
theorem C13_signed_char_removal_does_not_cancel :
    (hashsig_add_hashes true (hashsig_alloc GIT_HASHSIG_NORMAL) high_byte_input
      HASHSIG_IN_PROGRESS_INIT).2.state = 306820148 ∧
    (hashsig_initial_window true (hashsig_alloc GIT_HASHSIG_NORMAL) (high_byte_input.drop 1)
      HASHSIG_IN_PROGRESS_INIT).2.1.state = 37753652 ∧
    hashsig_samples true GIT_HASHSIG_NORMAL HASHSIG_IN_PROGRESS_INIT high_byte_input =
      [1700723565, 1179828148] ∧
    hashsig_samples true GIT_HASHSIG_NORMAL HASHSIG_IN_PROGRESS_INIT (high_byte_input.drop 1) =
      [2775138923] ∧
    (hashsig_add_hashes false (hashsig_alloc GIT_HASHSIG_NORMAL) high_byte_input
      HASHSIG_IN_PROGRESS_INIT).2.state = 37753652 ∧
    (hashsig_initial_window false (hashsig_alloc GIT_HASHSIG_NORMAL) (high_byte_input.drop 1)
      HASHSIG_IN_PROGRESS_INIT).2.1.state = 37753652 ∧
    (∀ (o : Nat) (data : List UInt8), 8 ≤ (hashsig_accepted false o true data).1.length →
      (hashsig_add_hashes false (hashsig_alloc o) data HASHSIG_IN_PROGRESS_INIT).2.state =
        (hashsig_initial_window false (hashsig_alloc GIT_HASHSIG_NORMAL)
          ((hashsig_accepted false o true data).1.drop
            ((hashsig_accepted false o true data).1.length - 8))
          HASHSIG_IN_PROGRESS_INIT).2.1.state) ∧
    (∀ (o : Nat) (data : List UInt8), 8 ≤ (hashsig_accepted true o true data).1.length →
      (∀ b ∈ (hashsig_accepted true o true data).1, b.toNat < 128) →
      (hashsig_add_hashes true (hashsig_alloc o) data HASHSIG_IN_PROGRESS_INIT).2.state =
        (hashsig_initial_window true (hashsig_alloc GIT_HASHSIG_NORMAL)
          ((hashsig_accepted true o true data).1.drop
            ((hashsig_accepted true o true data).1.length - 8))
          HASHSIG_IN_PROGRESS_INIT).2.1.state) := by
  refine ⟨by decide!, by decide!, by decide!, by decide!, by decide!, by decide!, ?_, ?_⟩
  · intro o data h8
    exact state_eq_warmup_of_last_eight false o data
      (fun b _ => char_of_uchar_unsigned b.toNat) h8
  · intro o data h8 hlow
    exact state_eq_warmup_of_last_eight true o data
      (fun b hb => char_of_uchar_ascii true b.toNat (hlow b hb)) h8

end Hashsig
